import Mathlib

/-!
# Windows processor-topology compiler (`win_system_conf.cpp`)

A shallow embedding of `ov::parse_processor_info_win` and of the helpers it
uses, followed by theorems about the tables it builds.

Modelling conventions

* `std::vector<int>` is `List Int`, `std::vector<std::vector<int>>` is
  `List (List Int)`.  `v[i]` on a vector is `vecGet` / `vecSet`, which return
  `none` when the index is outside the vector: an out-of-range `operator[]`
  is undefined behaviour in the source and is a failed run in the model.
* `int` variables are `Int`.  Signed overflow is undefined in the source and
  the counters of a run are bounded by 64 times the number of records, so the
  model uses the integers without wrap-around.
* `KAFFINITY` masks are natural numbers; the model puts no width on them.
* The buffer walk `for (; info_ptr < base_ptr + len; info_ptr += info->Size)`
  visits a sequence of records; the model takes that sequence as a list.
* The lambda `MaskToList` writes the captured locals `list` and `list_len`.
  Every branch that reads them calls `MaskToList` first, so their values
  never flow from one record to the next and the model keeps them local to
  the record being processed; `list_len` is `list.length`.
-/

namespace ov

/-! ## Records -/

/-- The `LOGICAL_PROCESSOR_RELATIONSHIP` tag of a topology record. -/
inductive LOGICAL_PROCESSOR_RELATIONSHIP where
  | RelationProcessorCore
  | RelationNumaNode
  | RelationCache
  | RelationProcessorPackage
  | RelationGroup
  deriving DecidableEq

open LOGICAL_PROCESSOR_RELATIONSHIP

/-- One `SYSTEM_LOGICAL_PROCESSOR_INFORMATION_EX` record, reduced to the
fields the parser reads: the relationship tag, the record size, the affinity
mask of the union member selected by the tag (`Processor.GroupMask->Mask` or
`Cache.GroupMask.Mask`) and `Cache.Level`. -/
structure SYSTEM_LOGICAL_PROCESSOR_INFORMATION_EX where
  Relationship : LOGICAL_PROCESSOR_RELATIONSHIP
  Size : Nat
  Mask : Nat
  Level : Nat
  deriving DecidableEq

/-! ## Table layout -/

/-- Modelled from the spec: column `All` of a `ProcTypeTable` row (the
enumeration is declared in a header outside the sources; the column order
All, MainPerformance, Efficient, HyperthreadSibling is the one in which the
spec lists aggregate rows). -/
def ALL_PROC : Int := 0

/-- Modelled from the spec: column and core type `MainPerformance`. -/
def MAIN_CORE_PROC : Int := 1

/-- Modelled from the spec: column and core type `Efficient`. -/
def EFFICIENT_CORE_PROC : Int := 2

/-- Modelled from the spec: column and core type `HyperthreadSibling`. -/
def HYPER_THREADING_PROC : Int := 3

/-- Modelled from the spec: width of a `ProcTypeTable` row (the `All` column
and the three core types). -/
def PROC_TYPE_TABLE_SIZE : Nat := 4

/-- Modelled from the spec: column `processorId` of a `CpuMappingRow`. -/
def CPU_MAP_PROCESSOR_ID : Int := 0

/-- Modelled from the spec: column `socketId` of a `CpuMappingRow`. -/
def CPU_MAP_SOCKET_ID : Int := 1

/-- Modelled from the spec: column `physicalCoreId` of a `CpuMappingRow`. -/
def CPU_MAP_CORE_ID : Int := 2

/-- Modelled from the spec: column `coreType` of a `CpuMappingRow`. -/
def CPU_MAP_CORE_TYPE : Int := 3

/-- Modelled from the spec: column `groupId` of a `CpuMappingRow`. -/
def CPU_MAP_GROUP_ID : Int := 4

/-- Modelled from the spec: width of a `CpuMappingRow`; the five fields of the
spec and one further column the parser never writes. -/
def CPU_MAP_TABLE_SIZE : Nat := 6

/-- The local `proc_init_line(PROC_TYPE_TABLE_SIZE, 0)`. -/
def proc_init_line : List Int := List.replicate PROC_TYPE_TABLE_SIZE 0

/-- The local `cpu_init_line(CPU_MAP_TABLE_SIZE, -1)`. -/
def cpu_init_line : List Int := List.replicate CPU_MAP_TABLE_SIZE (-1)

/-! ## Vector access -/

/-- Read `v[i]`; `none` when `i` is outside the vector. -/
def vecGet {α : Type} (v : List α) (i : Int) : Option α :=
  if 0 ≤ i then v[i.toNat]? else none

/-- Write `v[i] = x`; `none` when `i` is outside the vector. -/
def vecSet {α : Type} (v : List α) (i : Int) (x : α) : Option (List α) :=
  if 0 ≤ i ∧ i.toNat < v.length then some (v.set i.toNat x) else none

/-- Read `t[i][j]`. -/
def tabGet (t : List (List Int)) (i j : Int) : Option Int :=
  (vecGet t i).bind fun row => vecGet row j

/-- Write `t[i][j] = x`. -/
def tabSet (t : List (List Int)) (i j : Int) (x : Int) : Option (List (List Int)) :=
  (vecGet t i).bind fun row => (vecSet row j x).bind fun row1 => vecSet t i row1

/-- The update `t[i][j] += d`. -/
def tabAdd (t : List (List Int)) (i j : Int) (d : Int) : Option (List (List Int)) :=
  (tabGet t i j).bind fun x => tabSet t i j (x + d)

/-! ## `MaskToList` -/

/-- The loop `while (mask != 0)` of `MaskToList`: `cnt` is the bit position,
`list` the positions pushed so far.  The first argument bounds the number of
iterations; `mask` itself is enough, since each iteration halves the mask. -/
def MaskToList.loop : Nat → Nat → Int → List Int → List Int
  | 0, _, _, list => list
  | fuel + 1, mask, cnt, list =>
    if mask = 0 then list
    else
      MaskToList.loop fuel (mask >>> 1) (cnt + 1)
        (if 1 = mask &&& 1 then list ++ [cnt] else list)

/-- The lambda `MaskToList`: the positions of the set bits of the mask, lowest
first. -/
def MaskToList (mask_input : Nat) : List Int :=
  MaskToList.loop mask_input mask_input 0 []

/-! ## Parser state -/

/-- The variables of `parse_processor_info_win` that live across records: the
five output parameters and the locals `base_proc`, `group`, `group_start`,
`group_end`, `group_id`, `group_type`. -/
structure State where
  _processors : Int
  _sockets : Int
  _cores : Int
  _proc_type_table : List (List Int)
  _cpu_mapping_table : List (List Int)
  base_proc : Int
  group : Int
  group_start : Int
  group_end : Int
  group_id : Int
  group_type : Int
  deriving DecidableEq

/-- The state before the first record: the tables are the ones passed in, the
counters are initialised as in lines 55 to 66. -/
def initState (ptt cmt : List (List Int)) : State :=
  { _processors := 0, _sockets := -1, _cores := 0,
    _proc_type_table := ptt, _cpu_mapping_table := cmt,
    base_proc := 0, group := 0,
    group_start := 0, group_end := 0, group_id := 0, group_type := 0 }

/-! ## The three record branches -/

/-- Branch `RelationProcessorPackage` (lines 90 to 98). -/
def stepPackage (s : State) (info : SYSTEM_LOGICAL_PROCESSOR_INFORMATION_EX) : Option State :=
  let _sockets := s._sockets + 1
  let _list := MaskToList info.Mask
  if 0 = _sockets then
    some { s with _sockets := _sockets,
                  _proc_type_table := s._proc_type_table ++ [proc_init_line] }
  else
    (vecGet s._proc_type_table 0).bind fun row0 =>
    (vecSet (s._proc_type_table ++ [row0]) 0 proc_init_line).bind fun t =>
    some { s with _sockets := _sockets, _proc_type_table := t }

/-- The five assignments to `proc_info` that fill a fresh `cpu_init_line`. -/
def fillProcInfo (id socket core type grp : Int) : Option (List Int) :=
  (vecSet cpu_init_line CPU_MAP_PROCESSOR_ID id).bind fun p =>
  (vecSet p CPU_MAP_SOCKET_ID socket).bind fun p =>
  (vecSet p CPU_MAP_CORE_ID core).bind fun p =>
  (vecSet p CPU_MAP_CORE_TYPE type).bind fun p =>
  vecSet p CPU_MAP_GROUP_ID grp

/-- The three assignments to `proc_info` of the `else` sub-case when the
window test fails: type and group keep the `-1` of `cpu_init_line`. -/
def fillProcInfoDefault (id socket core : Int) : Option (List Int) :=
  (vecSet cpu_init_line CPU_MAP_PROCESSOR_ID id).bind fun p =>
  (vecSet p CPU_MAP_SOCKET_ID socket).bind fun p =>
  vecSet p CPU_MAP_CORE_ID core

/-- Branch `RelationProcessorCore` (lines 99 to 141). -/
def stepCore (s : State) (info : SYSTEM_LOGICAL_PROCESSOR_INFORMATION_EX) : Option State :=
  let list := MaskToList info.Mask
  let list_len : Int := list.length
  (vecGet list 0).bind fun l0 =>
  let base_proc := if 0 = l0 then s._processors else s.base_proc
  if 2 = list_len then
    (fillProcInfo (l0 + base_proc) s._sockets s._cores HYPER_THREADING_PROC s.group).bind fun p0 =>
    (vecGet list 1).bind fun l1 =>
    (fillProcInfo (l1 + base_proc) s._sockets s._cores MAIN_CORE_PROC s.group).bind fun p1 =>
    (tabAdd s._proc_type_table 0 MAIN_CORE_PROC 1).bind fun t =>
    (tabAdd t 0 HYPER_THREADING_PROC 1).bind fun t =>
    (tabAdd t 0 ALL_PROC list_len).bind fun t =>
    some { s with base_proc := base_proc,
                  _cpu_mapping_table := s._cpu_mapping_table ++ [p0] ++ [p1],
                  _proc_type_table := t,
                  group := s.group + 1,
                  _processors := s._processors + list_len,
                  _cores := s._cores + 1 }
  else if s._processors > s.group_start ∧ s._processors ≤ s.group_end then
    (fillProcInfo (l0 + base_proc) s._sockets s._cores s.group_type s.group_id).bind fun p0 =>
    (tabAdd s._proc_type_table 0 s.group_type 1).bind fun t =>
    (tabAdd t 0 ALL_PROC list_len).bind fun t =>
    some { s with base_proc := base_proc,
                  _cpu_mapping_table := s._cpu_mapping_table ++ [p0],
                  _proc_type_table := t,
                  _processors := s._processors + list_len,
                  _cores := s._cores + 1 }
  else
    (fillProcInfoDefault (l0 + base_proc) s._sockets s._cores).bind fun p0 =>
    (tabAdd s._proc_type_table 0 ALL_PROC list_len).bind fun t =>
    some { s with base_proc := base_proc,
                  _cpu_mapping_table := s._cpu_mapping_table ++ [p0],
                  _proc_type_table := t,
                  _processors := s._processors + list_len,
                  _cores := s._cores + 1 }

/-- The loop `for (int m = 0; m < _processors - list[0]; m++)` of the 4-wide
cache sub-case (lines 153 to 157), on the pair of tables it updates.  The
first argument is the number of iterations left, `m` the loop variable. -/
def cacheLoop (list : List Int) (base_proc group : Int) :
    Nat → Int → List (List Int) × List (List Int) → Option (List (List Int) × List (List Int))
  | 0, _, tabs => some tabs
  | k + 1, m, (ptt, cmt) =>
    (vecGet list m).bind fun lm =>
    (tabSet cmt (lm + base_proc) CPU_MAP_CORE_TYPE EFFICIENT_CORE_PROC).bind fun cmt =>
    (tabSet cmt (lm + base_proc) CPU_MAP_GROUP_ID group).bind fun cmt =>
    (tabAdd ptt 0 EFFICIENT_CORE_PROC 1).bind fun ptt =>
    cacheLoop list base_proc group k (m + 1) (ptt, cmt)

/-- Branch `RelationCache` with `Cache.Level == 2` (lines 143 to 166). -/
def stepCache (s : State) (info : SYSTEM_LOGICAL_PROCESSOR_INFORMATION_EX) : Option State :=
  let list := MaskToList info.Mask
  let list_len : Int := list.length
  if 4 = list_len then
    (vecGet list (list_len - 1)).bind fun last =>
    (vecGet list 0).bind fun l0 =>
    let s1 : State :=
      if s._processors < last + s.base_proc then
        { s with group_start := l0, group_end := last,
                 group_id := s.group, group_type := EFFICIENT_CORE_PROC }
      else s
    (cacheLoop list s.base_proc s.group (s._processors - l0).toNat 0
        (s._proc_type_table, s._cpu_mapping_table)).bind fun tabs =>
    some { s1 with _proc_type_table := tabs.1, _cpu_mapping_table := tabs.2,
                   group := s.group + 1 }
  else if 1 = list_len then
    (vecGet list 0).bind fun l0 =>
    (tabSet s._cpu_mapping_table (l0 + s.base_proc) CPU_MAP_CORE_TYPE MAIN_CORE_PROC).bind fun cmt =>
    (tabSet cmt (l0 + s.base_proc) CPU_MAP_GROUP_ID s.group).bind fun cmt =>
    (tabAdd s._proc_type_table 0 MAIN_CORE_PROC 1).bind fun ptt =>
    some { s with _cpu_mapping_table := cmt, _proc_type_table := ptt, group := s.group + 1 }
  else some s

/-- The body of the record loop (lines 88 to 166): one record is dispatched on
its relationship tag; records of any other kind leave the state alone. -/
def step (s : State) (info : SYSTEM_LOGICAL_PROCESSOR_INFORMATION_EX) : Option State :=
  if info.Relationship = RelationProcessorPackage then stepPackage s info
  else if info.Relationship = RelationProcessorCore then stepCore s info
  else if info.Relationship = RelationCache ∧ info.Level = 2 then stepCache s info
  else some s

/-- The record loop on the sequence of records the walk visits. -/
def run (s : State) : List SYSTEM_LOGICAL_PROCESSOR_INFORMATION_EX → Option State
  | [] => some s
  | info :: rest => (step s info).bind fun s1 => run s1 rest

/-! ## Final aggregation -/

/-- The inner loop `for (int n = 0; n < PROC_TYPE_TABLE_SIZE; n++)` of the
final pass: row `m` is added to row 0, column by column. -/
def sumCols (m : Int) : Nat → Int → List (List Int) → Option (List (List Int))
  | 0, _, t => some t
  | k + 1, n, t =>
    (tabGet t m n).bind fun x =>
    (tabAdd t 0 n x).bind fun t1 => sumCols m k (n + 1) t1

/-- The outer loop `for (int m = 1; m <= _sockets; m++)` of the final pass. -/
def sumRows : Nat → Int → List (List Int) → Option (List (List Int))
  | 0, _, t => some t
  | k + 1, m, t =>
    (sumCols m PROC_TYPE_TABLE_SIZE 0 t).bind fun t1 => sumRows k (m + 1) t1

/-- Lines 168 to 178: the socket counter becomes the socket count and, for
more than one socket, the working row is archived and row 0 rebuilt as the
sum of the archived rows. -/
def finish (s : State) : Option State :=
  let _sockets := s._sockets + 1
  if _sockets > 1 then
    (vecGet s._proc_type_table 0).bind fun row0 =>
    (vecSet (s._proc_type_table ++ [row0]) 0 proc_init_line).bind fun t =>
    (sumRows _sockets.toNat 1 t).bind fun t1 =>
    some { s with _sockets := _sockets, _proc_type_table := t1 }
  else some { s with _sockets := _sockets }

/-- The function `parse_processor_info_win` on the records of the buffer and
the two tables passed in by reference; the result carries the five outputs
(`_processors`, `_sockets`, `_cores` and the two tables). -/
def parse_processor_info_win (records : List SYSTEM_LOGICAL_PROCESSOR_INFORMATION_EX)
    (ptt cmt : List (List Int)) : Option State :=
  (run (initState ptt cmt) records).bind finish

/-! ## Record streams used in the statements -/

/-- A `RelationProcessorPackage` record. -/
def PackageBoundary (mask : Nat) : SYSTEM_LOGICAL_PROCESSOR_INFORMATION_EX :=
  { Relationship := RelationProcessorPackage, Size := 48, Mask := mask, Level := 0 }

/-- A `RelationProcessorCore` record. -/
def CoreBoundary (mask : Nat) : SYSTEM_LOGICAL_PROCESSOR_INFORMATION_EX :=
  { Relationship := RelationProcessorCore, Size := 48, Mask := mask, Level := 0 }

/-- A `RelationCache` record of the given level. -/
def CacheBoundary (level mask : Nat) : SYSTEM_LOGICAL_PROCESSOR_INFORMATION_EX :=
  { Relationship := RelationCache, Size := 56, Mask := mask, Level := level }

/-! ## Auxiliary definitions used in the statements -/

/-- The pending window is either unset (all zero, as initialised) or tagged
`Efficient`. -/
def WindowOK (s : State) : Prop :=
  s.group_type = EFFICIENT_CORE_PROC ∨ (s.group_start = 0 ∧ s.group_end = 0)

/-- Closed form of the two writes `cmt[n][CPU_MAP_CORE_TYPE] = type` and
`cmt[n][CPU_MAP_GROUP_ID] = grp` of the cache branch. -/
def relabel (type grp : Int) (cmt : List (List Int)) (n : Nat) : List (List Int) :=
  match cmt[n]? with
  | some row => cmt.set n ((row.set 3 type).set 4 grp)
  | none => cmt

/-- Sum of column `j` over a list of count rows. -/
def colSum (rows : List (List Int)) (j : Nat) : Int :=
  (rows.map fun row => row.getD j 0).sum

/-- What every state of a run started on empty tables satisfies: the count
rows have four columns and the mapping rows six, the pending window is unset
or tagged `Efficient`, the count table has one row per package seen, and the
`All` column summed over the count rows is the processor count. -/
structure Inv (s : State) : Prop where
  ptt_rows : ∀ row ∈ s._proc_type_table, row.length = 4
  cmt_rows : ∀ row ∈ s._cpu_mapping_table, row.length = 6
  window : WindowOK s
  rows_sockets : (s._proc_type_table.length : Int) = s._sockets + 1
  all_total : colSum s._proc_type_table 0 = s._processors

/-- Number of `RelationProcessorPackage` records of a stream. -/
def countPackages (records : List SYSTEM_LOGICAL_PROCESSOR_INFORMATION_EX) : Nat :=
  (records.filter fun info => info.Relationship = RelationProcessorPackage).length

/-- Streams on which the parser cannot leave a vector once a package record
has been seen: every `RelationProcessorCore` mask has a set bit and no
level-2 `RelationCache` mask has exactly one or exactly four set bits. -/
def FaultFree (records : List SYSTEM_LOGICAL_PROCESSOR_INFORMATION_EX) : Prop :=
  ∀ info ∈ records,
    (info.Relationship = RelationProcessorCore → info.Mask ≠ 0) ∧
    (info.Relationship = RelationCache → info.Level = 2 →
      (MaskToList info.Mask).length ≠ 1 ∧ (MaskToList info.Mask).length ≠ 4)

/-- Field `processorId` of a mapping row. -/
def processorId (row : List Int) : Option Int := vecGet row CPU_MAP_PROCESSOR_ID

/-- Field `socketId` of a mapping row. -/
def socketId (row : List Int) : Option Int := vecGet row CPU_MAP_SOCKET_ID

/-- Field `physicalCoreId` of a mapping row. -/
def physicalCoreId (row : List Int) : Option Int := vecGet row CPU_MAP_CORE_ID

/-- Field `coreType` of a mapping row. -/
def coreType (row : List Int) : Option Int := vecGet row CPU_MAP_CORE_TYPE

/-- Field `groupId` of a mapping row. -/
def groupId (row : List Int) : Option Int := vecGet row CPU_MAP_GROUP_ID

/-- The columns All, MainPerformance, Efficient, HyperthreadSibling of a count
row, in this order. -/
def countsOf (row : List Int) : Option Int × Option Int × Option Int × Option Int :=
  (vecGet row ALL_PROC, vecGet row MAIN_CORE_PROC, vecGet row EFFICIENT_CORE_PROC,
    vecGet row HYPER_THREADING_PROC)

/-- The stream opens with a `RelationProcessorPackage` record. -/
def StartsWithPackage (records : List SYSTEM_LOGICAL_PROCESSOR_INFORMATION_EX) : Prop :=
  ∃ info rest, records = info :: rest ∧ info.Relationship = RelationProcessorPackage

/-- Single socket, four hyperthreaded cores: Package, Core{0,1}, Core{2,3},
Core{4,5}, Core{6,7}. -/
def hyperthreadedStream : List SYSTEM_LOGICAL_PROCESSOR_INFORMATION_EX :=
  [PackageBoundary 0xFF, CoreBoundary 0x03, CoreBoundary 0x0C, CoreBoundary 0x30,
   CoreBoundary 0xC0]

/-- Two sockets, each as in `hyperthreadedStream`. -/
def dualSocketStream : List SYSTEM_LOGICAL_PROCESSOR_INFORMATION_EX :=
  hyperthreadedStream ++ hyperthreadedStream

/-- Hybrid socket with the 4-wide cache record after its cores: Package,
Core{0,1}, Core{2,3}, Core{4}, Core{5}, Core{6}, Core{7}, L2-Cache{4,5,6,7}. -/
def hybridStream : List SYSTEM_LOGICAL_PROCESSOR_INFORMATION_EX :=
  [PackageBoundary 0xFF, CoreBoundary 0x03, CoreBoundary 0x0C, CoreBoundary 0x10,
   CoreBoundary 0x20, CoreBoundary 0x40, CoreBoundary 0x80, CacheBoundary 2 0xF0]

/-- Hybrid socket with the 4-wide cache record before its cores: Package,
Core{0,1}, Core{2,3}, L2-Cache{4,5,6,7}, Core{4}, Core{5}, Core{6}, Core{7}. -/
def cacheFirstStream : List SYSTEM_LOGICAL_PROCESSOR_INFORMATION_EX :=
  [PackageBoundary 0xFF, CoreBoundary 0x03, CoreBoundary 0x0C, CacheBoundary 2 0xF0,
   CoreBoundary 0x10, CoreBoundary 0x20, CoreBoundary 0x40, CoreBoundary 0x80]

/-- Hybrid socket in which one more core is enumerated before the cluster's
cache record: Package, Core{0,1}, Core{2,3}, Core{4}, Core{5}, Core{6},
Core{7}, Core{8}, L2-Cache{4,5,6,7}. -/
def lateCacheStream : List SYSTEM_LOGICAL_PROCESSOR_INFORMATION_EX :=
  [PackageBoundary 0x1FF, CoreBoundary 0x03, CoreBoundary 0x0C, CoreBoundary 0x10,
   CoreBoundary 0x20, CoreBoundary 0x40, CoreBoundary 0x80, CoreBoundary 0x100,
   CacheBoundary 2 0xF0]

/-- A hyperthreaded socket followed by a socket whose first four cores form
one efficiency cluster: Package, Core{0,1}, Package, Core{0}, Core{1},
Core{2}, Core{3}, L2-Cache{0,1,2,3}. -/
def secondSocketClusterStream : List SYSTEM_LOGICAL_PROCESSOR_INFORMATION_EX :=
  [PackageBoundary 0x03, CoreBoundary 0x03, PackageBoundary 0x0F, CoreBoundary 0x01,
   CoreBoundary 0x02, CoreBoundary 0x04, CoreBoundary 0x08, CacheBoundary 2 0x0F]

/-- The core records of the stream enumerate the logical processors in order:
every `RelationProcessorCore` mask decodes to one index or to two consecutive
indices, and its lowest index is either 0 (the numbering of a package starts)
or `next`, the index after the highest one of the previous core record. -/
def contiguousCores : Int → List SYSTEM_LOGICAL_PROCESSOR_INFORMATION_EX → Bool
  | _, [] => true
  | next, info :: rest =>
    if info.Relationship = RelationProcessorCore then
      match MaskToList info.Mask with
      | [a] => (decide (a = 0) || decide (a = next)) && contiguousCores (a + 1) rest
      | [a, b] =>
        (decide (a = 0) || decide (a = next)) && decide (b = a + 1) &&
          contiguousCores (a + 2) rest
      | _ => false
    else contiguousCores next rest

/-- The processor ids `0, 1, ..., n - 1`, as the `processorId` column of a
mapping table with `n` rows reads them. -/
def idColumn (n : Nat) : List (Option Int) :=
  (List.range n).map fun (i : Nat) => some (i : Int)

/-- A socket whose only core record has three set bits: Package, Core{0,1,2}. -/
def threeBitStream : List SYSTEM_LOGICAL_PROCESSOR_INFORMATION_EX :=
  [PackageBoundary 0x07, CoreBoundary 0x07]

/-- A socket whose only core record names index 1: Package, Core{1}. -/
def gapStream : List SYSTEM_LOGICAL_PROCESSOR_INFORMATION_EX :=
  [PackageBoundary 0x02, CoreBoundary 0x02]

/-- The mapping-table indices a record writes when it is processed in state
`s`: a level-2 cache record with four set bits writes the rows of its first
`_processors - list[0]` decoded indices plus `base_proc`, one with a single set
bit the row of its decoded index plus `base_proc`; no other record writes an
existing row. -/
def relabelTargets (s : State) (info : SYSTEM_LOGICAL_PROCESSOR_INFORMATION_EX) : List Int :=
  if info.Relationship = RelationCache ∧ info.Level = 2 then
    if (MaskToList info.Mask).length = 4 then
      ((MaskToList info.Mask).take (s._processors - (MaskToList info.Mask).headD 0).toNat).map
        fun l => l + s.base_proc
    else if (MaskToList info.Mask).length = 1 then
      (MaskToList info.Mask).map fun l => l + s.base_proc
    else []
  else []

/-- Along the run of `records` from `s`, every existing row that a cache
record relabels satisfies `ok` in the state in which the record is processed. -/
def relabelsOnly (ok : State → List Int → Bool) :
    State → List SYSTEM_LOGICAL_PROCESSOR_INFORMATION_EX → Bool
  | _, [] => true
  | s, info :: rest =>
    ((relabelTargets s info).all fun i =>
      match vecGet s._cpu_mapping_table i with
      | some row => ok s row
      | none => true) &&
    match step s info with
    | some s1 => relabelsOnly ok s1 rest
    | none => true

/-- The row has not been classified MainPerformance or HyperthreadSibling. -/
def notPairType (_s : State) (row : List Int) : Bool :=
  decide (coreType row ≠ some HYPER_THREADING_PROC) &&
    decide (coreType row ≠ some MAIN_CORE_PROC)

/-- The row belongs to the current package and still has the unresolved type
`-1` of `cpu_init_line`. -/
def unresolvedHere (s : State) (row : List Int) : Bool :=
  decide (coreType row = some (-1)) && decide (socketId row = some s._sockets)

/-- Number of mapping rows of socket `σ` whose type is still unresolved. -/
def unresolved (cmt : List (List Int)) (σ : Int) : Nat :=
  cmt.countP fun row => decide (socketId row = some σ) && decide (coreType row = some (-1))

/-- Every row of type HyperthreadSibling is directly followed by a row of type
MainPerformance with the same physical core, socket and group. -/
def Paired (cmt : List (List Int)) : Prop :=
  ∀ (n : Nat) (row : List Int), cmt[n]? = some row →
    coreType row = some HYPER_THREADING_PROC →
    ∃ partner, cmt[n + 1]? = some partner ∧
      coreType partner = some MAIN_CORE_PROC ∧
      physicalCoreId partner = physicalCoreId row ∧
      socketId partner = socketId row ∧ groupId partner = groupId row

/-- A hyperthreaded pair whose second processor has a 1-wide level-2 cache
record: Package, Core{0,1}, L2-Cache{1}. -/
def pairRelabelStream : List SYSTEM_LOGICAL_PROCESSOR_INFORMATION_EX :=
  [PackageBoundary 0x03, CoreBoundary 0x03, CacheBoundary 2 0x02]

/-- The count row accounts for every processor of socket `σ`: its three type
columns and the number of still unresolved mapping rows of the socket add up
to its `All` column. -/
def Balanced (cmt : List (List Int)) (row : List Int) (σ : Int) : Prop :=
  ∃ a m e t, row = [a, m, e, t] ∧ m + e + t + (unresolved cmt σ : Int) = a

/-- Bookkeeping invariant of a run in which cache records relabel only
unresolved rows of the current package and core masks have at most two set
bits: no mapping row belongs to a later socket than the current one, the
archived count rows are balanced for their sockets and the working row for
the current socket. -/
structure Accounted (s : State) : Prop where
  sockets_le : ∀ row ∈ s._cpu_mapping_table, ∃ v, socketId row = some v ∧ v ≤ s._sockets
  archived : ∀ (i : Nat) (row : List Int), s._proc_type_table.tail[i]? = some row →
    Balanced s._cpu_mapping_table row i
  working : ∀ row, s._proc_type_table[0]? = some row →
    Balanced s._cpu_mapping_table row s._sockets

/-- A socket with one core of one logical processor and no cache record:
Package, Core{0}. -/
def singleCoreStream : List SYSTEM_LOGICAL_PROCESSOR_INFORMATION_EX :=
  [PackageBoundary 0x01, CoreBoundary 0x01]

/-- A core whose 1-wide level-2 cache record arrives twice: Package, Core{0},
L2-Cache{0}, L2-Cache{0}. -/
def doubleRelabelStream : List SYSTEM_LOGICAL_PROCESSOR_INFORMATION_EX :=
  [PackageBoundary 0x01, CoreBoundary 0x01, CacheBoundary 2 0x01, CacheBoundary 2 0x01]

/-- A second package whose core numbering does not restart at 0, so that its
cache record names a row of the first package: Package, Core{0}, Package,
Core{1}, L2-Cache{0}. -/
def crossSocketRelabelStream : List SYSTEM_LOGICAL_PROCESSOR_INFORMATION_EX :=
  [PackageBoundary 0x01, CoreBoundary 0x01, PackageBoundary 0x02, CoreBoundary 0x02,
   CacheBoundary 2 0x01]

/-- A hyperthreaded socket followed by a hybrid socket whose cluster's cache
record comes right after the package record: Package, Core{0,1}, Package,
L2-Cache{4,5,6,7}, Core{0,1}, Core{2,3}, Core{4}, Core{5}, Core{6}, Core{7}. -/
def secondSocketCacheFirstStream : List SYSTEM_LOGICAL_PROCESSOR_INFORMATION_EX :=
  [PackageBoundary 0x03, CoreBoundary 0x03, PackageBoundary 0xFF, CacheBoundary 2 0xF0,
   CoreBoundary 0x03, CoreBoundary 0x0C, CoreBoundary 0x10, CoreBoundary 0x20,
   CoreBoundary 0x40, CoreBoundary 0x80]

/-! ## The buffer walk, `CPU::init_cpu` and `get_number_of_cpu_cores` -/

/-- The record that starts at byte offset `off` of a buffer whose records lie
back to back from `base_ptr`; `none` when no listed record starts there (the
model does not describe the bytes behind the listed records or inside one).
The lookup does not know the length of the buffer: whether the bytes read of
the record lie inside the buffer is tested where the record is read, in
`walk`. -/
def recordAt : List SYSTEM_LOGICAL_PROCESSOR_INFORMATION_EX → Nat →
    Option SYSTEM_LOGICAL_PROCESSOR_INFORMATION_EX
  | [], _ => none
  | info :: rest, off =>
    if off = 0 then some info
    else if 0 < info.Size ∧ info.Size ≤ off then recordAt rest (off - info.Size)
    else none

/-- The loop of line 87, `for (; info_ptr < base_ptr + len; info_ptr +=
info->Size)`, with the loop body `step`: `off` is `info_ptr - base_ptr`.  The
type `SYSTEM_LOGICAL_PROCESSOR_INFORMATION_EX` is declared in the Windows SDK,
outside the sources, so its layout is a parameter: `fieldsEnd info` is the
number of bytes from the start of the record to the end of the last field the
loop reads of it (the tag, `Size`, and the level and mask the branch of the
tag reads).  A record whose fields end behind `base_ptr + len` is read outside
the buffer: like every other access that leaves its object the run has no
result then.  The loop itself compares nothing but `info_ptr` with
`base_ptr + len`.  The first numeric argument bounds the number of iterations;
a run that needs more, or that reads a record the buffer does not hold, has no
result. -/
def walk (fieldsEnd : SYSTEM_LOGICAL_PROCESSOR_INFORMATION_EX → Nat)
    (buf : List SYSTEM_LOGICAL_PROCESSOR_INFORMATION_EX) (len : Nat) :
    Nat → Nat → State → Option State
  | 0, off, s => if off < len then none else some s
  | fuel + 1, off, s =>
    if off < len then
      (recordAt buf off).bind fun info =>
      if off + fieldsEnd info ≤ len then
        (step s info).bind fun s1 => walk fieldsEnd buf len fuel (off + info.Size) s1
      else none
    else some s

/-- The function `parse_processor_info_win` on the buffer `base_ptr`, `len`:
the walk from offset 0 followed by the final pass; `fieldsEnd` is the layout
parameter of `walk`. -/
def parse_processor_info_win_buffer
    (fieldsEnd : SYSTEM_LOGICAL_PROCESSOR_INFORMATION_EX → Nat)
    (buf : List SYSTEM_LOGICAL_PROCESSOR_INFORMATION_EX)
    (len fuel : Nat) (ptt cmt : List (List Int)) : Option State :=
  (walk fieldsEnd buf len fuel 0 (initState ptt cmt)).bind finish

/-- The Win32 error code `ERROR_INSUFFICIENT_BUFFER` of `windows.h`. -/
def ERROR_INSUFFICIENT_BUFFER : Nat := 122

/-- What the operating system answers to the two calls of
`GetLogicalProcessorInformationEx`: the return value of the sizing call (with
a null buffer) and the `GetLastError()` after it, the return value of the
fetch call, and the length and the records of the buffer the fetch call
leaves. -/
structure TopologyQuery where
  sizing_result : Bool
  sizing_error : Nat
  fetch_result : Bool
  len : Nat
  buffer : List SYSTEM_LOGICAL_PROCESSOR_INFORMATION_EX

/-- The five fields of the `CPU` object that `init_cpu` passes to the parser. -/
structure CPU where
  _processors : Int
  _sockets : Int
  _cores : Int
  _proc_type_table : List (List Int)
  _cpu_mapping_table : List (List Int)
  deriving DecidableEq

/-- The function `CPU::init_cpu` (lines 20 to 39) against the answers `q` of
the operating system: it returns early when the sizing call succeeds or fails
with another error than `ERROR_INSUFFICIENT_BUFFER`, or when the fetch call
fails; otherwise the parser writes the five fields.  `fieldsEnd` is the layout
parameter of `walk`, `fuel` its iteration bound. -/
def CPU.init_cpu (fieldsEnd : SYSTEM_LOGICAL_PROCESSOR_INFORMATION_EX → Nat)
    (q : TopologyQuery) (fuel : Nat) (cpu : CPU) : Option CPU :=
  if q.sizing_result = true ∨ q.sizing_error ≠ ERROR_INSUFFICIENT_BUFFER then some cpu
  else if ¬ q.fetch_result = true then some cpu
  else
    (parse_processor_info_win_buffer fieldsEnd q.buffer q.len fuel cpu._proc_type_table
        cpu._cpu_mapping_table).map fun s =>
      { _processors := s._processors, _sockets := s._sockets, _cores := s._cores,
        _proc_type_table := s._proc_type_table,
        _cpu_mapping_table := s._cpu_mapping_table }

/-- The loop `do { offset += ...->Size; phys_cores++; } while (offset < sz)`
of `get_number_of_cpu_cores` (lines 197 to 200).  The first argument bounds
the number of iterations. -/
def countLoop (buf : List SYSTEM_LOGICAL_PROCESSOR_INFORMATION_EX) (sz : Nat) :
    Nat → Nat → Int → Option Int
  | 0, _, _ => none
  | fuel + 1, offset, phys_cores =>
    (recordAt buf offset).bind fun info =>
    if offset + info.Size < sz then countLoop buf sz fuel (offset + info.Size) (phys_cores + 1)
    else some (phys_cores + 1)

/-- The function `get_number_of_cpu_cores` (lines 181 to 210) against the
answers `q` of the operating system to the core-only query.  `fallback_val` is
the value of `parallel_get_max_threads()`, `tbb` tells whether the build uses
the TBB threading layer, `core_types_size` is `custom::info::core_types().size()`
and `big_core_concurrency` the value of `custom::info::default_concurrency`
under the big-core constraint. -/
def get_number_of_cpu_cores (q : TopologyQuery) (fallback_val : Int) (tbb : Bool)
    (core_types_size : Nat) (big_core_concurrency : Int) (bigCoresOnly : Bool)
    (fuel : Nat) : Option Int :=
  if q.sizing_result = true ∨ q.sizing_error ≠ ERROR_INSUFFICIENT_BUFFER then some fallback_val
  else if ¬ q.fetch_result = true then some fallback_val
  else
    (countLoop q.buffer q.len fuel 0 0).map fun phys_cores =>
      if tbb = true ∧ bigCoresOnly = true ∧ core_types_size > 1 then big_core_concurrency
      else phys_cores

/-- Total size of a list of records laid out back to back. -/
def sizeSum (records : List SYSTEM_LOGICAL_PROCESSOR_INFORMATION_EX) : Nat :=
  (records.map fun info => info.Size).sum

/-- The records of `records`, laid out back to back from offset `off`, that
start below `len`: the ones the walk reaches. -/
def visitedRecords : Nat → Nat → List SYSTEM_LOGICAL_PROCESSOR_INFORMATION_EX →
    List SYSTEM_LOGICAL_PROCESSOR_INFORMATION_EX
  | _, _, [] => []
  | off, len, info :: rest =>
    if off < len then info :: visitedRecords (off + info.Size) len rest else []

/-- Every record of `records`, laid out back to back from offset `off`, that
starts below `len` has the fields the loop reads of it inside the buffer. -/
def fieldsInside (fieldsEnd : SYSTEM_LOGICAL_PROCESSOR_INFORMATION_EX → Nat) :
    Nat → Nat → List SYSTEM_LOGICAL_PROCESSOR_INFORMATION_EX → Prop
  | _, _, [] => True
  | off, len, info :: rest =>
    (off < len → off + fieldsEnd info ≤ len) ∧
      fieldsInside fieldsEnd (off + info.Size) len rest

/-- The layout of the Windows SDK on a 64-bit target, as a value of the layout
parameter: the tag lies in bytes 0 to 3 and `Size` in bytes 4 to 7 of a
record, `Processor.GroupMask[0].Mask` in bytes 32 to 39, `Cache.Level` in
byte 8 and `Cache.GroupMask.Mask` in bytes 40 to 47.  The loop reads the mask
of a package or core record, the level of a cache record and the mask of a
level-2 cache record. -/
def sdkFieldsEnd (info : SYSTEM_LOGICAL_PROCESSOR_INFORMATION_EX) : Nat :=
  if info.Relationship = RelationProcessorPackage ∨
      info.Relationship = RelationProcessorCore then 40
  else if info.Relationship = RelationCache then (if info.Level = 2 then 48 else 9)
  else 8

/-- A 1-wide level-2 cache record that arrives before the core record of its
processor: Package, L2-Cache{0}, Core{0}. -/
def cacheBeforeCoreStream : List SYSTEM_LOGICAL_PROCESSOR_INFORMATION_EX :=
  [PackageBoundary 0x01, CacheBoundary 2 0x01, CoreBoundary 0x01]

/-- Number of set bits of a mask: the sum of its binary digits. -/
def setBits (mask : Nat) : Nat := (Nat.digits 2 mask).sum

/-- Number of `RelationProcessorCore` records of a stream. -/
def countCores (records : List SYSTEM_LOGICAL_PROCESSOR_INFORMATION_EX) : Nat :=
  (records.filter fun info => info.Relationship = RelationProcessorCore).length

/-- Number of set bits summed over the `RelationProcessorCore` masks of a
stream. -/
def coreSetBits (records : List SYSTEM_LOGICAL_PROCESSOR_INFORMATION_EX) : Nat :=
  ((records.filter fun info => info.Relationship = RelationProcessorCore).map
    fun info => setBits info.Mask).sum

/-- A cache record that carries no signal: its level is not 2, or its mask has
a number of set bits other than 1 and 4. -/
def noSignal (info : SYSTEM_LOGICAL_PROCESSOR_INFORMATION_EX) : Bool :=
  decide (info.Relationship = RelationCache) &&
    (decide (info.Level ≠ 2) ||
      (decide ((MaskToList info.Mask).length ≠ 1) &&
        decide ((MaskToList info.Mask).length ≠ 4)))

/-- The order `a ≤ b` on two table cells that both exist. -/
def cellLe (x y : Option Int) : Prop := ∃ a b, x = some a ∧ y = some b ∧ a ≤ b

/-- Order invariant of the mapping table during a run: read in table order
the physical core ids and the socket ids do not decrease, every physical core
id lies in `[0, _cores)` and every socket id in `[0, _sockets]`. -/
structure Ordered (s : State) : Prop where
  cores_sorted : (s._cpu_mapping_table.map physicalCoreId).Pairwise cellLe
  cores_range : ∀ x ∈ s._cpu_mapping_table.map physicalCoreId,
    ∃ c, x = some c ∧ 0 ≤ c ∧ c < s._cores
  sockets_sorted : (s._cpu_mapping_table.map socketId).Pairwise cellLe
  sockets_range : ∀ x ∈ s._cpu_mapping_table.map socketId,
    ∃ v, x = some v ∧ 0 ≤ v ∧ v ≤ s._sockets
  cores_nonneg : 0 ≤ s._cores

/-- A buffer of 96 bytes whose second record, a core record readable in full,
declares a size of 100 bytes and so claims to end 52 bytes behind the buffer. -/
def malformedBuffer : List SYSTEM_LOGICAL_PROCESSOR_INFORMATION_EX :=
  [PackageBoundary 0x03,
   { Relationship := RelationProcessorCore, Size := 100, Mask := 0x03, Level := 0 }]

/-- An answer of the operating system whose fetch call fails, with a buffer on
which the parser would leave the mapping table. -/
def failedFetchQuery : TopologyQuery :=
  { sizing_result := false, sizing_error := ERROR_INSUFFICIENT_BUFFER,
    fetch_result := false, len := 56, buffer := [CacheBoundary 2 0x01] }

/-- An answer of the operating system to the core-only query: four core
records of 48 bytes each. -/
def fourCoreQuery : TopologyQuery :=
  { sizing_result := false, sizing_error := ERROR_INSUFFICIENT_BUFFER,
    fetch_result := true, len := 192,
    buffer := [CoreBoundary 0x03, CoreBoundary 0x0C, CoreBoundary 0x30, CoreBoundary 0xC0] }

/-- A `CPU` object with empty tables. -/
def emptyCPU : CPU :=
  { _processors := 0, _sockets := 0, _cores := 0, _proc_type_table := [],
    _cpu_mapping_table := [] }

/-- The state after a first package record on empty tables. -/
def onePackageState : State :=
  { initState [[0, 0, 0, 0]] [] with _sockets := 0 }

/-- The hybrid stream with three records that carry no signal added: a level-1
cache record, a level-3 cache record and a 2-wide level-2 cache record. -/
def paddedHybridStream : List SYSTEM_LOGICAL_PROCESSOR_INFORMATION_EX :=
  [PackageBoundary 0xFF, CoreBoundary 0x03, CacheBoundary 1 0x03, CacheBoundary 2 0x03,
   CoreBoundary 0x0C, CacheBoundary 3 0xFF, CoreBoundary 0x10, CoreBoundary 0x20,
   CoreBoundary 0x40, CoreBoundary 0x80, CacheBoundary 2 0xF0]

/-- The state after Package, Core{0} on empty tables. -/
def singleCoreState : State :=
  { _processors := 1, _sockets := 0, _cores := 1,
    _proc_type_table := [[1, 0, 0, 0]], _cpu_mapping_table := [[0, 0, 0, -1, -1, -1]],
    base_proc := 0, group := 0,
    group_start := 0, group_end := 0, group_id := 0, group_type := 0 }

/-! ## Vector access lemmas -/

theorem vecGet_natCast {α : Type} (v : List α) (n : Nat) : vecGet v (n : Int) = v[n]? := by
  simp [vecGet]

theorem vecGet_eq_some {α : Type} {v : List α} {i : Int} {x : α} (h : vecGet v i = some x) :
    ∃ n : Nat, i = n ∧ v[n]? = some x := by
  unfold vecGet at h
  split at h
  · exact ⟨i.toNat, by omega, h⟩
  · cases h

theorem vecSet_natCast {α : Type} (v : List α) (n : Nat) (x : α) :
    vecSet v (n : Int) x = if n < v.length then some (v.set n x) else none := by
  simp [vecSet]

theorem vecSet_eq_some {α : Type} {v w : List α} {i : Int} {x : α} (h : vecSet v i x = some w) :
    ∃ n : Nat, i = n ∧ n < v.length ∧ w = v.set n x := by
  unfold vecSet at h
  split at h
  · rename_i hc
    exact ⟨i.toNat, by omega, hc.2, by simpa using h.symm⟩
  · cases h

theorem tabGet_eq_some {t : List (List Int)} {i j : Int} {x : Int} (h : tabGet t i j = some x) :
    ∃ (a b : Nat) (row : List Int), i = a ∧ j = b ∧ t[a]? = some row ∧ row[b]? = some x := by
  unfold tabGet at h
  obtain ⟨row, hr, hx⟩ := Option.bind_eq_some.1 h
  obtain ⟨a, rfl, ha⟩ := vecGet_eq_some hr
  obtain ⟨b, rfl, hb⟩ := vecGet_eq_some hx
  exact ⟨a, b, row, rfl, rfl, ha, hb⟩

theorem tabSet_eq_some {t u : List (List Int)} {i j x : Int} (h : tabSet t i j x = some u) :
    ∃ (a b : Nat) (row : List Int), i = a ∧ j = b ∧ t[a]? = some row ∧ b < row.length ∧
      u = t.set a (row.set b x) := by
  unfold tabSet at h
  obtain ⟨row, hr, h⟩ := Option.bind_eq_some.1 h
  obtain ⟨row1, hr1, h⟩ := Option.bind_eq_some.1 h
  obtain ⟨a, rfl, ha⟩ := vecGet_eq_some hr
  obtain ⟨b, rfl, hb, rfl⟩ := vecSet_eq_some hr1
  obtain ⟨a', ha', _, rfl⟩ := vecSet_eq_some h
  have : a' = a := by omega
  subst this
  exact ⟨a', b, row, rfl, rfl, ha, hb, rfl⟩

theorem tabAdd_eq_some {t u : List (List Int)} {i j d : Int} (h : tabAdd t i j d = some u) :
    ∃ (a b : Nat) (row : List Int) (x : Int), i = a ∧ j = b ∧ t[a]? = some row ∧
      row[b]? = some x ∧ u = t.set a (row.set b (x + d)) := by
  unfold tabAdd at h
  obtain ⟨x, hx, h⟩ := Option.bind_eq_some.1 h
  obtain ⟨a, b, row, rfl, rfl, ha, hb⟩ := tabGet_eq_some hx
  obtain ⟨a', b', row', ha', hb', hr', _, rfl⟩ := tabSet_eq_some h
  have e1 : a' = a := by omega
  have e2 : b' = b := by omega
  subst e1 e2
  have : row' = row := by rw [ha] at hr'; exact (Option.some.inj hr').symm
  subst this
  exact ⟨a', b', row', x, rfl, rfl, ha, hb, rfl⟩

/-! ## Closed forms of the table updates -/

theorem length_four {row : List Int} (h : row.length = 4) :
    ∃ a b c d, row = [a, b, c, d] := by
  match row, h with
  | [a, b, c, d], _ => exact ⟨a, b, c, d, rfl⟩

theorem length_six {row : List Int} (h : row.length = 6) :
    ∃ a b c d e f, row = [a, b, c, d, e, f] := by
  match row, h with
  | [a, b, c, d, e, f], _ => exact ⟨a, b, c, d, e, f, rfl⟩

theorem tabAdd_all (a b c d x : Int) (rest : List (List Int)) :
    tabAdd ([a, b, c, d] :: rest) 0 ALL_PROC x = some ([a + x, b, c, d] :: rest) := by
  simp [tabAdd, tabGet, tabSet, vecGet, vecSet, ALL_PROC]

theorem tabAdd_main (a b c d x : Int) (rest : List (List Int)) :
    tabAdd ([a, b, c, d] :: rest) 0 MAIN_CORE_PROC x = some ([a, b + x, c, d] :: rest) := by
  simp [tabAdd, tabGet, tabSet, vecGet, vecSet, MAIN_CORE_PROC]

theorem tabAdd_efficient (a b c d x : Int) (rest : List (List Int)) :
    tabAdd ([a, b, c, d] :: rest) 0 EFFICIENT_CORE_PROC x = some ([a, b, c + x, d] :: rest) := by
  simp [tabAdd, tabGet, tabSet, vecGet, vecSet, EFFICIENT_CORE_PROC]

theorem tabAdd_hyper (a b c d x : Int) (rest : List (List Int)) :
    tabAdd ([a, b, c, d] :: rest) 0 HYPER_THREADING_PROC x = some ([a, b, c, d + x] :: rest) := by
  simp [tabAdd, tabGet, tabSet, vecGet, vecSet, HYPER_THREADING_PROC]

theorem tabAdd_nil (j x : Int) : tabAdd [] 0 j x = none := by
  simp [tabAdd, tabGet, vecGet]

theorem fillProcInfo_eq (id socket core type grp : Int) :
    fillProcInfo id socket core type grp = some [id, socket, core, type, grp, -1] := by
  simp [fillProcInfo, vecSet, cpu_init_line, CPU_MAP_TABLE_SIZE, CPU_MAP_PROCESSOR_ID,
    CPU_MAP_SOCKET_ID, CPU_MAP_CORE_ID, CPU_MAP_CORE_TYPE, CPU_MAP_GROUP_ID]

theorem fillProcInfoDefault_eq (id socket core : Int) :
    fillProcInfoDefault id socket core = some [id, socket, core, -1, -1, -1] := by
  simp [fillProcInfoDefault, vecSet, cpu_init_line, CPU_MAP_TABLE_SIZE, CPU_MAP_PROCESSOR_ID,
    CPU_MAP_SOCKET_ID, CPU_MAP_CORE_ID]

theorem proc_init_line_eq : proc_init_line = [0, 0, 0, 0] := rfl

/-- Closed form of the package branch. -/
theorem stepPackage_spec {s s' : State} {info : SYSTEM_LOGICAL_PROCESSOR_INFORMATION_EX}
    (h : stepPackage s info = some s') :
    (s._sockets + 1 = 0 ∧
      s' = { s with _sockets := s._sockets + 1,
                    _proc_type_table := s._proc_type_table ++ [[0, 0, 0, 0]] }) ∨
    (s._sockets + 1 ≠ 0 ∧ ∃ r0 rest, s._proc_type_table = r0 :: rest ∧
      s' = { s with _sockets := s._sockets + 1,
                    _proc_type_table := [0, 0, 0, 0] :: (rest ++ [r0]) }) := by
  unfold stepPackage at h
  simp only [proc_init_line_eq] at h
  split at h
  · rename_i h0
    exact Or.inl ⟨h0.symm, (Option.some.inj h).symm⟩
  · rename_i h0
    right
    refine ⟨fun e => h0 e.symm, ?_⟩
    cases hp : s._proc_type_table with
    | nil => simp [hp, vecGet] at h
    | cons r0 rest =>
      refine ⟨r0, rest, rfl, ?_⟩
      simp [hp, vecGet, vecSet] at h
      exact h.symm

/-- Closed form of the core branch on a state whose working row has four columns. -/
theorem stepCore_spec {s s' : State} {info : SYSTEM_LOGICAL_PROCESSOR_INFORMATION_EX}
    (h : stepCore s info = some s')
    (hrow : ∀ row ∈ s._proc_type_table, row.length = 4) (hwin : WindowOK s) :
    ∃ l0 tl a b c d rest, MaskToList info.Mask = l0 :: tl ∧
      s._proc_type_table = [a, b, c, d] :: rest ∧
      ((∃ l1, tl = [l1] ∧
        s' = { s with
          base_proc := if 0 = l0 then s._processors else s.base_proc,
          _cpu_mapping_table := s._cpu_mapping_table ++
            [[l0 + (if 0 = l0 then s._processors else s.base_proc), s._sockets, s._cores,
              HYPER_THREADING_PROC, s.group, -1],
             [l1 + (if 0 = l0 then s._processors else s.base_proc), s._sockets, s._cores,
              MAIN_CORE_PROC, s.group, -1]],
          _proc_type_table := [a + 2, b + 1, c, d + 1] :: rest,
          group := s.group + 1,
          _processors := s._processors + 2,
          _cores := s._cores + 1 }) ∨
       (tl.length ≠ 1 ∧ (s._processors > s.group_start ∧ s._processors ≤ s.group_end) ∧
        s.group_type = EFFICIENT_CORE_PROC ∧
        s' = { s with
          base_proc := if 0 = l0 then s._processors else s.base_proc,
          _cpu_mapping_table := s._cpu_mapping_table ++
            [[l0 + (if 0 = l0 then s._processors else s.base_proc), s._sockets, s._cores,
              EFFICIENT_CORE_PROC, s.group_id, -1]],
          _proc_type_table := [a + (tl.length + 1 : Nat), b, c + 1, d] :: rest,
          _processors := s._processors + (tl.length + 1 : Nat),
          _cores := s._cores + 1 }) ∨
       (tl.length ≠ 1 ∧ ¬ (s._processors > s.group_start ∧ s._processors ≤ s.group_end) ∧
        s' = { s with
          base_proc := if 0 = l0 then s._processors else s.base_proc,
          _cpu_mapping_table := s._cpu_mapping_table ++
            [[l0 + (if 0 = l0 then s._processors else s.base_proc), s._sockets, s._cores,
              -1, -1, -1]],
          _proc_type_table := [a + (tl.length + 1 : Nat), b, c, d] :: rest,
          _processors := s._processors + (tl.length + 1 : Nat),
          _cores := s._cores + 1 })) := by
  unfold stepCore at h
  simp only [fillProcInfo_eq, fillProcInfoDefault_eq, Option.some_bind] at h
  cases hl : MaskToList info.Mask with
  | nil => simp [hl, vecGet] at h
  | cons l0 tl =>
    cases hp : s._proc_type_table with
    | nil =>
      simp only [hl, hp, tabAdd_nil, Option.bind_none, Option.none_bind] at h
      simp [vecGet] at h
    | cons r0 rest =>
      obtain ⟨a, b, c, d, rfl⟩ := length_four (hrow r0 (by simp [hp]))
      refine ⟨l0, tl, a, b, c, d, rest, rfl, rfl, ?_⟩
      simp only [hl, hp] at h
      have h0 : vecGet (l0 :: tl) 0 = some l0 := by simp [vecGet]
      simp only [h0, Option.some_bind] at h
      by_cases h2 : tl.length = 1
      · left
        match tl, h2 with
        | [l1], _ =>
          refine ⟨l1, rfl, ?_⟩
          have h1 : vecGet [l0, l1] 1 = some l1 := by simp [vecGet]
          simp [h1, tabAdd_main, tabAdd_hyper, tabAdd_all] at h
          rw [← h]
      · right
        have hne : ¬ (2 : Int) = ((l0 :: tl).length : Int) := by
          simp only [List.length_cons]; omega
        simp only [hne, if_false] at h
        by_cases hw : s._processors > s.group_start ∧ s._processors ≤ s.group_end
        · left
          have hgt : s.group_type = EFFICIENT_CORE_PROC := by
            rcases hwin with hgt | ⟨h1, h2⟩
            · exact hgt
            · exfalso; omega
          refine ⟨h2, hw, hgt, ?_⟩
          simp only [hw, and_self, if_true, hgt, tabAdd_efficient, tabAdd_all,
            Option.some_bind] at h
          rw [← Option.some.inj h]
          simp [hgt]
        · right
          refine ⟨h2, hw, ?_⟩
          simp only [hw, if_false, tabAdd_all, Option.some_bind] at h
          rw [← Option.some.inj h]
          simp

theorem relabel_length (type grp : Int) (cmt : List (List Int)) (n : Nat) :
    (relabel type grp cmt n).length = cmt.length := by
  unfold relabel
  split <;> simp

theorem foldl_relabel_length (type grp : Int) (targets : List Nat) (cmt : List (List Int)) :
    (targets.foldl (relabel type grp) cmt).length = cmt.length := by
  induction targets generalizing cmt with
  | nil => rfl
  | cons n ts ih => simp [ih, relabel_length]

theorem tabSet_relabel {cmt c1 c2 : List (List Int)} {i type grp : Int}
    (h1 : tabSet cmt i CPU_MAP_CORE_TYPE type = some c1)
    (h2 : tabSet c1 i CPU_MAP_GROUP_ID grp = some c2) :
    ∃ n : Nat, i = n ∧ n < cmt.length ∧ c2 = relabel type grp cmt n := by
  obtain ⟨n, b, row, rfl, hb, hrow, hlen, rfl⟩ := tabSet_eq_some h1
  obtain ⟨n', b', row', hn', hb', hrow', hlen', rfl⟩ := tabSet_eq_some h2
  have e : n' = n := by omega
  subst e
  have hb3 : b = 3 := by simp [CPU_MAP_CORE_TYPE] at hb; omega
  have hb4 : b' = 4 := by simp [CPU_MAP_GROUP_ID] at hb'; omega
  subst hb3 hb4
  have hn : n' < cmt.length := by
    rcases Nat.lt_or_ge n' cmt.length with h | h
    · exact h
    · rw [List.getElem?_eq_none h] at hrow; cases hrow
  refine ⟨n', rfl, hn, ?_⟩
  have e' : row' = row.set 3 type := by
    rw [List.getElem?_set_self (by simpa using hn)] at hrow'
    exact (Option.some.inj hrow').symm
  subst e'
  simp [relabel, hrow]

/-- Closed form of the relabelling loop of the 4-wide cache sub-case. -/
theorem cacheLoop_spec {list : List Int} {bp g : Int} (k : Nat) :
    ∀ (m : Nat) (ptt cmt ptt' cmt' : List (List Int)),
      (∀ row ∈ ptt, row.length = 4) →
      cacheLoop list bp g k (m : Int) (ptt, cmt) = some (ptt', cmt') →
      ∃ targets : List Nat, targets.length = k ∧
        List.Forall₂ (fun (l : Int) (n : Nat) => l + bp = n) ((list.drop m).take k) targets ∧
        (∀ n ∈ targets, n < cmt.length) ∧
        cmt' = targets.foldl (relabel EFFICIENT_CORE_PROC g) cmt ∧
        ((k = 0 ∧ ptt' = ptt) ∨
          ∃ a b c d rest, ptt = [a, b, c, d] :: rest ∧ ptt' = [a, b, c + k, d] :: rest) := by
  induction k with
  | zero =>
    intro m ptt cmt ptt' cmt' _ h
    simp only [cacheLoop, Option.some.injEq, Prod.mk.injEq] at h
    exact ⟨[], rfl, by simp, by simp, by simp [h.2], Or.inl ⟨rfl, h.1.symm⟩⟩
  | succ k ih =>
    intro m ptt cmt ptt' cmt' hrow h
    simp only [cacheLoop] at h
    obtain ⟨lm, hlm, h⟩ := Option.bind_eq_some.1 h
    obtain ⟨c1, hc1, h⟩ := Option.bind_eq_some.1 h
    obtain ⟨c2, hc2, h⟩ := Option.bind_eq_some.1 h
    obtain ⟨p1, hp1, h⟩ := Option.bind_eq_some.1 h
    rw [vecGet_natCast] at hlm
    obtain ⟨n, hn, hnlt, rfl⟩ := tabSet_relabel hc1 hc2
    cases hp : ptt with
    | nil => simp [hp, tabAdd_nil] at hp1
    | cons r0 rest =>
      obtain ⟨a, b, c, d, rfl⟩ := length_four (hrow r0 (by simp [hp]))
      rw [hp, tabAdd_efficient] at hp1
      have hp1 := (Option.some.inj hp1).symm
      subst hp1
      have hcast : ((m : Int) + 1) = ((m + 1 : Nat) : Int) := by push_cast; rfl
      rw [hcast] at h
      have hrow1 : ∀ row ∈ [a, b, c + 1, d] :: rest, row.length = 4 := by
        intro row hr
        rcases List.mem_cons.1 hr with rfl | hr
        · rfl
        · exact hrow row (by simp [hp, hr])
      obtain ⟨ts, hlen, hf, hlt, hc, hpt⟩ := ih (m + 1) _ _ _ _ hrow1 h
      have hm : m < list.length := by
        rcases Nat.lt_or_ge m list.length with h | h
        · exact h
        · rw [List.getElem?_eq_none h] at hlm; cases hlm
      have hd : (list.drop m).take (k + 1) = lm :: (list.drop (m + 1)).take k := by
        rw [List.drop_eq_getElem_cons hm, List.take_succ_cons]
        congr 1
        rw [List.getElem?_eq_getElem hm] at hlm
        exact Option.some.inj hlm
      refine ⟨n :: ts, by simp [hlen], ?_, ?_, ?_, Or.inr ⟨a, b, c, d, rest, rfl, ?_⟩⟩
      · rw [hd]; exact List.Forall₂.cons hn hf
      · intro x hx
        rcases List.mem_cons.1 hx with rfl | hx
        · exact hnlt
        · simpa [relabel_length] using hlt x hx
      · simpa using hc
      · rcases hpt with ⟨rfl, hpt⟩ | ⟨a', b', c', d', rest', he, hpt⟩
        · simpa using hpt
        · simp only [List.cons.injEq] at he
          obtain ⟨⟨rfl, rfl, rfl, rfl, -⟩, rfl⟩ := he
          rw [hpt]
          simp only [List.cons.injEq, and_true, true_and]
          push_cast; ring

/-- Closed form of the level-2 cache branch on a state whose count rows have
four columns. -/
theorem stepCache_spec {s s' : State} {info : SYSTEM_LOGICAL_PROCESSOR_INFORMATION_EX}
    (h : stepCache s info = some s')
    (hrow : ∀ row ∈ s._proc_type_table, row.length = 4) :
    (∃ l0 l1 l2 l3, MaskToList info.Mask = [l0, l1, l2, l3] ∧
      ∃ (targets : List Nat) (ptt' : List (List Int)),
        targets.length = (s._processors - l0).toNat ∧
        List.Forall₂ (fun (l : Int) (n : Nat) => l + s.base_proc = n)
          ([l0, l1, l2, l3].take (s._processors - l0).toNat) targets ∧
        (∀ n ∈ targets, n < s._cpu_mapping_table.length) ∧
        ((targets = [] ∧ ptt' = s._proc_type_table) ∨
          ∃ a b c d rest, s._proc_type_table = [a, b, c, d] :: rest ∧
            ptt' = [a, b, c + targets.length, d] :: rest) ∧
        s' = { s with
          group_start := if s._processors < l3 + s.base_proc then l0 else s.group_start,
          group_end := if s._processors < l3 + s.base_proc then l3 else s.group_end,
          group_id := if s._processors < l3 + s.base_proc then s.group else s.group_id,
          group_type :=
            if s._processors < l3 + s.base_proc then EFFICIENT_CORE_PROC else s.group_type,
          _proc_type_table := ptt',
          _cpu_mapping_table := targets.foldl (relabel EFFICIENT_CORE_PROC s.group)
            s._cpu_mapping_table,
          group := s.group + 1 }) ∨
    (∃ l0, MaskToList info.Mask = [l0] ∧
      ∃ (n : Nat) (a b c d : Int) (rest : List (List Int)),
        l0 + s.base_proc = n ∧ n < s._cpu_mapping_table.length ∧
        s._proc_type_table = [a, b, c, d] :: rest ∧
        s' = { s with
          _cpu_mapping_table := relabel MAIN_CORE_PROC s.group s._cpu_mapping_table n,
          _proc_type_table := [a, b + 1, c, d] :: rest,
          group := s.group + 1 }) ∨
    ((MaskToList info.Mask).length ≠ 4 ∧ (MaskToList info.Mask).length ≠ 1 ∧ s' = s) := by
  unfold stepCache at h
  by_cases h4 : (MaskToList info.Mask).length = 4
  · left
    match hl : MaskToList info.Mask, h4 with
    | [l0, l1, l2, l3], _ =>
      refine ⟨l0, l1, l2, l3, rfl, ?_⟩
      simp only [hl] at h
      have e3 : vecGet [l0, l1, l2, l3] (((([l0, l1, l2, l3] : List Int).length : Nat) : Int) - 1)
          = some l3 := by simp [vecGet]
      have e0 : vecGet [l0, l1, l2, l3] 0 = some l0 := by simp [vecGet]
      simp only [e3, e0, Option.some_bind] at h
      have hlen : (4 : Int) = ((([l0, l1, l2, l3] : List Int).length : Nat) : Int) := by simp
      simp only [hlen, if_true] at h
      obtain ⟨⟨p1, c1⟩, hloop, h⟩ := Option.bind_eq_some.1 h
      have hloop' : cacheLoop [l0, l1, l2, l3] s.base_proc s.group (s._processors - l0).toNat
          ((0 : Nat) : Int) (s._proc_type_table, s._cpu_mapping_table) = some (p1, c1) := by
        simpa using hloop
      obtain ⟨ts, hlen', hf, hlt, hc, hp⟩ := cacheLoop_spec _ 0 _ _ _ _ hrow hloop'
      refine ⟨ts, p1, hlen', by simpa using hf, hlt, ?_, ?_⟩
      · rcases hp with ⟨hk, hp⟩ | ⟨a, b, c, d, rest, he, hp⟩
        · left
          exact ⟨List.length_eq_zero.1 (hlen'.trans hk), hp⟩
        · right
          exact ⟨a, b, c, d, rest, he, by rw [hlen']; exact hp⟩
      · subst hc
        rw [← Option.some.inj h]
        split_ifs <;> rfl
  · right
    have hne : ¬ (4 : Int) = ((MaskToList info.Mask).length : Int) := by omega
    simp only [hne, if_false] at h
    by_cases h1 : (MaskToList info.Mask).length = 1
    · left
      match hl : MaskToList info.Mask, h1 with
      | [l0], _ =>
        refine ⟨l0, rfl, ?_⟩
        simp only [hl] at h
        have e0 : vecGet [l0] 0 = some l0 := by simp [vecGet]
        simp only [List.length_singleton, Nat.cast_one, if_true, e0, Option.some_bind] at h
        obtain ⟨c1, hc1, h⟩ := Option.bind_eq_some.1 h
        obtain ⟨c2, hc2, h⟩ := Option.bind_eq_some.1 h
        obtain ⟨p1, hp1, h⟩ := Option.bind_eq_some.1 h
        obtain ⟨n, hn, hnlt, rfl⟩ := tabSet_relabel hc1 hc2
        cases hp : s._proc_type_table with
        | nil => simp [hp, tabAdd_nil] at hp1
        | cons r0 rest =>
          obtain ⟨a, b, c, d, rfl⟩ := length_four (hrow r0 (by simp [hp]))
          rw [hp, tabAdd_main] at hp1
          refine ⟨n, a, b, c, d, rest, hn, hnlt, rfl, ?_⟩
          rw [← Option.some.inj h, ← Option.some.inj hp1]
    · right
      have hne1 : ¬ (1 : Int) = ((MaskToList info.Mask).length : Int) := by omega
      simp only [hne1, if_false] at h
      exact ⟨h4, h1, (Option.some.inj h).symm⟩

theorem colSum_nil (j : Nat) : colSum [] j = 0 := rfl

theorem colSum_cons (row : List Int) (rows : List (List Int)) (j : Nat) :
    colSum (row :: rows) j = row.getD j 0 + colSum rows j := by
  simp [colSum]

theorem colSum_append (rows1 rows2 : List (List Int)) (j : Nat) :
    colSum (rows1 ++ rows2) j = colSum rows1 j + colSum rows2 j := by
  simp [colSum]

/-- Closed form of one pass of the inner summing loop. -/
theorem sumCols_spec {a b c d : Int} {rest t1 : List (List Int)} {m : Nat}
    (hrow : ∀ row ∈ rest, row.length = 4)
    (h : sumCols ((m + 1 : Nat) : Int) PROC_TYPE_TABLE_SIZE 0 ([a, b, c, d] :: rest) = some t1) :
    ∃ w x y z, rest[m]? = some [w, x, y, z] ∧
      t1 = [a + w, b + x, c + y, d + z] :: rest := by
  cases hm : rest[m]? with
  | none =>
    simp [sumCols, PROC_TYPE_TABLE_SIZE, tabGet, vecGet, hm] at h
  | some row =>
    obtain ⟨w, x, y, z, rfl⟩ := length_four (hrow row (List.getElem?_mem hm))
    refine ⟨w, x, y, z, rfl, ?_⟩
    have hg : ∀ (r0 : List Int) (j : Int),
        tabGet (r0 :: rest) ((m + 1 : Nat) : Int) j = vecGet [w, x, y, z] j := by
      intro r0 j
      have hpos : (0 : Int) ≤ (m : Int) + 1 := by omega
      simp [tabGet, vecGet, hm, hpos]
    have h0 : tabAdd ([a, b, c, d] :: rest) 0 0 w = some ([a + w, b, c, d] :: rest) :=
      tabAdd_all a b c d w rest
    have h1 : tabAdd ([a + w, b, c, d] :: rest) 0 (0 + 1) x = some ([a + w, b + x, c, d] :: rest) :=
      tabAdd_main _ _ _ _ _ _
    have h2 : tabAdd ([a + w, b + x, c, d] :: rest) 0 (0 + 1 + 1) y
        = some ([a + w, b + x, c + y, d] :: rest) := tabAdd_efficient _ _ _ _ _ _
    have h3 : tabAdd ([a + w, b + x, c + y, d] :: rest) 0 (0 + 1 + 1 + 1) z
        = some ([a + w, b + x, c + y, d + z] :: rest) := tabAdd_hyper _ _ _ _ _ _
    have g0 : vecGet [w, x, y, z] 0 = some w := by simp [vecGet]
    have g1 : vecGet [w, x, y, z] (0 + 1) = some x := by simp [vecGet]
    have g2 : vecGet [w, x, y, z] (0 + 1 + 1) = some y := by simp [vecGet]
    have g3 : vecGet [w, x, y, z] (0 + 1 + 1 + 1) = some z := by simp [vecGet]
    simp only [sumCols, PROC_TYPE_TABLE_SIZE, hg, g0, g1, g2, g3, h0, h1, h2, h3,
      Option.some_bind] at h
    exact (Option.some.inj h).symm

/-- Closed form of the outer summing loop: rows `m+1 .. m+k` are added to row 0. -/
theorem sumRows_spec (k : Nat) :
    ∀ (m : Nat) (a b c d : Int) (rest t1 : List (List Int)),
      (∀ row ∈ rest, row.length = 4) →
      sumRows k ((m + 1 : Nat) : Int) ([a, b, c, d] :: rest) = some t1 →
      (0 < k → m + k ≤ rest.length) ∧
      t1 = [a + colSum ((rest.drop m).take k) 0, b + colSum ((rest.drop m).take k) 1,
            c + colSum ((rest.drop m).take k) 2, d + colSum ((rest.drop m).take k) 3] :: rest := by
  induction k with
  | zero =>
    intro m a b c d rest t1 _ h
    simp only [sumRows, Option.some.injEq] at h
    simp [colSum_nil, h]
  | succ k ih =>
    intro m a b c d rest t1 hrow h
    simp only [sumRows] at h
    obtain ⟨t2, h2, h⟩ := Option.bind_eq_some.1 h
    obtain ⟨w, x, y, z, hm, rfl⟩ := sumCols_spec hrow h2
    have hcast : (((m + 1 : Nat) : Int) + 1) = ((m + 1 + 1 : Nat) : Int) := by push_cast; rfl
    rw [hcast] at h
    obtain ⟨hle, rfl⟩ := ih (m + 1) _ _ _ _ rest t1 hrow h
    have hlt : m < rest.length := by
      rcases Nat.lt_or_ge m rest.length with h | h
      · exact h
      · rw [List.getElem?_eq_none h] at hm; cases hm
    have hd : (rest.drop m).take (k + 1) = [w, x, y, z] :: (rest.drop (m + 1)).take k := by
      rw [List.drop_eq_getElem_cons hlt, List.take_succ_cons]
      congr 1
      rw [List.getElem?_eq_getElem hlt] at hm
      exact Option.some.inj hm
    refine ⟨fun _ => ?_, ?_⟩
    · rcases Nat.eq_zero_or_pos k with hk | hk
      · omega
      · have := hle hk; omega
    rw [hd]
    simp only [colSum_cons, List.getD_cons_zero, List.getD_cons_succ]
    simp only [List.cons.injEq, and_true]
    refine ⟨by ring, by ring, by ring, by ring⟩

/-- Closed form of the final pass on a table whose rows have four columns. -/
theorem finish_spec {s s' : State} (h : finish s = some s')
    (hrow : ∀ row ∈ s._proc_type_table, row.length = 4) :
    (s._sockets + 1 ≤ 1 ∧ s' = { s with _sockets := s._sockets + 1 }) ∨
    (1 < s._sockets + 1 ∧ ∃ r0 rest, s._proc_type_table = r0 :: rest ∧
      (s._sockets + 1).toNat ≤ rest.length + 1 ∧
      s' = { s with
        _sockets := s._sockets + 1,
        _proc_type_table :=
          [colSum ((rest ++ [r0]).take (s._sockets + 1).toNat) 0,
           colSum ((rest ++ [r0]).take (s._sockets + 1).toNat) 1,
           colSum ((rest ++ [r0]).take (s._sockets + 1).toNat) 2,
           colSum ((rest ++ [r0]).take (s._sockets + 1).toNat) 3] :: (rest ++ [r0]) }) := by
  unfold finish at h
  by_cases hk : s._sockets + 1 > 1
  · right
    refine ⟨hk, ?_⟩
    simp only [hk, if_true, proc_init_line_eq] at h
    cases hp : s._proc_type_table with
    | nil => simp [hp, vecGet] at h
    | cons r0 rest =>
      refine ⟨r0, rest, rfl, ?_⟩
      have e0 : vecGet (r0 :: rest) 0 = some r0 := by simp [vecGet]
      have e1 : vecSet (r0 :: rest ++ [r0]) 0 [0, 0, 0, 0] = some ([0, 0, 0, 0] :: (rest ++ [r0])) := by
        simp [vecSet]
      simp only [hp, e0, e1, Option.some_bind] at h
      obtain ⟨t1, ht, h⟩ := Option.bind_eq_some.1 h
      have hrow' : ∀ row ∈ rest ++ [r0], row.length = 4 := by
        intro row hr
        rcases List.mem_append.1 hr with hr | hr
        · exact hrow row (by simp [hp, hr])
        · exact hrow row (by simp [hp, List.mem_singleton.1 hr])
      have ht' : sumRows (s._sockets + 1).toNat ((0 + 1 : Nat) : Int)
          ([0, 0, 0, 0] :: (rest ++ [r0])) = some t1 := by simpa using ht
      obtain ⟨hle, rfl⟩ := sumRows_spec _ 0 _ _ _ _ _ _ hrow' ht'
      refine ⟨?_, ?_⟩
      · have := hle (by omega)
        simpa using this
      · rw [← Option.some.inj h]
        simp
  · left
    simp only [hk, if_false] at h
    exact ⟨by omega, (Option.some.inj h).symm⟩

/-! ## The invariant of runs started on empty tables -/

theorem relabel_rows {type grp : Int} {cmt : List (List Int)} {n : Nat}
    (h : ∀ row ∈ cmt, row.length = 6) : ∀ row ∈ relabel type grp cmt n, row.length = 6 := by
  intro row hr
  unfold relabel at hr
  split at hr
  · rename_i row0 h0
    rcases List.mem_or_eq_of_mem_set hr with hr | rfl
    · exact h row hr
    · simpa using h row0 (List.getElem?_mem h0)
  · exact h row hr

theorem foldl_relabel_rows {type grp : Int} (targets : List Nat) :
    ∀ cmt : List (List Int), (∀ row ∈ cmt, row.length = 6) →
      ∀ row ∈ targets.foldl (relabel type grp) cmt, row.length = 6 := by
  induction targets with
  | nil => intro cmt h; simpa using h
  | cons n ts ih =>
    intro cmt h
    simp only [List.foldl_cons]
    exact ih _ (relabel_rows h)

theorem init_inv : Inv (initState [] []) :=
  { ptt_rows := by simp [initState]
    cmt_rows := by simp [initState]
    window := Or.inr ⟨rfl, rfl⟩
    rows_sockets := by simp [initState]
    all_total := by simp [initState, colSum] }

theorem stepPackage_inv {s s' : State} {info : SYSTEM_LOGICAL_PROCESSOR_INFORMATION_EX}
    (hi : Inv s) (h : stepPackage s info = some s') : Inv s' := by
  obtain ⟨hr, hc, hw, hl, ht⟩ := hi
  rcases stepPackage_spec h with ⟨_, rfl⟩ | ⟨_, r0, rest, hp, rfl⟩
  · refine ⟨?_, hc, hw, ?_, ?_⟩
    · intro row hrow
      rcases List.mem_append.1 hrow with h1 | h1
      · exact hr row h1
      · rw [List.mem_singleton.1 h1]; rfl
    · simp only [List.length_append, List.length_singleton]; push_cast; omega
    · show colSum (s._proc_type_table ++ [[0, 0, 0, 0]]) 0 = s._processors
      rw [colSum_append, ht]; simp [colSum]
  · rw [hp] at hr hl ht
    refine ⟨?_, hc, hw, ?_, ?_⟩
    · intro row hrow
      rcases List.mem_cons.1 hrow with h1 | h1
      · rw [h1]; rfl
      · rcases List.mem_append.1 h1 with h2 | h2
        · exact hr row (List.mem_cons_of_mem _ h2)
        · rw [List.mem_singleton.1 h2]; exact hr r0 (List.mem_cons_self _ _)
    · simp only [List.length_cons, List.length_append, List.length_singleton,
        List.length_nil] at hl ⊢
      push_cast at hl ⊢; omega
    · show colSum ([0, 0, 0, 0] :: (rest ++ [r0])) 0 = s._processors
      rw [colSum_cons, colSum_append, ← ht, colSum_cons]
      simp [colSum]; ring

theorem stepCore_inv {s s' : State} {info : SYSTEM_LOGICAL_PROCESSOR_INFORMATION_EX}
    (hi : Inv s) (h : stepCore s info = some s') : Inv s' := by
  obtain ⟨hr, hc, hw, hl, ht⟩ := hi
  obtain ⟨l0, tl, a, b, c, d, rest, -, hp, hcase⟩ := stepCore_spec h hr hw
  rw [hp] at hr hl ht
  have hrest : ∀ row ∈ rest, row.length = 4 := fun row h1 => hr row (List.mem_cons_of_mem _ h1)
  have hrows : ∀ (x y z w : Int), ∀ row ∈ [x, y, z, w] :: rest, row.length = 4 := by
    intro x y z w row h1
    rcases List.mem_cons.1 h1 with h2 | h2
    · rw [h2]; rfl
    · exact hrest row h2
  rw [colSum_cons] at ht
  simp only [List.getD_cons_zero] at ht
  rcases hcase with ⟨l1, -, rfl⟩ | ⟨-, -, -, rfl⟩ | ⟨-, -, rfl⟩
  · refine ⟨hrows _ _ _ _, ?_, hw, hl, ?_⟩
    · intro row h1
      rcases List.mem_append.1 h1 with h2 | h2
      · exact hc row h2
      · simp only [List.mem_cons, List.mem_singleton, List.not_mem_nil, or_false] at h2
        rcases h2 with rfl | rfl <;> rfl
    · show colSum ([a + 2, b + 1, c, d + 1] :: rest) 0 = s._processors + 2
      rw [colSum_cons]; simp only [List.getD_cons_zero]; omega
  · refine ⟨hrows _ _ _ _, ?_, hw, hl, ?_⟩
    · intro row h1
      rcases List.mem_append.1 h1 with h2 | h2
      · exact hc row h2
      · rw [List.mem_singleton.1 h2]; rfl
    · show colSum ([a + ((tl.length + 1 : Nat) : Int), b, c + 1, d] :: rest) 0 = _
      rw [colSum_cons]; simp only [List.getD_cons_zero]; omega
  · refine ⟨hrows _ _ _ _, ?_, hw, hl, ?_⟩
    · intro row h1
      rcases List.mem_append.1 h1 with h2 | h2
      · exact hc row h2
      · rw [List.mem_singleton.1 h2]; rfl
    · show colSum ([a + ((tl.length + 1 : Nat) : Int), b, c, d] :: rest) 0 = _
      rw [colSum_cons]; simp only [List.getD_cons_zero]; omega

theorem stepCache_inv {s s' : State} {info : SYSTEM_LOGICAL_PROCESSOR_INFORMATION_EX}
    (hi : Inv s) (h : stepCache s info = some s') : Inv s' := by
  obtain ⟨hr, hc, hw, hl, ht⟩ := hi
  rcases stepCache_spec h hr with
    ⟨l0, l1, l2, l3, -, ts, ptt', -, -, -, hp, rfl⟩ |
    ⟨l0, -, n, a, b, c, d, rest, -, -, hp, rfl⟩ | ⟨-, -, rfl⟩
  · have hw' : WindowOK
        { s with
          group_start := if s._processors < l3 + s.base_proc then l0 else s.group_start,
          group_end := if s._processors < l3 + s.base_proc then l3 else s.group_end,
          group_id := if s._processors < l3 + s.base_proc then s.group else s.group_id,
          group_type :=
            if s._processors < l3 + s.base_proc then EFFICIENT_CORE_PROC else s.group_type,
          _proc_type_table := ptt',
          _cpu_mapping_table := ts.foldl (relabel EFFICIENT_CORE_PROC s.group)
            s._cpu_mapping_table,
          group := s.group + 1 } := by
      unfold WindowOK
      by_cases hlt : s._processors < l3 + s.base_proc
      · left; simp [hlt]
      · simpa [hlt] using hw
    rcases hp with ⟨-, rfl⟩ | ⟨a, b, c, d, rest, hp, rfl⟩
    · exact ⟨hr, foldl_relabel_rows ts _ hc, hw', hl, ht⟩
    · rw [hp] at hr hl ht
      refine ⟨?_, foldl_relabel_rows ts _ hc, hw', hl, ?_⟩
      · intro row h1
        rcases List.mem_cons.1 h1 with h2 | h2
        · rw [h2]; rfl
        · exact hr row (List.mem_cons_of_mem _ h2)
      · show colSum ([a, b, c + (ts.length : Int), d] :: rest) 0 = s._processors
        rw [colSum_cons] at ht ⊢
        simpa using ht
  · rw [hp] at hr hl ht
    refine ⟨?_, relabel_rows hc, hw, hl, ?_⟩
    · intro row h1
      rcases List.mem_cons.1 h1 with h2 | h2
      · rw [h2]; rfl
      · exact hr row (List.mem_cons_of_mem _ h2)
    · show colSum ([a, b + 1, c, d] :: rest) 0 = s._processors
      rw [colSum_cons] at ht ⊢
      simpa using ht
  · exact ⟨hr, hc, hw, hl, ht⟩

theorem step_inv {s s' : State} {info : SYSTEM_LOGICAL_PROCESSOR_INFORMATION_EX}
    (hi : Inv s) (h : step s info = some s') : Inv s' := by
  unfold step at h
  split_ifs at h
  · exact stepPackage_inv hi h
  · exact stepCore_inv hi h
  · exact stepCache_inv hi h
  · rw [← Option.some.inj h]; exact hi

theorem run_inv (records : List SYSTEM_LOGICAL_PROCESSOR_INFORMATION_EX) :
    ∀ {s s' : State}, Inv s → run s records = some s' → Inv s' := by
  induction records with
  | nil => intro s s' hi h; rw [← Option.some.inj h]; exact hi
  | cons info rest ih =>
    intro s s' hi h
    simp only [run] at h
    obtain ⟨s1, h1, h2⟩ := Option.bind_eq_some.1 h
    exact ih (step_inv hi h1) h2

theorem run_append (pre post : List SYSTEM_LOGICAL_PROCESSOR_INFORMATION_EX) (s : State) :
    run s (pre ++ post) = (run s pre).bind fun s1 => run s1 post := by
  induction pre generalizing s with
  | nil => simp [run]
  | cons info rest ih =>
    simp only [List.cons_append, run]
    cases step s info with
    | none => rfl
    | some s1 => simpa using ih s1

/-! ## Sockets, packages and the final pass -/

theorem countPackages_nil : countPackages [] = 0 := rfl

theorem countPackages_cons (info : SYSTEM_LOGICAL_PROCESSOR_INFORMATION_EX)
    (rest : List SYSTEM_LOGICAL_PROCESSOR_INFORMATION_EX) :
    countPackages (info :: rest) =
      (if info.Relationship = RelationProcessorPackage then 1 else 0) + countPackages rest := by
  unfold countPackages
  by_cases h : info.Relationship = RelationProcessorPackage
  · simp [List.filter_cons, h]; omega
  · simp [List.filter_cons, h]

theorem countPackages_append (pre post : List SYSTEM_LOGICAL_PROCESSOR_INFORMATION_EX) :
    countPackages (pre ++ post) = countPackages pre + countPackages post := by
  simp [countPackages]

theorem step_sockets {s s' : State} {info : SYSTEM_LOGICAL_PROCESSOR_INFORMATION_EX}
    (hi : Inv s) (h : step s info = some s') :
    s'._sockets = s._sockets +
      (if info.Relationship = RelationProcessorPackage then 1 else 0 : Nat) := by
  unfold step at h
  split_ifs at h with hP hC hK
  · rcases stepPackage_spec h with ⟨_, rfl⟩ | ⟨_, r0, rest, hp, rfl⟩ <;> simp [hP]
  · obtain ⟨l0, tl, a, b, c, d, rest, -, hp, hcase⟩ := stepCore_spec h hi.ptt_rows hi.window
    rcases hcase with ⟨l1, -, rfl⟩ | ⟨-, -, -, rfl⟩ | ⟨-, -, rfl⟩ <;> simp [hP]
  · rcases stepCache_spec h hi.ptt_rows with
      ⟨l0, l1, l2, l3, -, ts, ptt', -, -, -, hp, rfl⟩ |
      ⟨l0, -, n, a, b, c, d, rest, -, -, hp, rfl⟩ | ⟨-, -, rfl⟩ <;> simp [hP]
  · rw [← Option.some.inj h]; simp [hP]

theorem run_sockets (records : List SYSTEM_LOGICAL_PROCESSOR_INFORMATION_EX) :
    ∀ {s s' : State}, Inv s → run s records = some s' →
      s'._sockets = s._sockets + countPackages records := by
  induction records with
  | nil => intro s s' _ h; rw [← Option.some.inj h]; simp [countPackages_nil]
  | cons info rest ih =>
    intro s s' hi h
    simp only [run] at h
    obtain ⟨s1, h1, h2⟩ := Option.bind_eq_some.1 h
    rw [ih (step_inv hi h1) h2, step_sockets hi h1, countPackages_cons]
    push_cast; ring

theorem colSum_take_all {rows : List (List Int)} {k : Nat} (h : rows.length ≤ k) (j : Nat) :
    colSum (rows.take k) j = colSum rows j := by
  rw [List.take_of_length_le h]

/-- Closed form of `parse_processor_info_win` on empty tables: the state the
record loop ends in, and what the final pass makes of it. -/
theorem parse_spec {records : List SYSTEM_LOGICAL_PROCESSOR_INFORMATION_EX} {r : State}
    (h : parse_processor_info_win records [] [] = some r) :
    ∃ s, run (initState [] []) records = some s ∧ Inv s ∧
      s._sockets + 1 = countPackages records ∧
      r._sockets = countPackages records ∧
      r._processors = s._processors ∧ r._cores = s._cores ∧
      r._cpu_mapping_table = s._cpu_mapping_table ∧
      ((countPackages records ≤ 1 ∧ r._proc_type_table = s._proc_type_table) ∨
       (2 ≤ countPackages records ∧ ∃ r0 rest, s._proc_type_table = r0 :: rest ∧
          rest.length + 1 = countPackages records ∧
          r._proc_type_table =
            [colSum (rest ++ [r0]) 0, colSum (rest ++ [r0]) 1,
             colSum (rest ++ [r0]) 2, colSum (rest ++ [r0]) 3] :: (rest ++ [r0]))) := by
  unfold parse_processor_info_win at h
  obtain ⟨s, hrun, hfin⟩ := Option.bind_eq_some.1 h
  have hi := run_inv records init_inv hrun
  have hs : s._sockets + 1 = countPackages records := by
    rw [run_sockets records init_inv hrun]; simp [initState]
  refine ⟨s, hrun, hi, hs, ?_⟩
  rcases finish_spec hfin hi.ptt_rows with ⟨hle, rfl⟩ | ⟨hlt, r0, rest, hp, -, rfl⟩
  · refine ⟨hs, rfl, rfl, rfl, Or.inl ⟨?_, rfl⟩⟩
    omega
  · have hlen := hi.rows_sockets
    rw [hp] at hlen
    simp only [List.length_cons] at hlen
    push_cast at hlen
    have hk : rest.length + 1 = countPackages records := by omega
    refine ⟨hs, rfl, rfl, rfl, Or.inr ⟨by omega, r0, rest, hp, hk, ?_⟩⟩
    have hall : (rest ++ [r0]).length ≤ (s._sockets + 1).toNat := by
      simp only [List.length_append, List.length_singleton]; omega
    show _ :: _ = _
    simp only [List.take_of_length_le hall]

theorem countPackages_pos_of_first {records : List SYSTEM_LOGICAL_PROCESSOR_INFORMATION_EX}
    (hfirst : ∃ info rest, records = info :: rest ∧ info.Relationship = RelationProcessorPackage) :
    1 ≤ countPackages records := by
  obtain ⟨info, rest, rfl, hP⟩ := hfirst
  rw [countPackages_cons]; simp [hP]

/-- The `All` column of row 0 of the final table is the processor count. -/
theorem parse_all_total {records : List SYSTEM_LOGICAL_PROCESSOR_INFORMATION_EX} {r : State}
    (hk : 1 ≤ countPackages records)
    (h : parse_processor_info_win records [] [] = some r) :
    tabGet r._proc_type_table 0 ALL_PROC = some r._processors := by
  obtain ⟨s, -, hi, hs, -, hp, -, -, hcase⟩ := parse_spec h
  rw [hp, ← hi.all_total]
  rcases hcase with ⟨hle, ht⟩ | ⟨-, r0, rest, hs0, -, ht⟩
  · rw [ht]
    have hlen := hi.rows_sockets
    have h1 : s._proc_type_table.length = 1 := by omega
    match hpt : s._proc_type_table, h1 with
    | [r0], _ =>
      obtain ⟨a, b, c, d, rfl⟩ := length_four (hi.ptt_rows r0 (by simp [hpt]))
      simp [tabGet, vecGet, ALL_PROC, colSum]
  · rw [ht, hs0, colSum_cons, colSum_append, colSum_cons, colSum_nil]
    simp [tabGet, vecGet, ALL_PROC]
    ring

/-- A cache record leaves the `All` column of every count row alone. -/
theorem stepCache_all_column {s s' : State} {info : SYSTEM_LOGICAL_PROCESSOR_INFORMATION_EX}
    (hi : Inv s) (h : stepCache s info = some s') :
    s'._proc_type_table.map (fun row => vecGet row ALL_PROC) =
      s._proc_type_table.map (fun row => vecGet row ALL_PROC) := by
  rcases stepCache_spec h hi.ptt_rows with
    ⟨l0, l1, l2, l3, -, ts, ptt', -, -, -, hp, rfl⟩ |
    ⟨l0, -, n, a, b, c, d, rest, -, -, hp, rfl⟩ | ⟨-, -, rfl⟩
  · rcases hp with ⟨-, rfl⟩ | ⟨a, b, c, d, rest, hp, rfl⟩
    · rfl
    · simp [hp, vecGet, ALL_PROC]
  · simp [hp, vecGet, ALL_PROC]
  · rfl

theorem step_cache_all_column {s s' : State} {info : SYSTEM_LOGICAL_PROCESSOR_INFORMATION_EX}
    (hi : Inv s) (hK : info.Relationship = RelationCache) (h : step s info = some s') :
    s'._proc_type_table.map (fun row => vecGet row ALL_PROC) =
      s._proc_type_table.map (fun row => vecGet row ALL_PROC) := by
  have hP : ¬ info.Relationship = RelationProcessorPackage := by rw [hK]; decide
  have hC : ¬ info.Relationship = RelationProcessorCore := by rw [hK]; decide
  unfold step at h
  rw [if_neg hP, if_neg hC] at h
  split_ifs at h
  · exact stepCache_all_column hi h
  · rw [← Option.some.inj h]

/-! ## Runs that cannot fail -/

theorem loop_length_le (fuel : Nat) :
    ∀ (mask : Nat) (cnt : Int) (list : List Int),
      list.length ≤ (MaskToList.loop fuel mask cnt list).length := by
  induction fuel with
  | zero => intro mask cnt list; simp [MaskToList.loop]
  | succ fuel ih =>
    intro mask cnt list
    simp only [MaskToList.loop]
    split_ifs with h0 h1
    · exact Nat.le_refl _
    · exact Nat.le_trans (by simp) (ih _ _ _)
    · exact ih _ _ _

theorem loop_length_lt (fuel : Nat) :
    ∀ (mask : Nat) (cnt : Int) (list : List Int), mask ≤ fuel → mask ≠ 0 →
      list.length < (MaskToList.loop fuel mask cnt list).length := by
  induction fuel with
  | zero => intro mask cnt list hle hne; omega
  | succ fuel ih =>
    intro mask cnt list hle hne
    simp only [MaskToList.loop, if_neg hne]
    split_ifs with h1
    · exact Nat.lt_of_lt_of_le (by simp) (loop_length_le _ _ _ _)
    · have hodd : mask &&& 1 = mask % 2 := Nat.and_one_is_mod mask
      have hshift : mask >>> 1 = mask / 2 := by simp [Nat.shiftRight_eq_div_pow]
      rw [hshift]
      exact ih _ _ _ (by omega) (by omega)

theorem MaskToList_ne_nil {mask : Nat} (h : mask ≠ 0) : MaskToList mask ≠ [] := by
  intro he
  have := loop_length_lt mask mask 0 [] (Nat.le_refl _) h
  unfold MaskToList at he
  rw [he] at this
  simp at this

theorem Inv.sockets_nonneg {s : State} (hi : Inv s) (hne : s._proc_type_table ≠ []) :
    0 ≤ s._sockets := by
  have := hi.rows_sockets
  have hpos : 0 < s._proc_type_table.length := List.length_pos.2 hne
  omega

theorem stepPackage_ok {s : State} (info : SYSTEM_LOGICAL_PROCESSOR_INFORMATION_EX)
    (hi : Inv s) : ∃ s', stepPackage s info = some s' := by
  unfold stepPackage
  by_cases h0 : 0 = s._sockets + 1
  · simp [h0]
  · have := hi.rows_sockets
    cases hp : s._proc_type_table with
    | nil => rw [hp] at this; simp at this; omega
    | cons r0 rest => simp [h0, vecGet, vecSet]

theorem stepCore_ok {s : State} {info : SYSTEM_LOGICAL_PROCESSOR_INFORMATION_EX}
    (hi : Inv s) (hne : s._proc_type_table ≠ []) (hm : MaskToList info.Mask ≠ []) :
    ∃ s', stepCore s info = some s' := by
  cases hp : s._proc_type_table with
  | nil => exact absurd hp hne
  | cons r0 rest =>
    obtain ⟨a, b, c, d, rfl⟩ := length_four (hi.ptt_rows r0 (by simp [hp]))
    cases hl : MaskToList info.Mask with
    | nil => exact absurd hl hm
    | cons l0 tl =>
      unfold stepCore
      have h0 : vecGet (l0 :: tl) 0 = some l0 := by simp [vecGet]
      simp only [hl, hp, h0, fillProcInfo_eq, fillProcInfoDefault_eq, Option.some_bind]
      by_cases h2 : (2 : Int) = ((l0 :: tl).length : Int)
      · have : tl.length = 1 := by simp only [List.length_cons] at h2; omega
        match tl, this with
        | [l1], _ =>
          have h1 : vecGet [l0, l1] 1 = some l1 := by simp [vecGet]
          simp [h1, tabAdd_main, tabAdd_hyper, tabAdd_all]
      · simp only [h2, if_false]
        by_cases hw : s._processors > s.group_start ∧ s._processors ≤ s.group_end
        · have hgt : s.group_type = EFFICIENT_CORE_PROC := by
            rcases hi.window with hgt | ⟨h1, h2⟩
            · exact hgt
            · exfalso; omega
          simp [hw, hgt, tabAdd_efficient, tabAdd_all]
        · simp [hw, tabAdd_all]

theorem stepCache_ok {s : State} {info : SYSTEM_LOGICAL_PROCESSOR_INFORMATION_EX}
    (h1 : (MaskToList info.Mask).length ≠ 1) (h4 : (MaskToList info.Mask).length ≠ 4) :
    stepCache s info = some s := by
  unfold stepCache
  have e4 : ¬ (4 : Int) = ((MaskToList info.Mask).length : Int) := by omega
  have e1 : ¬ (1 : Int) = ((MaskToList info.Mask).length : Int) := by omega
  simp [e4, e1]

theorem sumRows_ok (k : Nat) :
    ∀ (m : Nat) (a b c d : Int) (rest : List (List Int)),
      (∀ row ∈ rest, row.length = 4) → m + k ≤ rest.length →
      ∃ t1, sumRows k ((m + 1 : Nat) : Int) ([a, b, c, d] :: rest) = some t1 := by
  induction k with
  | zero => intro m a b c d rest _ _; exact ⟨_, rfl⟩
  | succ k ih =>
    intro m a b c d rest hrow hle
    have hlt : m < rest.length := by omega
    obtain ⟨w, x, y, z, hrowm⟩ := length_four (hrow rest[m] (List.getElem_mem _))
    have hm : rest[m]? = some [w, x, y, z] := by
      rw [List.getElem?_eq_getElem hlt, hrowm]
    have hpos : (0 : Int) ≤ (m : Int) + 1 := by omega
    have hg : ∀ (r0 : List Int) (j : Int),
        tabGet (r0 :: rest) ((m + 1 : Nat) : Int) j = vecGet [w, x, y, z] j := by
      intro r0 j
      simp [tabGet, vecGet, hm, hpos]
    have h0 : tabAdd ([a, b, c, d] :: rest) 0 0 w = some ([a + w, b, c, d] :: rest) :=
      tabAdd_all a b c d w rest
    have h1 : tabAdd ([a + w, b, c, d] :: rest) 0 (0 + 1) x = some ([a + w, b + x, c, d] :: rest) :=
      tabAdd_main _ _ _ _ _ _
    have h2 : tabAdd ([a + w, b + x, c, d] :: rest) 0 (0 + 1 + 1) y
        = some ([a + w, b + x, c + y, d] :: rest) := tabAdd_efficient _ _ _ _ _ _
    have h3 : tabAdd ([a + w, b + x, c + y, d] :: rest) 0 (0 + 1 + 1 + 1) z
        = some ([a + w, b + x, c + y, d + z] :: rest) := tabAdd_hyper _ _ _ _ _ _
    have g0 : vecGet [w, x, y, z] 0 = some w := by simp [vecGet]
    have g1 : vecGet [w, x, y, z] (0 + 1) = some x := by simp [vecGet]
    have g2 : vecGet [w, x, y, z] (0 + 1 + 1) = some y := by simp [vecGet]
    have g3 : vecGet [w, x, y, z] (0 + 1 + 1 + 1) = some z := by simp [vecGet]
    have hcast : (((m + 1 : Nat) : Int) + 1) = ((m + 1 + 1 : Nat) : Int) := by push_cast; rfl
    simp only [sumRows, sumCols, PROC_TYPE_TABLE_SIZE, hg, g0, g1, g2, g3, h0, h1, h2, h3,
      Option.some_bind, hcast]
    exact ih (m + 1) _ _ _ _ rest hrow (by omega)

theorem finish_ok {s : State} (hi : Inv s) : ∃ r, finish s = some r := by
  unfold finish
  by_cases hk : s._sockets + 1 > 1
  · have hlen := hi.rows_sockets
    cases hp : s._proc_type_table with
    | nil => rw [hp] at hlen; simp at hlen; omega
    | cons r0 rest =>
      rw [hp] at hlen
      simp only [List.length_cons] at hlen
      push_cast at hlen
      have e0 : vecGet (r0 :: rest) 0 = some r0 := by simp [vecGet]
      have e1 : vecSet (r0 :: rest ++ [r0]) 0 proc_init_line
          = some ([0, 0, 0, 0] :: (rest ++ [r0])) := by
        simp [vecSet, proc_init_line_eq]
      have hrow' : ∀ row ∈ rest ++ [r0], row.length = 4 := by
        intro row hr
        rcases List.mem_append.1 hr with hr | hr
        · exact hi.ptt_rows row (by simp [hp, hr])
        · exact hi.ptt_rows row (by simp [hp, List.mem_singleton.1 hr])
      obtain ⟨t1, ht⟩ := sumRows_ok (s._sockets + 1).toNat 0 0 0 0 0 (rest ++ [r0]) hrow'
        (by simp only [List.length_append, List.length_singleton]; omega)
      have ht' : sumRows (s._sockets + 1).toNat 1 ([0, 0, 0, 0] :: (rest ++ [r0])) = some t1 := by
        simpa using ht
      simp only [hk, if_true, e0, e1, ht', Option.some_bind]
      exact ⟨_, rfl⟩
  · simp only [hk, if_false]
    exact ⟨_, rfl⟩

theorem step_ok {s : State} {info : SYSTEM_LOGICAL_PROCESSOR_INFORMATION_EX}
    (hi : Inv s) (hne : s._proc_type_table ≠ [])
    (hC : info.Relationship = RelationProcessorCore → info.Mask ≠ 0)
    (hK : info.Relationship = RelationCache → info.Level = 2 →
      (MaskToList info.Mask).length ≠ 1 ∧ (MaskToList info.Mask).length ≠ 4) :
    ∃ s', step s info = some s' := by
  unfold step
  split_ifs with h1 h2 h3
  · exact stepPackage_ok info hi
  · exact stepCore_ok hi hne (MaskToList_ne_nil (hC h2))
  · exact ⟨s, stepCache_ok (hK h3.1 h3.2).1 (hK h3.1 h3.2).2⟩
  · exact ⟨s, rfl⟩

theorem step_nonempty {s s' : State} {info : SYSTEM_LOGICAL_PROCESSOR_INFORMATION_EX}
    (hi : Inv s) (hne : s._proc_type_table ≠ []) (h : step s info = some s') :
    s'._proc_type_table ≠ [] := by
  have h1 := (step_inv hi h).rows_sockets
  have h2 := step_sockets hi h
  have h3 := hi.sockets_nonneg hne
  intro he
  rw [he] at h1
  simp at h1
  omega

theorem run_ok (records : List SYSTEM_LOGICAL_PROCESSOR_INFORMATION_EX) :
    ∀ {s : State}, Inv s → s._proc_type_table ≠ [] → FaultFree records →
      ∃ s', run s records = some s' := by
  induction records with
  | nil => intro s _ _ _; exact ⟨s, rfl⟩
  | cons info rest ih =>
    intro s hi hne hsafe
    obtain ⟨s1, h1⟩ := step_ok hi hne (hsafe info (List.mem_cons_self _ _)).1
      (hsafe info (List.mem_cons_self _ _)).2
    obtain ⟨s2, h2⟩ := ih (step_inv hi h1) (step_nonempty hi hne h1)
      (fun i hmem => hsafe i (List.mem_cons_of_mem _ hmem))
    exact ⟨s2, by simp [run, h1, h2]⟩

/-- A fault-free stream that opens with a package record is processed to
completion. -/
theorem parse_ok {records : List SYSTEM_LOGICAL_PROCESSOR_INFORMATION_EX}
    (hfirst : ∃ info rest, records = info :: rest ∧ info.Relationship = RelationProcessorPackage)
    (hsafe : FaultFree records) :
    ∃ r, parse_processor_info_win records [] [] = some r := by
  obtain ⟨info, rest, rfl, hP⟩ := hfirst
  obtain ⟨s1, h1⟩ := stepPackage_ok info init_inv
  have hstep : step (initState [] []) info = some s1 := by simp [step, hP, h1]
  have hi1 := step_inv init_inv hstep
  have hne : s1._proc_type_table ≠ [] := by
    have h2 := hi1.rows_sockets
    have h3 := step_sockets init_inv hstep
    simp only [hP, if_true, initState] at h3
    intro he
    rw [he, h3] at h2
    simp at h2
  obtain ⟨s2, h2⟩ := run_ok rest hi1 hne (fun i hmem => hsafe i (List.mem_cons_of_mem _ hmem))
  obtain ⟨r, hr⟩ := finish_ok (run_inv rest hi1 h2)
  exact ⟨r, by simp [parse_processor_info_win, run, hstep, h2, hr]⟩

/-! ## Archived per-socket rows -/

theorem step_package {s : State} {info : SYSTEM_LOGICAL_PROCESSOR_INFORMATION_EX}
    (hP : info.Relationship = RelationProcessorPackage) : step s info = stepPackage s info := by
  simp [step, hP]

theorem step_ptt_package {s s' : State} {info : SYSTEM_LOGICAL_PROCESSOR_INFORMATION_EX}
    (hi : Inv s) (hne : s._proc_type_table ≠ [])
    (hP : info.Relationship = RelationProcessorPackage) (h : step s info = some s') :
    ∃ r0 rest, s._proc_type_table = r0 :: rest ∧
      s'._proc_type_table = [0, 0, 0, 0] :: (rest ++ [r0]) := by
  rw [step_package hP] at h
  rcases stepPackage_spec h with ⟨h0, rfl⟩ | ⟨_, r0, rest, hp, rfl⟩
  · have := hi.sockets_nonneg hne
    omega
  · exact ⟨r0, rest, hp, rfl⟩

theorem step_ptt_tail {s s' : State} {info : SYSTEM_LOGICAL_PROCESSOR_INFORMATION_EX}
    (hi : Inv s) (hP : ¬ info.Relationship = RelationProcessorPackage)
    (h : step s info = some s') :
    s'._proc_type_table.tail = s._proc_type_table.tail := by
  unfold step at h
  rw [if_neg hP] at h
  split_ifs at h
  · obtain ⟨l0, tl, a, b, c, d, rest, -, hp, hcase⟩ := stepCore_spec h hi.ptt_rows hi.window
    rcases hcase with ⟨l1, -, rfl⟩ | ⟨-, -, -, rfl⟩ | ⟨-, -, rfl⟩ <;> simp [hp]
  · rcases stepCache_spec h hi.ptt_rows with
      ⟨l0, l1, l2, l3, -, ts, ptt', -, -, -, hp, rfl⟩ |
      ⟨l0, -, n, a, b, c, d, rest, -, -, hp, rfl⟩ | ⟨-, -, rfl⟩
    · rcases hp with ⟨-, rfl⟩ | ⟨a, b, c, d, rest, hp, rfl⟩
      · rfl
      · simp [hp]
    · simp [hp]
    · rfl
  · rw [← Option.some.inj h]

theorem run_tail_prefix (records : List SYSTEM_LOGICAL_PROCESSOR_INFORMATION_EX) :
    ∀ {s s' : State}, Inv s → s._proc_type_table ≠ [] → run s records = some s' →
      s._proc_type_table.tail <+: s'._proc_type_table.tail := by
  induction records with
  | nil => intro s s' _ _ h; rw [← Option.some.inj h]
  | cons info rest ih =>
    intro s s' hi hne h
    simp only [run] at h
    obtain ⟨s1, h1, h2⟩ := Option.bind_eq_some.1 h
    have hpre := ih (step_inv hi h1) (step_nonempty hi hne h1) h2
    by_cases hP : info.Relationship = RelationProcessorPackage
    · obtain ⟨r0, rest', hp, hp'⟩ := step_ptt_package hi hne hP h1
      rw [hp'] at hpre
      rw [hp]
      exact List.IsPrefix.trans (List.prefix_append _ _) hpre
    · rw [step_ptt_tail hi hP h1] at hpre
      exact hpre

/-- The final table of a stream with at least two packages: one row per
package after row 0, every row four columns wide, row 0 the column sums of
the rows after it. -/
theorem parse_total_row {records : List SYSTEM_LOGICAL_PROCESSOR_INFORMATION_EX} {r : State}
    (hk : 2 ≤ countPackages records)
    (h : parse_processor_info_win records [] [] = some r) :
    r._proc_type_table.length = countPackages records + 1 ∧
    (∀ row ∈ r._proc_type_table, row.length = PROC_TYPE_TABLE_SIZE) ∧
    ∀ j : Nat, j < PROC_TYPE_TABLE_SIZE →
      tabGet r._proc_type_table 0 j = some (colSum r._proc_type_table.tail j) := by
  obtain ⟨s, -, hi, -, -, -, -, -, hcase⟩ := parse_spec h
  rcases hcase with ⟨hle, -⟩ | ⟨-, r0, rest, hs0, hlen, ht⟩
  · omega
  · rw [ht]
    refine ⟨?_, ?_, ?_⟩
    · simp only [List.length_cons, List.length_append, List.length_singleton, List.length_nil]
      omega
    · intro row hrow
      rcases List.mem_cons.1 hrow with h1 | h1
      · rw [h1]; rfl
      · rcases List.mem_append.1 h1 with h2 | h2
        · exact hi.ptt_rows row (by simp [hs0, h2])
        · exact hi.ptt_rows row (by simp [hs0, List.mem_singleton.1 h2])
    · intro j hj
      simp only [List.tail_cons]
      have : j = 0 ∨ j = 1 ∨ j = 2 ∨ j = 3 := by unfold PROC_TYPE_TABLE_SIZE at hj; omega
      rcases this with rfl | rfl | rfl | rfl <;> simp [tabGet, vecGet]

/-- The working row at the end of a package's records is the row the final
table keeps for that package. -/
theorem parse_row_of_prefix {pre post : List SYSTEM_LOGICAL_PROCESSOR_INFORMATION_EX}
    {r : State} (hk : 2 ≤ countPackages (pre ++ post))
    (hpost : post = [] ∨ ∃ p rest, post = p :: rest ∧ p.Relationship = RelationProcessorPackage)
    (hpre : 1 ≤ countPackages pre)
    (h : parse_processor_info_win (pre ++ post) [] [] = some r) :
    ∃ s row, run (initState [] []) pre = some s ∧ vecGet s._proc_type_table 0 = some row ∧
      vecGet r._proc_type_table (countPackages pre : Int) = some row := by
  obtain ⟨se, hrun, hie, -, -, -, -, -, hcase⟩ := parse_spec h
  rcases hcase with ⟨hle, -⟩ | ⟨-, r0e, reste, hse, hlene, ht⟩
  · omega
  rw [run_append] at hrun
  obtain ⟨s, hs, hrest⟩ := Option.bind_eq_some.1 hrun
  have hi := run_inv pre init_inv hs
  have hsock : s._sockets + 1 = countPackages pre := by
    rw [run_sockets pre init_inv hs]; simp [initState]
  have hlen := hi.rows_sockets
  cases hp : s._proc_type_table with
  | nil => rw [hp] at hlen; simp at hlen; omega
  | cons cur arch =>
    rw [hp] at hlen
    simp only [List.length_cons] at hlen
    push_cast at hlen
    have harch : countPackages pre = arch.length + 1 := by omega
    refine ⟨s, cur, hs, by simp [vecGet, hp], ?_⟩
    rw [vecGet_natCast, ht, harch, List.getElem?_cons_succ]
    rcases hpost with rfl | ⟨p, rest, rfl, hP⟩
    · simp only [run, Option.some.injEq] at hrest
      subst hrest
      rw [hp] at hse
      simp only [List.cons.injEq] at hse
      obtain ⟨rfl, rfl⟩ := hse
      simp
    · simp only [run] at hrest
      obtain ⟨s1, h1, h2⟩ := Option.bind_eq_some.1 hrest
      have hne : s._proc_type_table ≠ [] := by simp [hp]
      obtain ⟨r0, rest', hp0, hp1⟩ := step_ptt_package hi hne hP h1
      rw [hp] at hp0
      simp only [List.cons.injEq] at hp0
      obtain ⟨rfl, rfl⟩ := hp0
      have hpre' := run_tail_prefix rest (step_inv hi h1) (step_nonempty hi hne h1) h2
      rw [hp1, hse] at hpre'
      simp only [List.tail_cons] at hpre'
      obtain ⟨more, hmore⟩ := hpre'
      rw [← hmore, List.append_assoc, List.append_assoc,
        List.getElem?_append_right (Nat.le_refl _)]
      simp

/-- Right after a package record the working row is all zero. -/
theorem step_package_row0 {s s' : State} {info : SYSTEM_LOGICAL_PROCESSOR_INFORMATION_EX}
    (hi : Inv s) (hP : info.Relationship = RelationProcessorPackage)
    (h : step s info = some s') :
    vecGet s'._proc_type_table 0 = some proc_init_line := by
  rw [step_package hP] at h
  rcases stepPackage_spec h with ⟨h0, rfl⟩ | ⟨_, r0, rest, hp, rfl⟩
  · have hlen := hi.rows_sockets
    have hnil : s._proc_type_table = [] := List.length_eq_zero.1 (by omega)
    simp [hnil, vecGet, proc_init_line_eq]
  · simp [vecGet, proc_init_line_eq]

/-! ## Mapping rows and processor ids -/

theorem map_relabel {β : Type} (f : List Int → β) {type grp : Int}
    (hf : ∀ row : List Int, f ((row.set 3 type).set 4 grp) = f row)
    (cmt : List (List Int)) (n : Nat) :
    (relabel type grp cmt n).map f = cmt.map f := by
  unfold relabel
  split
  · rename_i row hrow
    rw [List.map_set, hf]
    apply List.ext_getElem?
    intro i
    rw [List.getElem?_set]
    split_ifs with h1 h2
    · subst h1; simp [hrow]
    · subst h1
      simp only [List.length_map] at h2
      rw [List.getElem?_eq_none (by simpa using h2)]
    · rfl
  · rfl

theorem map_foldl_relabel {β : Type} (f : List Int → β) {type grp : Int}
    (hf : ∀ row : List Int, f ((row.set 3 type).set 4 grp) = f row)
    (targets : List Nat) :
    ∀ cmt : List (List Int), (targets.foldl (relabel type grp) cmt).map f = cmt.map f := by
  induction targets with
  | nil => intro cmt; rfl
  | cons n ts ih => intro cmt; simp only [List.foldl_cons]; rw [ih, map_relabel f hf]

theorem processorId_relabel (type grp : Int) (row : List Int) :
    processorId ((row.set 3 type).set 4 grp) = processorId row := by
  simp [processorId, vecGet, CPU_MAP_PROCESSOR_ID]

/-- A cache record changes neither the number of mapping rows nor a processor
id, and leaves the processor count and the base offset alone. -/
theorem stepCache_ids {s s' : State} {info : SYSTEM_LOGICAL_PROCESSOR_INFORMATION_EX}
    (hi : Inv s) (h : stepCache s info = some s') :
    s'._cpu_mapping_table.length = s._cpu_mapping_table.length ∧
    s'._cpu_mapping_table.map processorId = s._cpu_mapping_table.map processorId ∧
    s'._processors = s._processors ∧ s'.base_proc = s.base_proc := by
  rcases stepCache_spec h hi.ptt_rows with
    ⟨l0, l1, l2, l3, -, ts, ptt', -, -, -, hp, rfl⟩ |
    ⟨l0, -, n, a, b, c, d, rest, -, -, hp, rfl⟩ | ⟨-, -, rfl⟩
  · exact ⟨foldl_relabel_length _ _ _ _,
      map_foldl_relabel processorId (processorId_relabel _ _) ts _, rfl, rfl⟩
  · exact ⟨relabel_length _ _ _ _, map_relabel processorId (processorId_relabel _ _) _ _,
      rfl, rfl⟩
  · exact ⟨rfl, rfl, rfl, rfl⟩

/-- One row per logical processor, as long as no core mask has more than two
set bits. -/
theorem run_row_count (records : List SYSTEM_LOGICAL_PROCESSOR_INFORMATION_EX) :
    ∀ {s s' : State}, Inv s →
      (∀ info ∈ records, info.Relationship = RelationProcessorCore →
        (MaskToList info.Mask).length ≤ 2) →
      (s._cpu_mapping_table.length : Int) = s._processors →
      run s records = some s' →
      (s'._cpu_mapping_table.length : Int) = s'._processors := by
  induction records with
  | nil => intro s s' _ _ hlen h; rw [← Option.some.inj h]; exact hlen
  | cons info rest ih =>
    intro s s' hi hmask hlen h
    simp only [run] at h
    obtain ⟨s1, h1, h2⟩ := Option.bind_eq_some.1 h
    refine ih (step_inv hi h1) (fun i hm => hmask i (List.mem_cons_of_mem _ hm)) ?_ h2
    unfold step at h1
    split_ifs at h1 with hP hC hK
    · rcases stepPackage_spec h1 with ⟨_, rfl⟩ | ⟨_, r0, rest', hp, rfl⟩ <;> exact hlen
    · have hm := hmask info (List.mem_cons_self _ _) hC
      obtain ⟨l0, tl, a, b, c, d, rest', hl, hp, hcase⟩ := stepCore_spec h1 hi.ptt_rows hi.window
      rw [hl] at hm
      simp only [List.length_cons] at hm
      rcases hcase with ⟨l1, -, rfl⟩ | ⟨hne, -, -, rfl⟩ | ⟨hne, -, rfl⟩
      · simp only [List.length_append, List.length_cons, List.length_nil]
        push_cast; omega
      · have h0 : tl.length = 0 := by omega
        simp only [List.length_append, List.length_cons, List.length_nil, h0]
        push_cast; omega
      · have h0 : tl.length = 0 := by omega
        simp only [List.length_append, List.length_cons, List.length_nil, h0]
        push_cast; omega
    · obtain ⟨e1, -, e2, -⟩ := stepCache_ids hi h1
      rw [e1, e2]; exact hlen
    · rw [← Option.some.inj h1]; exact hlen

theorem idColumn_succ (n : Nat) : idColumn (n + 1) = idColumn n ++ [some (n : Int)] := by
  unfold idColumn
  rw [List.range_succ, List.map_append]; rfl

/-- Row `i` holds processor id `i`, as long as the core records enumerate the
processors contiguously. -/
theorem run_ids (records : List SYSTEM_LOGICAL_PROCESSOR_INFORMATION_EX) :
    ∀ {s s' : State} (next : Int), Inv s → contiguousCores next records = true →
      (s._cpu_mapping_table.length : Int) = s._processors →
      s._processors = s.base_proc + next →
      s._cpu_mapping_table.map processorId =
        idColumn s._cpu_mapping_table.length →
      run s records = some s' →
      (s'._cpu_mapping_table.length : Int) = s'._processors ∧
      s'._cpu_mapping_table.map processorId =
        idColumn s'._cpu_mapping_table.length := by
  induction records with
  | nil => intro s s' _ _ _ hlen _ hid h; rw [← Option.some.inj h]; exact ⟨hlen, hid⟩
  | cons info rest ih =>
    intro s s' next hi hc hlen hbase hid h
    simp only [run] at h
    obtain ⟨s1, h1, h2⟩ := Option.bind_eq_some.1 h
    have hi1 := step_inv hi h1
    unfold step at h1
    unfold contiguousCores at hc
    by_cases hP : info.Relationship = RelationProcessorPackage
    · have hC : ¬ info.Relationship = RelationProcessorCore := by rw [hP]; decide
      rw [if_pos hP] at h1
      rw [if_neg hC] at hc
      rcases stepPackage_spec h1 with ⟨_, rfl⟩ | ⟨_, r0, rest', hp, rfl⟩ <;>
        exact ih next hi1 hc hlen hbase hid h2
    · rw [if_neg hP] at h1
      by_cases hC : info.Relationship = RelationProcessorCore
      · rw [if_pos hC] at h1 hc
        obtain ⟨l0, tl, a, b, c, d, rest', hl, hp, hcase⟩ :=
          stepCore_spec h1 hi.ptt_rows hi.window
        rw [hl] at hc
        match tl, hc, hcase with
        | [], hc, hcase =>
          simp only [Bool.and_eq_true, Bool.or_eq_true, decide_eq_true_eq] at hc
          obtain ⟨h0, hc⟩ := hc
          have hid0 : l0 + (if 0 = l0 then s._processors else s.base_proc) = s._processors := by
            split_ifs with hz
            · omega
            · rcases h0 with h0 | h0
              · exact absurd h0.symm hz
              · omega
          have hb1 : s._processors + 1 =
              (if 0 = l0 then s._processors else s.base_proc) + (l0 + 1) := by omega
          rcases hcase with ⟨l1, hcon, -⟩ | ⟨-, -, -, rfl⟩ | ⟨-, -, rfl⟩
          · cases hcon
          · refine ih (l0 + 1) hi1 hc ?_ ?_ ?_ h2
            · simp only [List.length_append, List.length_cons, List.length_nil]
              push_cast; omega
            · simpa using hb1
            · simp only [List.map_append, List.length_append, List.length_cons,
                List.length_nil, idColumn_succ, hid, List.map_cons, List.map_nil]
              congr 2
              simp [processorId, vecGet, CPU_MAP_PROCESSOR_ID, hid0, hlen]
          · refine ih (l0 + 1) hi1 hc ?_ ?_ ?_ h2
            · simp only [List.length_append, List.length_cons, List.length_nil]
              push_cast; omega
            · simpa using hb1
            · simp only [List.map_append, List.length_append, List.length_cons,
                List.length_nil, idColumn_succ, hid, List.map_cons, List.map_nil]
              congr 2
              simp [processorId, vecGet, CPU_MAP_PROCESSOR_ID, hid0, hlen]
        | [l1], hc, hcase =>
          simp only [Bool.and_eq_true, Bool.or_eq_true, decide_eq_true_eq] at hc
          obtain ⟨⟨h0, hl1⟩, hc⟩ := hc
          have hid0 : l0 + (if 0 = l0 then s._processors else s.base_proc) = s._processors := by
            split_ifs with hz
            · omega
            · rcases h0 with h0 | h0
              · exact absurd h0.symm hz
              · omega
          have hb1 : s._processors + 2 =
              (if 0 = l0 then s._processors else s.base_proc) + (l0 + 2) := by omega
          rcases hcase with ⟨l1', hcon, rfl⟩ | ⟨hne, -⟩ | ⟨hne, -⟩
          · simp only [List.cons.injEq, and_true] at hcon
            subst hcon
            refine ih (l0 + 2) hi1 hc ?_ ?_ ?_ h2
            · simp only [List.length_append, List.length_cons, List.length_nil]
              push_cast; omega
            · simpa using hb1
            · have hid1 : l1 + (if 0 = l0 then s._processors else s.base_proc)
                  = s._processors + 1 := by omega
              simp only [List.map_append, List.length_append, List.length_cons,
                List.length_nil, idColumn_succ, hid, List.map_cons, List.map_nil]
              simp [processorId, vecGet, CPU_MAP_PROCESSOR_ID, hid0, hid1, hlen]
          · simp at hne
          · simp at hne
        | _ :: _ :: _, hc, _ => simp at hc
      · rw [if_neg hC] at h1 hc
        split_ifs at h1 with hK
        · obtain ⟨e1, e2, e3, e4⟩ := stepCache_ids hi h1
          exact ih next hi1 hc (by rw [e1, e3]; exact hlen) (by rw [e3, e4]; exact hbase)
            (by rw [e2, e1]; exact hid) h2
        · rw [← Option.some.inj h1] at h2
          exact ih next hi hc hlen hbase hid h2

/-! ## The rows a cache record relabels -/

theorem loop_sorted (fuel : Nat) :
    ∀ (mask : Nat) (cnt : Int) (list : List Int),
      list.Pairwise (· < ·) → (∀ x ∈ list, x < cnt) →
      (MaskToList.loop fuel mask cnt list).Pairwise (· < ·) := by
  induction fuel with
  | zero => intro mask cnt list hs _; simpa [MaskToList.loop] using hs
  | succ fuel ih =>
    intro mask cnt list hs hlt
    simp only [MaskToList.loop]
    split_ifs with h0 h1
    · exact hs
    · apply ih
      · rw [List.pairwise_append]
        refine ⟨hs, List.pairwise_singleton _ _, ?_⟩
        intro a ha b hb
        rw [List.mem_singleton.1 hb]
        exact hlt a ha
      · intro x hx
        rcases List.mem_append.1 hx with hx | hx
        · have := hlt x hx; omega
        · rw [List.mem_singleton.1 hx]; omega
    · apply ih _ _ _ hs
      intro x hx
      have := hlt x hx; omega

/-- The decoded indices are strictly increasing. -/
theorem MaskToList_sorted (mask : Nat) : (MaskToList mask).Pairwise (· < ·) :=
  loop_sorted mask mask 0 [] List.Pairwise.nil (by simp)

theorem MaskToList_nodup (mask : Nat) : (MaskToList mask).Nodup :=
  (MaskToList_sorted mask).imp (fun h => by omega)

theorem forall₂_targets {bp : Int} {xs : List Int} {ts : List Nat}
    (h : List.Forall₂ (fun (l : Int) (n : Nat) => l + bp = n) xs ts) :
    xs.map (fun l => l + bp) = ts.map (fun (n : Nat) => (n : Int)) := by
  induction h with
  | nil => rfl
  | cons hab _ ih => simp [hab, ih]

theorem nodup_of_map_cast {bp : Int} {xs : List Int} {ts : List Nat}
    (h : xs.map (fun l => l + bp) = ts.map (fun (n : Nat) => (n : Int)))
    (hx : xs.Nodup) : ts.Nodup := by
  have h1 : (xs.map (fun l => l + bp)).Nodup :=
    hx.map (fun a b hab => by simpa using hab)
  rw [h] at h1
  exact List.Nodup.of_map _ h1

/-- What a level-2 cache record does to a state of a run: it relabels the rows
`relabelTargets` names, which are distinct existing rows, with one type
(`Efficient` for four set bits, `MainPerformance` for one) and the current
group, and adds their number to that type's column of the working row. -/
theorem stepCache_effect {s s' : State} {info : SYSTEM_LOGICAL_PROCESSOR_INFORMATION_EX}
    (hi : Inv s) (hK : info.Relationship = RelationCache ∧ info.Level = 2)
    (h : stepCache s info = some s') :
    ∃ (ts : List Nat) (type : Int),
      (type = EFFICIENT_CORE_PROC ∨ type = MAIN_CORE_PROC) ∧
      relabelTargets s info = ts.map (fun (n : Nat) => (n : Int)) ∧
      ts.Nodup ∧ (∀ n ∈ ts, n < s._cpu_mapping_table.length) ∧
      s'._cpu_mapping_table = ts.foldl (relabel type s.group) s._cpu_mapping_table ∧
      s'._sockets = s._sockets ∧ s'._processors = s._processors ∧
      ((ts = [] ∧ s'._proc_type_table = s._proc_type_table) ∨
        ∃ a b c d rest, s._proc_type_table = [a, b, c, d] :: rest ∧
          s'._proc_type_table =
            [a, b + (if type = MAIN_CORE_PROC then (ts.length : Int) else 0),
             c + (if type = EFFICIENT_CORE_PROC then (ts.length : Int) else 0), d] :: rest) := by
  rcases stepCache_spec h hi.ptt_rows with
    ⟨l0, l1, l2, l3, hl, ts, ptt', hlen, hf, hlt, hp, rfl⟩ |
    ⟨l0, hl, n, a, b, c, d, rest, hn, hnlt, hp, rfl⟩ | ⟨h4, h1, rfl⟩
  · have htg : relabelTargets s info = ts.map (fun (n : Nat) => (n : Int)) := by
      unfold relabelTargets
      rw [if_pos hK, hl]
      simp only [List.length_cons, List.length_nil, if_true, List.headD_cons]
      exact forall₂_targets hf
    have hnd : ts.Nodup := by
      refine nodup_of_map_cast (forall₂_targets hf) ?_
      have := MaskToList_nodup info.Mask
      rw [hl] at this
      exact this.sublist (List.take_sublist _ _)
    refine ⟨ts, EFFICIENT_CORE_PROC, Or.inl rfl, htg, hnd, hlt, rfl, rfl, rfl, ?_⟩
    rcases hp with ⟨h0, rfl⟩ | ⟨a, b, c, d, rest, hp, rfl⟩
    · exact Or.inl ⟨h0, rfl⟩
    · refine Or.inr ⟨a, b, c, d, rest, hp, ?_⟩
      simp [EFFICIENT_CORE_PROC, MAIN_CORE_PROC]
  · have htg : relabelTargets s info = [n].map (fun (n : Nat) => (n : Int)) := by
      unfold relabelTargets
      rw [if_pos hK, hl]
      simp [hn]
    refine ⟨[n], MAIN_CORE_PROC, Or.inr rfl, htg, List.nodup_singleton n, ?_, rfl, rfl, rfl,
      Or.inr ⟨a, b, c, d, rest, hp, ?_⟩⟩
    · intro m hm
      rw [List.mem_singleton.1 hm]; exact hnlt
    · simp [EFFICIENT_CORE_PROC, MAIN_CORE_PROC]
  · have htg : relabelTargets s' info = [] := by
      unfold relabelTargets
      rw [if_pos hK, if_neg h4, if_neg h1]
    exact ⟨[], EFFICIENT_CORE_PROC, Or.inl rfl, htg, List.nodup_nil, by simp, rfl, rfl, rfl,
      Or.inl ⟨rfl, rfl⟩⟩

theorem relabel_getElem?_ne {type grp : Int} {cmt : List (List Int)} {n m : Nat} (h : n ≠ m) :
    (relabel type grp cmt n)[m]? = cmt[m]? := by
  unfold relabel
  split
  · exact List.getElem?_set_ne h
  · rfl

theorem relabel_getElem?_self {type grp : Int} {cmt : List (List Int)} {n : Nat}
    {row : List Int} (h : cmt[n]? = some row) :
    (relabel type grp cmt n)[n]? = some ((row.set 3 type).set 4 grp) := by
  have hn : n < cmt.length := by
    rcases Nat.lt_or_ge n cmt.length with h1 | h1
    · exact h1
    · rw [List.getElem?_eq_none h1] at h; cases h
  unfold relabel
  rw [h]
  exact List.getElem?_set_self hn

theorem run_cons {s s' : State} {info : SYSTEM_LOGICAL_PROCESSOR_INFORMATION_EX}
    {rest : List SYSTEM_LOGICAL_PROCESSOR_INFORMATION_EX} (h : run s (info :: rest) = some s') :
    ∃ s1, step s info = some s1 ∧ run s1 rest = some s' := by
  simp only [run] at h
  exact Option.bind_eq_some.1 h

theorem relabelsOnly_cons {ok : State → List Int → Bool} {s s1 : State}
    {info : SYSTEM_LOGICAL_PROCESSOR_INFORMATION_EX}
    {rest : List SYSTEM_LOGICAL_PROCESSOR_INFORMATION_EX}
    (h : relabelsOnly ok s (info :: rest) = true) (hstep : step s info = some s1) :
    (∀ (n : Nat) (row : List Int), (n : Int) ∈ relabelTargets s info →
      s._cpu_mapping_table[n]? = some row → ok s row = true) ∧
    relabelsOnly ok s1 rest = true := by
  simp only [relabelsOnly, hstep, Bool.and_eq_true, List.all_eq_true] at h
  refine ⟨?_, h.2⟩
  intro n row hn hrow
  have := h.1 (n : Int) hn
  rw [vecGet_natCast, hrow] at this
  exact this

/-! ## Hyperthreaded pairs -/

theorem coreType_relabel {type grp : Int} {row : List Int} (h : row.length = 6) :
    coreType ((row.set 3 type).set 4 grp) = some type := by
  obtain ⟨a, b, c, d, e, f, rfl⟩ := length_six h
  simp [coreType, vecGet, CPU_MAP_CORE_TYPE]

theorem paired_append_single {cmt : List (List Int)} {row : List Int}
    (hp : Paired cmt) (hrow : coreType row ≠ some HYPER_THREADING_PROC) :
    Paired (cmt ++ [row]) := by
  intro n r hn hr
  rcases Nat.lt_or_ge n cmt.length with hlt | hge
  · rw [List.getElem?_append_left hlt] at hn
    obtain ⟨p, hp1, hp2⟩ := hp n r hn hr
    have hlt' : n + 1 < cmt.length := by
      rcases Nat.lt_or_ge (n + 1) cmt.length with h | h
      · exact h
      · rw [List.getElem?_eq_none h] at hp1; cases hp1
    exact ⟨p, by rw [List.getElem?_append_left hlt']; exact hp1, hp2⟩
  · rw [List.getElem?_append_right hge] at hn
    have : n - cmt.length = 0 := by
      rcases Nat.eq_zero_or_pos (n - cmt.length) with h | h
      · exact h
      · rw [List.getElem?_eq_none (by simp only [List.length_singleton]; omega)] at hn
        cases hn
    rw [this] at hn
    simp only [List.getElem?_cons_zero, Option.some.injEq] at hn
    subst hn
    exact absurd hr hrow

theorem paired_append_pair {cmt : List (List Int)} (hp : Paired cmt)
    (id0 id1 socket core grp : Int) :
    Paired (cmt ++ [[id0, socket, core, HYPER_THREADING_PROC, grp, -1],
      [id1, socket, core, MAIN_CORE_PROC, grp, -1]]) := by
  intro n r hn hr
  rcases Nat.lt_or_ge n cmt.length with hlt | hge
  · rw [List.getElem?_append_left hlt] at hn
    obtain ⟨p, hp1, hp2⟩ := hp n r hn hr
    have hlt' : n + 1 < cmt.length := by
      rcases Nat.lt_or_ge (n + 1) cmt.length with h | h
      · exact h
      · rw [List.getElem?_eq_none h] at hp1; cases hp1
    exact ⟨p, by rw [List.getElem?_append_left hlt']; exact hp1, hp2⟩
  · rw [List.getElem?_append_right hge] at hn
    have hge' : cmt.length ≤ n + 1 := by omega
    rw [List.getElem?_append_right hge']
    have hsub : n + 1 - cmt.length = (n - cmt.length) + 1 := by omega
    rw [hsub]
    match hk : n - cmt.length, hn with
    | 0, hn =>
      simp only [List.getElem?_cons_zero, Option.some.injEq] at hn
      subst hn
      exact ⟨_, rfl, by simp [coreType, vecGet, CPU_MAP_CORE_TYPE],
        by simp [physicalCoreId, vecGet, CPU_MAP_CORE_ID],
        by simp [socketId, vecGet, CPU_MAP_SOCKET_ID],
        by simp [groupId, vecGet, CPU_MAP_GROUP_ID]⟩
    | 1, hn =>
      simp only [List.getElem?_cons_succ, List.getElem?_cons_zero, Option.some.injEq] at hn
      subst hn
      simp [coreType, vecGet, CPU_MAP_CORE_TYPE, HYPER_THREADING_PROC, MAIN_CORE_PROC] at hr
    | k + 2, hn => simp at hn

theorem paired_relabel {cmt : List (List Int)} {type grp : Int} {n : Nat}
    (hp : Paired cmt) (hrows : ∀ row ∈ cmt, row.length = 6)
    (hok : ∀ row, cmt[n]? = some row → coreType row ≠ some MAIN_CORE_PROC)
    (ht : type ≠ HYPER_THREADING_PROC) :
    Paired (relabel type grp cmt n) := by
  cases h0 : cmt[n]? with
  | none =>
    have : relabel type grp cmt n = cmt := by simp [relabel, h0]
    rw [this]; exact hp
  | some row0 =>
    intro m r hm hr
    by_cases hmn : n = m
    · subst hmn
      rw [relabel_getElem?_self h0] at hm
      rw [← Option.some.inj hm, coreType_relabel (hrows row0 (List.getElem?_mem h0))] at hr
      exact absurd (Option.some.inj hr) ht
    · rw [relabel_getElem?_ne hmn] at hm
      obtain ⟨p, hp1, hp2, hp3⟩ := hp m r hm hr
      have hne : n ≠ m + 1 := by
        intro he
        rw [← he, h0] at hp1
        exact hok row0 h0 (by rw [Option.some.inj hp1]; exact hp2)
      exact ⟨p, by rw [relabel_getElem?_ne hne]; exact hp1, hp2, hp3⟩

theorem paired_foldl_relabel {type grp : Int} (ht : type ≠ HYPER_THREADING_PROC)
    (ts : List Nat) :
    ∀ cmt : List (List Int), Paired cmt → (∀ row ∈ cmt, row.length = 6) → ts.Nodup →
      (∀ n ∈ ts, ∀ row, cmt[n]? = some row → coreType row ≠ some MAIN_CORE_PROC) →
      Paired (ts.foldl (relabel type grp) cmt) := by
  induction ts with
  | nil => intro cmt hp _ _ _; exact hp
  | cons n ts ih =>
    intro cmt hp hrows hnd hok
    simp only [List.foldl_cons]
    obtain ⟨hn, hnd'⟩ := List.nodup_cons.1 hnd
    refine ih _ (paired_relabel hp hrows (hok n (List.mem_cons_self _ _)) ht)
      (relabel_rows hrows) hnd' ?_
    intro m hm row hrow
    have hne : n ≠ m := fun he => hn (he ▸ hm)
    rw [relabel_getElem?_ne hne] at hrow
    exact hok m (List.mem_cons_of_mem _ hm) row hrow

theorem notPairType_main {s : State} {row : List Int} (h : notPairType s row = true) :
    coreType row ≠ some MAIN_CORE_PROC := by
  simp only [notPairType, Bool.and_eq_true, decide_eq_true_eq] at h
  exact h.2

/-- Pairs survive a run in which no cache record relabels a row classified
MainPerformance or HyperthreadSibling. -/
theorem run_paired (records : List SYSTEM_LOGICAL_PROCESSOR_INFORMATION_EX) :
    ∀ {s s' : State}, Inv s → Paired s._cpu_mapping_table →
      relabelsOnly notPairType s records = true → run s records = some s' →
      Paired s'._cpu_mapping_table := by
  induction records with
  | nil => intro s s' _ hp _ h; rw [← Option.some.inj h]; exact hp
  | cons info rest ih =>
    intro s s' hi hp hok h
    obtain ⟨s1, h1, h2⟩ := run_cons h
    obtain ⟨hok1, hok2⟩ := relabelsOnly_cons hok h1
    refine ih (step_inv hi h1) ?_ hok2 h2
    unfold step at h1
    split_ifs at h1 with hP hC hK
    · rcases stepPackage_spec h1 with ⟨_, rfl⟩ | ⟨_, r0, rest', hp', rfl⟩ <;> exact hp
    · obtain ⟨l0, tl, a, b, c, d, rest', -, -, hcase⟩ := stepCore_spec h1 hi.ptt_rows hi.window
      rcases hcase with ⟨l1, -, rfl⟩ | ⟨-, -, -, rfl⟩ | ⟨-, -, rfl⟩
      · exact paired_append_pair hp _ _ _ _ _
      · exact paired_append_single hp
          (by simp [coreType, vecGet, CPU_MAP_CORE_TYPE, EFFICIENT_CORE_PROC,
            HYPER_THREADING_PROC])
      · exact paired_append_single hp
          (by simp [coreType, vecGet, CPU_MAP_CORE_TYPE, HYPER_THREADING_PROC])
    · obtain ⟨ts, type, htype, htg, hnd, -, hcmt, -⟩ := stepCache_effect hi hK h1
      rw [hcmt]
      refine paired_foldl_relabel ?_ ts _ hp hi.cmt_rows hnd ?_
      · rcases htype with rfl | rfl <;> decide
      · intro n hn row hrow
        refine notPairType_main (hok1 n row ?_ hrow)
        rw [htg]
        exact List.mem_map.2 ⟨n, hn, rfl⟩
    · rw [← Option.some.inj h1]; exact hp

/-! ## Type columns against the `All` column -/

theorem countP_set_of_getElem? {α : Type} (p : α → Bool) :
    ∀ (l : List α) (n : Nat) (a b : α), l[n]? = some a →
      (l.set n b).countP p + (if p a = true then 1 else 0) =
        l.countP p + (if p b = true then 1 else 0)
  | [], n, a, b, h => by simp at h
  | x :: xs, 0, a, b, h => by
    simp only [List.getElem?_cons_zero, Option.some.injEq] at h
    subst h
    simp only [List.set_cons_zero, List.countP_cons]
    omega
  | x :: xs, n + 1, a, b, h => by
    simp only [List.getElem?_cons_succ] at h
    have := countP_set_of_getElem? p xs n a b h
    simp only [List.set_cons_succ, List.countP_cons]
    omega

theorem socketId_relabel (type grp : Int) (row : List Int) :
    socketId ((row.set 3 type).set 4 grp) = socketId row := by
  simp [socketId, vecGet, CPU_MAP_SOCKET_ID]

theorem unresolved_append (cmt rows : List (List Int)) (σ : Int) :
    unresolved (cmt ++ rows) σ = unresolved cmt σ + unresolved rows σ := by
  simp [unresolved, List.countP_append]

/-- Relabelling a row of socket `σ` leaves the unresolved count of every other
socket alone. -/
theorem unresolved_relabel_other {type grp : Int} {cmt : List (List Int)} {n : Nat}
    {row0 : List Int} {σ i : Int} (h0 : cmt[n]? = some row0)
    (hs : socketId row0 = some σ) (hne : i ≠ σ) :
    unresolved (relabel type grp cmt n) i = unresolved cmt i := by
  have h := countP_set_of_getElem?
    (fun row => decide (socketId row = some i) && decide (coreType row = some (-1)))
    cmt n row0 ((row0.set 3 type).set 4 grp) h0
  have e1 : ¬ (socketId row0 = some i) := by rw [hs]; intro he; exact hne (Option.some.inj he).symm
  simp only [socketId_relabel, e1, decide_False, Bool.false_and, Bool.false_eq_true,
    if_false, Nat.add_zero] at h
  simp only [unresolved, relabel, h0]
  exact h

/-- Relabelling an unresolved row of socket `σ` with a proper type lowers the
unresolved count of `σ` by one. -/
theorem unresolved_relabel_here (type grp : Int) {cmt : List (List Int)} {n : Nat}
    {row0 : List Int} {σ : Int} (h0 : cmt[n]? = some row0) (hlen : row0.length = 6)
    (hs : socketId row0 = some σ) (ht0 : coreType row0 = some (-1)) (ht : type ≠ -1) :
    unresolved (relabel type grp cmt n) σ + 1 = unresolved cmt σ := by
  have h := countP_set_of_getElem?
    (fun row => decide (socketId row = some σ) && decide (coreType row = some (-1)))
    cmt n row0 ((row0.set 3 type).set 4 grp) h0
  have e1 : ¬ (some type = some (-1 : Int)) := fun he => ht (Option.some.inj he)
  simp only [socketId_relabel, coreType_relabel hlen, hs, ht0, e1, decide_True, decide_False,
    Bool.and_true, Bool.and_false, Bool.false_eq_true, if_true, if_false, Nat.add_zero] at h
  simp only [unresolved, relabel, h0]
  exact h

theorem unresolvedHere_iff {s : State} {row : List Int} :
    unresolvedHere s row = true ↔ coreType row = some (-1) ∧ socketId row = some s._sockets := by
  simp [unresolvedHere]

theorem unresolved_foldl_relabel {type : Int} (grp : Int) {σ : Int} (ht : type ≠ -1)
    (ts : List Nat) :
    ∀ cmt : List (List Int), (∀ row ∈ cmt, row.length = 6) → ts.Nodup →
      (∀ n ∈ ts, ∃ row, cmt[n]? = some row ∧ coreType row = some (-1) ∧
        socketId row = some σ) →
      unresolved (ts.foldl (relabel type grp) cmt) σ + ts.length = unresolved cmt σ ∧
      ∀ i : Int, i ≠ σ → unresolved (ts.foldl (relabel type grp) cmt) i = unresolved cmt i := by
  induction ts with
  | nil => intro cmt _ _ _; exact ⟨rfl, fun _ _ => rfl⟩
  | cons n ts ih =>
    intro cmt hrows hnd hok
    simp only [List.foldl_cons, List.length_cons]
    obtain ⟨hn, hnd'⟩ := List.nodup_cons.1 hnd
    obtain ⟨row0, h0, ht0, hs0⟩ := hok n (List.mem_cons_self _ _)
    have hok' : ∀ m ∈ ts, ∃ row, (relabel type grp cmt n)[m]? = some row ∧
        coreType row = some (-1) ∧ socketId row = some σ := by
      intro m hm
      have hne : n ≠ m := fun he => hn (he ▸ hm)
      rw [relabel_getElem?_ne hne]
      exact hok m (List.mem_cons_of_mem _ hm)
    obtain ⟨ih1, ih2⟩ := ih _ (relabel_rows hrows) hnd' hok'
    have h1 := unresolved_relabel_here type grp h0
      (hrows row0 (List.getElem?_mem h0)) hs0 ht0 ht
    refine ⟨by omega, fun i hi => ?_⟩
    rw [ih2 i hi, unresolved_relabel_other h0 hs0 hi]

theorem sockets_le_relabel {type grp : Int} {cmt : List (List Int)} {n : Nat} {σ : Int}
    (h : ∀ row ∈ cmt, ∃ v, socketId row = some v ∧ v ≤ σ) :
    ∀ row ∈ relabel type grp cmt n, ∃ v, socketId row = some v ∧ v ≤ σ := by
  intro row hr
  unfold relabel at hr
  split at hr
  · rename_i row0 h0
    rcases List.mem_or_eq_of_mem_set hr with hr | rfl
    · exact h row hr
    · rw [socketId_relabel]; exact h row0 (List.getElem?_mem h0)
  · exact h row hr

theorem sockets_le_foldl_relabel {type grp : Int} {σ : Int} (ts : List Nat) :
    ∀ cmt : List (List Int), (∀ row ∈ cmt, ∃ v, socketId row = some v ∧ v ≤ σ) →
      ∀ row ∈ ts.foldl (relabel type grp) cmt, ∃ v, socketId row = some v ∧ v ≤ σ := by
  induction ts with
  | nil => intro cmt h; simpa using h
  | cons n ts ih => intro cmt h; simp only [List.foldl_cons]; exact ih _ (sockets_le_relabel h)

theorem unresolved_eq_zero_of_lt {cmt : List (List Int)} {σ i : Int}
    (h : ∀ row ∈ cmt, ∃ v, socketId row = some v ∧ v ≤ σ) (hlt : σ < i) :
    unresolved cmt i = 0 := by
  unfold unresolved
  rw [List.countP_eq_zero]
  intro row hrow
  obtain ⟨v, hv, hle⟩ := h row hrow
  have : ¬ (some v = some i) := fun he => by have := Option.some.inj he; omega
  simp [hv, this]

theorem init_accounted : Accounted (initState [] []) :=
  { sockets_le := by simp [initState]
    archived := by simp [initState]
    working := by simp [initState] }

theorem unresolved_single (id σ core type grp used i : Int) :
    unresolved [[id, σ, core, type, grp, used]] i = if σ = i ∧ type = -1 then 1 else 0 := by
  by_cases h1 : σ = i
  · by_cases h2 : type = -1
    · simp [unresolved, socketId, coreType, vecGet, CPU_MAP_SOCKET_ID, CPU_MAP_CORE_TYPE, h1, h2]
    · simp [unresolved, socketId, coreType, vecGet, CPU_MAP_SOCKET_ID, CPU_MAP_CORE_TYPE, h1, h2]
  · simp [unresolved, socketId, coreType, vecGet, CPU_MAP_SOCKET_ID, CPU_MAP_CORE_TYPE, h1]

theorem unresolved_pair (id0 id1 σ core grp i : Int) :
    unresolved [[id0, σ, core, HYPER_THREADING_PROC, grp, -1],
      [id1, σ, core, MAIN_CORE_PROC, grp, -1]] i = 0 := by
  simp [unresolved, socketId, coreType, vecGet, CPU_MAP_SOCKET_ID, CPU_MAP_CORE_TYPE,
    HYPER_THREADING_PROC, MAIN_CORE_PROC]

theorem balanced_zero {cmt : List (List Int)} {σ i : Int}
    (h : ∀ row ∈ cmt, ∃ v, socketId row = some v ∧ v ≤ σ) (hlt : σ < i) :
    Balanced cmt [0, 0, 0, 0] i :=
  ⟨0, 0, 0, 0, rfl, by rw [unresolved_eq_zero_of_lt h hlt]; rfl⟩

theorem balanced_of_unresolved_eq {cmt cmt' : List (List Int)} {row : List Int} {i : Int}
    (h : Balanced cmt row i) (he : unresolved cmt' i = unresolved cmt i) :
    Balanced cmt' row i := by
  obtain ⟨a, m, e, t, hr, hsum⟩ := h
  exact ⟨a, m, e, t, hr, by rw [he]; exact hsum⟩

theorem stepPackage_accounted {s s' : State} {info : SYSTEM_LOGICAL_PROCESSOR_INFORMATION_EX}
    (hi : Inv s) (ha : Accounted s) (h : stepPackage s info = some s') : Accounted s' := by
  obtain ⟨hsl, harch, hwork⟩ := ha
  have hsl' : ∀ row ∈ s._cpu_mapping_table, ∃ v, socketId row = some v ∧ v ≤ s._sockets + 1 := by
    intro row hrow
    obtain ⟨v, hv, hle⟩ := hsl row hrow
    exact ⟨v, hv, by omega⟩
  have hlen := hi.rows_sockets
  rcases stepPackage_spec h with ⟨h0, rfl⟩ | ⟨_, r0, rest, hp, rfl⟩
  · have hnil : s._proc_type_table = [] := List.length_eq_zero.1 (by omega)
    refine ⟨hsl', ?_, ?_⟩
    · intro i row hrow
      simp [hnil] at hrow
    · intro row hrow
      simp only [hnil, List.nil_append, List.getElem?_cons_zero, Option.some.injEq] at hrow
      subst hrow
      exact balanced_zero hsl (show s._sockets < s._sockets + 1 by omega)
  · rw [hp] at hlen harch hwork
    simp only [List.length_cons] at hlen
    push_cast at hlen
    refine ⟨hsl', ?_, ?_⟩
    · intro i row hrow
      simp only [List.tail_cons] at hrow harch
      rcases Nat.lt_or_ge i rest.length with hlt | hge
      · rw [List.getElem?_append_left hlt] at hrow
        exact harch i row hrow
      · rw [List.getElem?_append_right hge] at hrow
        have hi0 : i - rest.length = 0 := by
          rcases Nat.eq_zero_or_pos (i - rest.length) with h | h
          · exact h
          · rw [List.getElem?_eq_none (by simp only [List.length_singleton]; omega)] at hrow
            cases hrow
        rw [hi0] at hrow
        simp only [List.getElem?_cons_zero, Option.some.injEq] at hrow
        subst hrow
        have hidx : (i : Int) = s._sockets := by omega
        rw [hidx]
        exact hwork _ (by simp)
    · intro row hrow
      simp only [List.getElem?_cons_zero, Option.some.injEq] at hrow
      subst hrow
      exact balanced_zero hsl (show s._sockets < s._sockets + 1 by omega)

theorem stepCore_accounted {s s' : State} {info : SYSTEM_LOGICAL_PROCESSOR_INFORMATION_EX}
    (hi : Inv s) (ha : Accounted s) (hmask : (MaskToList info.Mask).length ≤ 2)
    (h : stepCore s info = some s') : Accounted s' := by
  obtain ⟨hsl, harch, hwork⟩ := ha
  obtain ⟨l0, tl, a, b, c, d, rest, hl, hp, hcase⟩ := stepCore_spec h hi.ptt_rows hi.window
  have hlen := hi.rows_sockets
  rw [hp] at hlen harch hwork
  simp only [List.length_cons] at hlen
  push_cast at hlen
  simp only [List.tail_cons] at harch
  rw [hl] at hmask
  simp only [List.length_cons] at hmask
  obtain ⟨a', m, e, t, hrow0, hsum⟩ := hwork [a, b, c, d] (by simp)
  simp only [List.cons.injEq, and_true] at hrow0
  obtain ⟨rfl, rfl, rfl, rfl⟩ := hrow0
  have hidx : ∀ (i : Nat) (row : List Int), rest[i]? = some row → (i : Int) ≠ s._sockets := by
    intro i row hrow
    have : i < rest.length := by
      rcases Nat.lt_or_ge i rest.length with h | h
      · exact h
      · rw [List.getElem?_eq_none h] at hrow; cases hrow
    omega
  have hsl1 : ∀ (new : List (List Int)),
      (∀ row ∈ new, socketId row = some s._sockets) →
      ∀ row ∈ s._cpu_mapping_table ++ new, ∃ v, socketId row = some v ∧ v ≤ s._sockets := by
    intro new hnew row hrow
    rcases List.mem_append.1 hrow with h1 | h1
    · exact hsl row h1
    · exact ⟨_, hnew row h1, Int.le_refl _⟩
  rcases hcase with ⟨l1, -, rfl⟩ | ⟨hne, -, -, rfl⟩ | ⟨hne, -, rfl⟩
  · refine ⟨hsl1 _ ?_, ?_, ?_⟩
    · intro row hrow
      simp only [List.mem_cons, List.mem_singleton, List.not_mem_nil, or_false] at hrow
      rcases hrow with rfl | rfl <;> simp [socketId, vecGet, CPU_MAP_SOCKET_ID]
    · intro i row hrow
      refine balanced_of_unresolved_eq (harch i row hrow) ?_
      rw [unresolved_append, unresolved_pair]; rfl
    · intro row hrow
      simp only [List.getElem?_cons_zero, Option.some.injEq] at hrow
      subst hrow
      refine ⟨_, _, _, _, rfl, ?_⟩
      rw [unresolved_append, unresolved_pair]
      push_cast; omega
  · have h0 : tl.length = 0 := by omega
    refine ⟨hsl1 _ ?_, ?_, ?_⟩
    · intro row hrow
      rw [List.mem_singleton.1 hrow]; simp [socketId, vecGet, CPU_MAP_SOCKET_ID]
    · intro i row hrow
      refine balanced_of_unresolved_eq (harch i row hrow) ?_
      rw [unresolved_append, unresolved_single]
      simp [EFFICIENT_CORE_PROC]
    · intro row hrow
      simp only [List.getElem?_cons_zero, Option.some.injEq] at hrow
      subst hrow
      refine ⟨_, _, _, _, rfl, ?_⟩
      rw [unresolved_append, unresolved_single, h0]
      simp only [EFFICIENT_CORE_PROC]
      norm_num
      omega
  · have h0 : tl.length = 0 := by omega
    refine ⟨hsl1 _ ?_, ?_, ?_⟩
    · intro row hrow
      rw [List.mem_singleton.1 hrow]; simp [socketId, vecGet, CPU_MAP_SOCKET_ID]
    · intro i row hrow
      refine balanced_of_unresolved_eq (harch i row hrow) ?_
      rw [unresolved_append, unresolved_single]
      have := hidx i row hrow
      simp [Ne.symm this]
    · intro row hrow
      simp only [List.getElem?_cons_zero, Option.some.injEq] at hrow
      subst hrow
      refine ⟨_, _, _, _, rfl, ?_⟩
      rw [unresolved_append, unresolved_single, h0]
      simp only [and_self, if_true]
      push_cast
      omega

theorem stepCache_accounted {s s' : State} {info : SYSTEM_LOGICAL_PROCESSOR_INFORMATION_EX}
    (hi : Inv s) (ha : Accounted s)
    (hK : info.Relationship = RelationCache ∧ info.Level = 2)
    (hok : ∀ (n : Nat) (row : List Int), (n : Int) ∈ relabelTargets s info →
      s._cpu_mapping_table[n]? = some row → unresolvedHere s row = true)
    (h : stepCache s info = some s') : Accounted s' := by
  obtain ⟨hsl, harch, hwork⟩ := ha
  obtain ⟨ts, type, htype, htg, hnd, hlt, hcmt, hsock, -, hptt⟩ := stepCache_effect hi hK h
  have ht : type ≠ -1 := by
    rcases htype with rfl | rfl <;> decide
  have hrows : ∀ n ∈ ts, ∃ row, s._cpu_mapping_table[n]? = some row ∧
      coreType row = some (-1) ∧ socketId row = some s._sockets := by
    intro n hn
    have hnlt := hlt n hn
    refine ⟨s._cpu_mapping_table[n], List.getElem?_eq_getElem hnlt, ?_⟩
    exact unresolvedHere_iff.1
      (hok n _ (by rw [htg]; exact List.mem_map.2 ⟨n, hn, rfl⟩) (List.getElem?_eq_getElem hnlt))
  obtain ⟨hu1, hu2⟩ := unresolved_foldl_relabel s.group ht ts _ hi.cmt_rows hnd hrows
  have hlen := hi.rows_sockets
  refine ⟨?_, ?_, ?_⟩
  · rw [hcmt, hsock]
    exact sockets_le_foldl_relabel ts _ hsl
  · intro i row hrow
    have htail : s'._proc_type_table.tail = s._proc_type_table.tail := by
      rcases hptt with ⟨-, he⟩ | ⟨a, b, c, d, rest, hp, he⟩
      · rw [he]
      · rw [he, hp]; rfl
    rw [htail] at hrow
    have hil : i < s._proc_type_table.tail.length := by
      rcases Nat.lt_or_ge i s._proc_type_table.tail.length with h | h
      · exact h
      · rw [List.getElem?_eq_none h] at hrow; cases hrow
    have hne : (i : Int) ≠ s._sockets := by
      simp only [List.length_tail] at hil
      omega
    rw [hcmt]
    exact balanced_of_unresolved_eq (harch i row hrow) (hu2 _ hne)
  · intro row hrow
    rw [hcmt, hsock]
    rcases hptt with ⟨h0, he⟩ | ⟨a, b, c, d, rest, hp, he⟩
    · rw [he] at hrow
      subst h0
      exact hwork row hrow
    · rw [he] at hrow
      simp only [List.getElem?_cons_zero, Option.some.injEq] at hrow
      subst hrow
      obtain ⟨a', m, e, t, hrow0, hsum⟩ := hwork [a, b, c, d] (by rw [hp]; simp)
      simp only [List.cons.injEq, and_true] at hrow0
      obtain ⟨rfl, rfl, rfl, rfl⟩ := hrow0
      refine ⟨_, _, _, _, rfl, ?_⟩
      rcases htype with rfl | rfl
      · have hne : ¬ (EFFICIENT_CORE_PROC = MAIN_CORE_PROC) := by decide
        rw [if_neg hne, if_pos rfl]
        omega
      · have hne : ¬ (MAIN_CORE_PROC = EFFICIENT_CORE_PROC) := by decide
        rw [if_neg hne, if_pos rfl]
        omega

/-- The bookkeeping survives a run in which core masks have at most two set
bits and cache records relabel only unresolved rows of the current package. -/
theorem run_accounted (records : List SYSTEM_LOGICAL_PROCESSOR_INFORMATION_EX) :
    ∀ {s s' : State}, Inv s → Accounted s →
      (∀ info ∈ records, info.Relationship = RelationProcessorCore →
        (MaskToList info.Mask).length ≤ 2) →
      relabelsOnly unresolvedHere s records = true → run s records = some s' →
      Accounted s' := by
  induction records with
  | nil => intro s s' _ ha _ _ h; rw [← Option.some.inj h]; exact ha
  | cons info rest ih =>
    intro s s' hi ha hmask hok h
    obtain ⟨s1, h1, h2⟩ := run_cons h
    obtain ⟨hok1, hok2⟩ := relabelsOnly_cons hok h1
    refine ih (step_inv hi h1) ?_ (fun i hm => hmask i (List.mem_cons_of_mem _ hm)) hok2 h2
    unfold step at h1
    split_ifs at h1 with hP hC hK
    · exact stepPackage_accounted hi ha h1
    · exact stepCore_accounted hi ha (hmask info (List.mem_cons_self _ _) hC) h1
    · exact stepCache_accounted hi ha hK hok1 h1
    · rw [← Option.some.inj h1]; exact ha

/-! ## `MaskToList` decodes the set bits -/

theorem shiftRight_one_eq (m : Nat) : m >>> 1 = m / 2 := by
  simp [Nat.shiftRight_eq_div_pow]

theorem loop_zero_mask (fuel : Nat) (cnt : Int) (list : List Int) :
    MaskToList.loop fuel 0 cnt list = list := by
  cases fuel <;> simp [MaskToList.loop]

/-- The iteration bound does not matter once it is at least the mask: the loop
ends because the mask has become 0. -/
theorem loop_fuel (f1 : Nat) :
    ∀ (f2 mask : Nat) (cnt : Int) (list : List Int), mask ≤ f1 → mask ≤ f2 →
      MaskToList.loop f1 mask cnt list = MaskToList.loop f2 mask cnt list := by
  induction f1 with
  | zero =>
    intro f2 mask cnt list h1 _
    have : mask = 0 := by omega
    subst this
    rw [loop_zero_mask, loop_zero_mask]
  | succ f1 ih =>
    intro f2 mask cnt list h1 h2
    by_cases h0 : mask = 0
    · subst h0
      rw [loop_zero_mask, loop_zero_mask]
    · cases f2 with
      | zero => omega
      | succ f2 =>
        simp only [MaskToList.loop, if_neg h0, shiftRight_one_eq]
        exact ih f2 _ _ _ (by omega) (by omega)

theorem loop_mem (fuel : Nat) :
    ∀ (mask : Nat) (cnt : Int) (list : List Int) (x : Int), mask ≤ fuel →
      (x ∈ MaskToList.loop fuel mask cnt list ↔
        x ∈ list ∨ ∃ k : Nat, x = cnt + k ∧ mask.testBit k = true) := by
  induction fuel with
  | zero =>
    intro mask cnt list x h
    have : mask = 0 := by omega
    subst this
    simp [MaskToList.loop]
  | succ fuel ih =>
    intro mask cnt list x h
    by_cases h0 : mask = 0
    · subst h0
      simp [MaskToList.loop]
    · simp only [MaskToList.loop, if_neg h0, shiftRight_one_eq, Nat.and_one_is_mod]
      rw [ih _ _ _ _ (by omega)]
      constructor
      · rintro (hx | ⟨k, hk, hb⟩)
        · split_ifs at hx with hodd
          · rcases List.mem_append.1 hx with hx | hx
            · exact Or.inl hx
            · refine Or.inr ⟨0, by simpa using List.mem_singleton.1 hx, ?_⟩
              rw [Nat.testBit_zero]; simpa using hodd.symm
          · exact Or.inl hx
        · refine Or.inr ⟨k + 1, by push_cast; omega, ?_⟩
          rw [Nat.testBit_succ]; exact hb
      · rintro (hx | ⟨k, hk, hb⟩)
        · left
          split_ifs
          · exact List.mem_append_left _ hx
          · exact hx
        · cases k with
          | zero =>
            left
            rw [Nat.testBit_zero] at hb
            have hodd : 1 = mask % 2 := by simpa using (of_decide_eq_true hb).symm
            rw [if_pos hodd]
            exact List.mem_append_right _ (by simpa using hk)
          | succ k =>
            right
            rw [Nat.testBit_succ] at hb
            exact ⟨k, by push_cast at hk; omega, hb⟩

theorem setBits_zero : setBits 0 = 0 := by simp [setBits]

theorem setBits_pos_step {mask : Nat} (h : mask ≠ 0) :
    setBits mask = mask % 2 + setBits (mask / 2) := by
  unfold setBits
  rw [Nat.digits_def' (by norm_num) (Nat.pos_of_ne_zero h)]
  simp

theorem loop_length (fuel : Nat) :
    ∀ (mask : Nat) (cnt : Int) (list : List Int), mask ≤ fuel →
      (MaskToList.loop fuel mask cnt list).length = list.length + setBits mask := by
  induction fuel with
  | zero =>
    intro mask cnt list h
    have : mask = 0 := by omega
    subst this
    simp [MaskToList.loop, setBits_zero]
  | succ fuel ih =>
    intro mask cnt list h
    by_cases h0 : mask = 0
    · subst h0
      simp [MaskToList.loop, setBits_zero]
    · simp only [MaskToList.loop, if_neg h0, shiftRight_one_eq, Nat.and_one_is_mod]
      rw [ih _ _ _ (by omega), setBits_pos_step h0]
      split_ifs with hodd
      · simp only [List.length_append, List.length_singleton]; omega
      · omega

theorem loop_sum (fuel : Nat) :
    ∀ (mask cnt : Nat) (list : List Int), mask ≤ fuel →
      ((MaskToList.loop fuel mask (cnt : Int) list).map fun i => 2 ^ i.toNat).sum =
        (list.map fun i => 2 ^ i.toNat).sum + 2 ^ cnt * mask := by
  induction fuel with
  | zero =>
    intro mask cnt list h
    have : mask = 0 := by omega
    subst this
    simp [MaskToList.loop]
  | succ fuel ih =>
    intro mask cnt list h
    by_cases h0 : mask = 0
    · subst h0
      simp [MaskToList.loop]
    · simp only [MaskToList.loop, if_neg h0, shiftRight_one_eq, Nat.and_one_is_mod]
      have hcast : ((cnt : Int) + 1) = ((cnt + 1 : Nat) : Int) := by push_cast; rfl
      rw [hcast, ih _ _ _ (by omega)]
      have hdm := Nat.div_add_mod mask 2
      generalize mask / 2 = q at hdm
      split_ifs with hodd
      · have hm : mask = 2 * q + 1 := by omega
        subst hm
        simp only [List.map_append, List.sum_append, List.map_cons, List.map_nil,
          List.sum_cons, List.sum_nil, Int.toNat_ofNat, pow_succ]
        ring
      · have hm : mask = 2 * q := by omega
        subst hm
        simp only [pow_succ]
        ring

/-- A natural number is a decoded index exactly when the mask has that bit. -/
theorem MaskToList_mem (mask : Nat) (x : Int) :
    x ∈ MaskToList mask ↔ ∃ k : Nat, x = k ∧ mask.testBit k = true := by
  unfold MaskToList
  rw [loop_mem mask mask 0 [] x (Nat.le_refl _)]
  simp

theorem MaskToList_length (mask : Nat) : (MaskToList mask).length = setBits mask := by
  unfold MaskToList
  rw [loop_length mask mask 0 [] (Nat.le_refl _)]
  simp

theorem MaskToList_sum (mask : Nat) :
    ((MaskToList mask).map fun i => 2 ^ i.toNat).sum = mask := by
  unfold MaskToList
  have := loop_sum mask mask 0 [] (Nat.le_refl _)
  simpa using this

/-- A strictly increasing list of the set bits of a mask is what `MaskToList`
returns. -/
theorem MaskToList_eq_of_bits (mask : Nat) (l : List Nat) (hs : l.Pairwise (· < ·))
    (h : ∀ k : Nat, mask.testBit k = true ↔ k ∈ l) :
    MaskToList mask = l.map fun (n : Nat) => (n : Int) := by
  have hs' : (l.map fun (n : Nat) => (n : Int)).Pairwise (· < ·) := by
    rw [List.pairwise_map]
    exact hs.imp (fun hab => by exact_mod_cast hab)
  refine List.eq_of_perm_of_sorted ?_ (MaskToList_sorted mask) hs'
  rw [List.perm_ext_iff_of_nodup (MaskToList_nodup mask) (hs'.imp (fun hab => by omega))]
  intro x
  rw [MaskToList_mem]
  constructor
  · rintro ⟨k, rfl, hk⟩
    exact List.mem_map.2 ⟨k, (h k).1 hk, rfl⟩
  · intro hx
    obtain ⟨k, hk, rfl⟩ := List.mem_map.1 hx
    exact ⟨k, rfl, (h k).2 hk⟩

theorem MaskToList_two_pow (i : Nat) : MaskToList (2 ^ i) = [(i : Int)] := by
  have := MaskToList_eq_of_bits (2 ^ i) [i] (List.pairwise_singleton _ _)
    (by intro k; rw [Nat.testBit_two_pow]; simp [eq_comm])
  simpa using this

theorem testBit_two_pow_add_two_pow {a b : Nat} (hab : a < b) (k : Nat) :
    (2 ^ a + 2 ^ b).testBit k = true ↔ k = a ∨ k = b := by
  rw [Nat.add_comm]
  rcases Nat.lt_trichotomy k b with hlt | heq | hgt
  · rw [Nat.testBit_two_pow_add_gt hlt, Nat.testBit_two_pow]
    simp only [decide_eq_true_eq]
    constructor
    · intro h; exact Or.inl h.symm
    · rintro (h | h)
      · exact h.symm
      · omega
  · subst heq
    rw [Nat.testBit_two_pow_add_eq, Nat.testBit_two_pow]
    have : ¬ a = k := by omega
    simp [this]
  · have hlt : 2 ^ b + 2 ^ a < 2 ^ k := by
      have h1 : 2 ^ a < 2 ^ b := Nat.pow_lt_pow_right (by norm_num) hab
      have h2 : 2 ^ (b + 1) ≤ 2 ^ k := Nat.pow_le_pow_right (by norm_num) hgt
      rw [pow_succ] at h2
      omega
    rw [Nat.testBit_lt_two_pow hlt]
    constructor
    · intro h; cases h
    · rintro (h | h) <;> omega

theorem MaskToList_two_pow_add {a b : Nat} (hab : a < b) :
    MaskToList (2 ^ a + 2 ^ b) = [(a : Int), (b : Int)] := by
  have := MaskToList_eq_of_bits (2 ^ a + 2 ^ b) [a, b]
    (by simp [hab])
    (by intro k; rw [testBit_two_pow_add_two_pow hab]; simp)
  simpa using this

/-! ## The buffer walk -/

theorem sizeSum_nil : sizeSum [] = 0 := rfl

theorem sizeSum_cons (info : SYSTEM_LOGICAL_PROCESSOR_INFORMATION_EX)
    (rest : List SYSTEM_LOGICAL_PROCESSOR_INFORMATION_EX) :
    sizeSum (info :: rest) = info.Size + sizeSum rest := by
  simp [sizeSum]

theorem sizeSum_append (pre post : List SYSTEM_LOGICAL_PROCESSOR_INFORMATION_EX) :
    sizeSum (pre ++ post) = sizeSum pre + sizeSum post := by
  simp [sizeSum]

/-- Behind records of positive size the next record starts at their total
size. -/
theorem recordAt_append (done : List SYSTEM_LOGICAL_PROCESSOR_INFORMATION_EX) :
    ∀ (todo : List SYSTEM_LOGICAL_PROCESSOR_INFORMATION_EX) (k : Nat),
      (∀ info ∈ done, 0 < info.Size) →
      recordAt (done ++ todo) (sizeSum done + k) = recordAt todo k := by
  induction done with
  | nil => intro todo k _; simp [sizeSum_nil]
  | cons x xs ih =>
    intro todo k hpos
    have hx : 0 < x.Size := hpos x (List.mem_cons_self _ _)
    have hne : ¬ (sizeSum (x :: xs) + k = 0) := by rw [sizeSum_cons]; omega
    have hle : 0 < x.Size ∧ x.Size ≤ sizeSum (x :: xs) + k := by
      rw [sizeSum_cons]; exact ⟨hx, by omega⟩
    have hsub : sizeSum (x :: xs) + k - x.Size = sizeSum xs + k := by
      rw [sizeSum_cons]; omega
    simp only [List.cons_append, recordAt, if_neg hne, if_pos hle, hsub]
    exact ih todo k (fun i hi => hpos i (List.mem_cons_of_mem _ hi))

theorem recordAt_head (done : List SYSTEM_LOGICAL_PROCESSOR_INFORMATION_EX)
    (x : SYSTEM_LOGICAL_PROCESSOR_INFORMATION_EX)
    (xs : List SYSTEM_LOGICAL_PROCESSOR_INFORMATION_EX)
    (hpos : ∀ info ∈ done, 0 < info.Size) :
    recordAt (done ++ x :: xs) (sizeSum done) = some x := by
  have := recordAt_append done (x :: xs) 0 hpos
  simpa [recordAt] using this

theorem walk_stop {fieldsEnd : SYSTEM_LOGICAL_PROCESSOR_INFORMATION_EX → Nat}
    {buf : List SYSTEM_LOGICAL_PROCESSOR_INFORMATION_EX} {len off : Nat}
    (h : ¬ off < len) (fuel : Nat) (s : State) :
    walk fieldsEnd buf len fuel off s = some s := by
  cases fuel <;> simp [walk, h]

/-- On a buffer of records of positive size that reaches `len` and holds the
fields read of every record that starts below `len`, the walk runs the loop
body on the records that start below `len`. -/
theorem walk_eq_run (fieldsEnd : SYSTEM_LOGICAL_PROCESSOR_INFORMATION_EX → Nat) (len : Nat)
    (todo : List SYSTEM_LOGICAL_PROCESSOR_INFORMATION_EX) :
    ∀ (done : List SYSTEM_LOGICAL_PROCESSOR_INFORMATION_EX) (s : State) (fuel : Nat),
      (∀ info ∈ done ++ todo, 0 < info.Size) → len ≤ sizeSum (done ++ todo) →
      fieldsInside fieldsEnd (sizeSum done) len todo →
      todo.length ≤ fuel →
      walk fieldsEnd (done ++ todo) len fuel (sizeSum done) s =
        run s (visitedRecords (sizeSum done) len todo) := by
  induction todo with
  | nil =>
    intro done s fuel _ hlen _ _
    rw [List.append_nil] at hlen
    rw [walk_stop (by omega)]
    simp [visitedRecords, run]
  | cons x xs ih =>
    intro done s fuel hpos hlen hin hfuel
    by_cases hlt : sizeSum done < len
    · cases fuel with
      | zero => simp at hfuel
      | succ fuel =>
        have hdone : ∀ info ∈ done, 0 < info.Size :=
          fun i hi => hpos i (List.mem_append_left _ hi)
        simp only [walk, if_pos hlt, recordAt_head done x xs hdone, Option.some_bind,
          if_pos (hin.1 hlt), visitedRecords, run]
        cases hstep : step s x with
        | none => rfl
        | some s1 =>
          simp only [Option.some_bind]
          have hassoc : done ++ x :: xs = (done ++ [x]) ++ xs := by simp
          have hsize : sizeSum done + x.Size = sizeSum (done ++ [x]) := by
            rw [sizeSum_append, sizeSum_cons, sizeSum_nil]; rfl
          have hin2 := hin.2
          rw [hsize] at hin2
          rw [hassoc, hsize]
          refine ih (done ++ [x]) s1 fuel ?_ ?_ hin2 ?_
          · rw [← hassoc]; exact hpos
          · rw [← hassoc]; exact hlen
          · simpa using hfuel
    · rw [walk_stop hlt]
      simp [visitedRecords, hlt, run]

/-- The parser on a buffer is the parser on the records the walk reaches. -/
theorem parse_buffer_eq {fieldsEnd : SYSTEM_LOGICAL_PROCESSOR_INFORMATION_EX → Nat}
    {buf : List SYSTEM_LOGICAL_PROCESSOR_INFORMATION_EX}
    {len fuel : Nat} (ptt cmt : List (List Int))
    (hpos : ∀ info ∈ buf, 0 < info.Size) (hlen : len ≤ sizeSum buf)
    (hin : fieldsInside fieldsEnd 0 len buf)
    (hfuel : buf.length ≤ fuel) :
    parse_processor_info_win_buffer fieldsEnd buf len fuel ptt cmt =
      parse_processor_info_win (visitedRecords 0 len buf) ptt cmt := by
  unfold parse_processor_info_win_buffer parse_processor_info_win
  have := walk_eq_run fieldsEnd len buf [] (initState ptt cmt) fuel (by simpa using hpos)
    (by simpa using hlen) (by simpa [sizeSum_nil] using hin) hfuel
  simp only [List.nil_append, sizeSum_nil] at this
  rw [this]

/-- Records that hold the fields read of them, followed by a last record whose
fields end inside the buffer, have all their fields inside the buffer. -/
theorem fieldsInside_append_last (fieldsEnd : SYSTEM_LOGICAL_PROCESSOR_INFORMATION_EX → Nat)
    (len : Nat) (pre : List SYSTEM_LOGICAL_PROCESSOR_INFORMATION_EX)
    (last : SYSTEM_LOGICAL_PROCESSOR_INFORMATION_EX) :
    ∀ off : Nat, (∀ info ∈ pre, fieldsEnd info ≤ info.Size) →
      off + sizeSum pre < len → off + sizeSum pre + fieldsEnd last ≤ len →
      fieldsInside fieldsEnd off len (pre ++ [last]) := by
  induction pre with
  | nil =>
    intro off _ _ h
    rw [sizeSum_nil] at h
    exact ⟨fun _ => by omega, trivial⟩
  | cons x xs ih =>
    intro off hread hlt hle
    rw [sizeSum_cons] at hlt hle
    have hx := hread x (List.mem_cons_self _ _)
    refine ⟨fun _ => by omega, ?_⟩
    exact ih (off + x.Size) (fun i hi => hread i (List.mem_cons_of_mem _ hi))
      (by omega) (by omega)

/-- A record whose fields end behind `len` is read outside the buffer: the walk
has no result. -/
theorem walk_outside (fieldsEnd : SYSTEM_LOGICAL_PROCESSOR_INFORMATION_EX → Nat)
    (done : List SYSTEM_LOGICAL_PROCESSOR_INFORMATION_EX)
    (x : SYSTEM_LOGICAL_PROCESSOR_INFORMATION_EX)
    (xs : List SYSTEM_LOGICAL_PROCESSOR_INFORMATION_EX) (len fuel : Nat) (s : State)
    (hpos : ∀ info ∈ done, 0 < info.Size)
    (hlt : sizeSum done < len) (hout : len < sizeSum done + fieldsEnd x) :
    walk fieldsEnd (done ++ x :: xs) len fuel (sizeSum done) s = none := by
  cases fuel with
  | zero => simp [walk, hlt]
  | succ fuel =>
    simp only [walk, if_pos hlt, recordAt_head done x xs hpos, Option.some_bind,
      if_neg (show ¬ sizeSum done + fieldsEnd x ≤ len by omega)]

/-- The malformed buffer cut at 80 bytes ends inside the mask of its second
record (bytes 80 to 87): the read leaves the buffer and the run has no
result. -/
theorem malformedBuffer_cut :
    parse_processor_info_win_buffer sdkFieldsEnd malformedBuffer 80 2 [] [] = none := by
  decide

/-- A record that starts below `len` is reached, wherever it ends. -/
theorem visitedRecords_all (len : Nat) (pre : List SYSTEM_LOGICAL_PROCESSOR_INFORMATION_EX)
    (last : SYSTEM_LOGICAL_PROCESSOR_INFORMATION_EX) :
    ∀ off : Nat, off + sizeSum pre < len →
      visitedRecords off len (pre ++ [last]) = pre ++ [last] := by
  induction pre with
  | nil =>
    intro off h
    rw [sizeSum_nil] at h
    simp [visitedRecords, show off < len by omega]
  | cons x xs ih =>
    intro off h
    rw [sizeSum_cons] at h
    have hx := ih (off + x.Size) (by omega)
    show visitedRecords off len (x :: (xs ++ [last])) = x :: (xs ++ [last])
    simp only [visitedRecords, if_pos (show off < len by omega), hx]

/-- The counting loop on a buffer of records of positive size whose sizes add
up to `sz` counts the records. -/
theorem countLoop_spec (sz : Nat) (todo : List SYSTEM_LOGICAL_PROCESSOR_INFORMATION_EX) :
    ∀ (done : List SYSTEM_LOGICAL_PROCESSOR_INFORMATION_EX) (cores : Int) (fuel : Nat),
      todo ≠ [] → (∀ info ∈ done ++ todo, 0 < info.Size) →
      sizeSum (done ++ todo) = sz → todo.length ≤ fuel →
      countLoop (done ++ todo) sz fuel (sizeSum done) cores = some (cores + todo.length) := by
  induction todo with
  | nil => intro done cores fuel h; exact absurd rfl h
  | cons x xs ih =>
    intro done cores fuel _ hpos hsum hfuel
    cases fuel with
    | zero => simp at hfuel
    | succ fuel =>
      have hdone : ∀ info ∈ done, 0 < info.Size :=
        fun i hi => hpos i (List.mem_append_left _ hi)
      simp only [countLoop, recordAt_head done x xs hdone, Option.some_bind]
      rw [sizeSum_append, sizeSum_cons] at hsum
      cases xs with
      | nil =>
        rw [sizeSum_nil] at hsum
        rw [if_neg (by omega)]
        simp
      | cons y ys =>
        have hy : 0 < y.Size := hpos y (by simp)
        rw [sizeSum_cons] at hsum
        rw [if_pos (by omega)]
        have hassoc : done ++ x :: y :: ys = (done ++ [x]) ++ y :: ys := by simp
        have hsize : sizeSum done + x.Size = sizeSum (done ++ [x]) := by
          rw [sizeSum_append, sizeSum_cons, sizeSum_nil]; rfl
        rw [hassoc, hsize, ih (done ++ [x]) (cores + 1) fuel (by simp)
          (by rw [← hassoc]; exact hpos)
          (by rw [← hassoc, sizeSum_append, sizeSum_cons, sizeSum_cons]; omega)
          (by simpa using hfuel)]
        simp only [List.length_cons]
        push_cast
        congr 1
        ring

/-! ## Processor and core counters -/

theorem stepPackage_counters {s s' : State} {info : SYSTEM_LOGICAL_PROCESSOR_INFORMATION_EX}
    (h : stepPackage s info = some s') :
    s'._cores = s._cores ∧ s'._processors = s._processors := by
  rcases stepPackage_spec h with ⟨_, rfl⟩ | ⟨_, r0, rest, _, rfl⟩ <;> exact ⟨rfl, rfl⟩

theorem stepCore_counters {s s' : State} {info : SYSTEM_LOGICAL_PROCESSOR_INFORMATION_EX}
    (h : stepCore s info = some s') :
    s'._cores = s._cores + 1 ∧
    s'._processors = s._processors + ((MaskToList info.Mask).length : Int) := by
  unfold stepCore at h
  simp only [fillProcInfo_eq, fillProcInfoDefault_eq, Option.some_bind] at h
  obtain ⟨l0, -, h⟩ := Option.bind_eq_some.1 h
  by_cases h2 : (2 : Int) = ((MaskToList info.Mask).length : Int)
  · rw [if_pos h2] at h
    obtain ⟨l1, -, h⟩ := Option.bind_eq_some.1 h
    obtain ⟨t1, -, h⟩ := Option.bind_eq_some.1 h
    obtain ⟨t2, -, h⟩ := Option.bind_eq_some.1 h
    obtain ⟨t3, -, h⟩ := Option.bind_eq_some.1 h
    rw [← Option.some.inj h]; exact ⟨rfl, rfl⟩
  · rw [if_neg h2] at h
    by_cases hw : s._processors > s.group_start ∧ s._processors ≤ s.group_end
    · rw [if_pos hw] at h
      obtain ⟨t1, -, h⟩ := Option.bind_eq_some.1 h
      obtain ⟨t2, -, h⟩ := Option.bind_eq_some.1 h
      rw [← Option.some.inj h]; exact ⟨rfl, rfl⟩
    · rw [if_neg hw] at h
      obtain ⟨t1, -, h⟩ := Option.bind_eq_some.1 h
      rw [← Option.some.inj h]; exact ⟨rfl, rfl⟩

theorem stepCache_counters {s s' : State} {info : SYSTEM_LOGICAL_PROCESSOR_INFORMATION_EX}
    (h : stepCache s info = some s') :
    s'._cores = s._cores ∧ s'._processors = s._processors := by
  unfold stepCache at h
  by_cases h4 : (4 : Int) = ((MaskToList info.Mask).length : Int)
  · simp only [if_pos h4] at h
    obtain ⟨last, -, h⟩ := Option.bind_eq_some.1 h
    obtain ⟨l0, -, h⟩ := Option.bind_eq_some.1 h
    obtain ⟨tabs, -, h⟩ := Option.bind_eq_some.1 h
    rw [← Option.some.inj h]
    by_cases hc : s._processors < last + s.base_proc
    · simp [hc]
    · simp [hc]
  · simp only [if_neg h4] at h
    by_cases h1 : (1 : Int) = ((MaskToList info.Mask).length : Int)
    · simp only [if_pos h1] at h
      obtain ⟨l0, -, h⟩ := Option.bind_eq_some.1 h
      obtain ⟨c1, -, h⟩ := Option.bind_eq_some.1 h
      obtain ⟨c2, -, h⟩ := Option.bind_eq_some.1 h
      obtain ⟨p1, -, h⟩ := Option.bind_eq_some.1 h
      rw [← Option.some.inj h]; exact ⟨rfl, rfl⟩
    · simp only [if_neg h1] at h
      rw [← Option.some.inj h]; exact ⟨rfl, rfl⟩

theorem finish_counters {s r : State} (h : finish s = some r) :
    r._cores = s._cores ∧ r._processors = s._processors := by
  unfold finish at h
  by_cases hk : s._sockets + 1 > 1
  · simp only [if_pos hk] at h
    obtain ⟨row0, -, h⟩ := Option.bind_eq_some.1 h
    obtain ⟨t, -, h⟩ := Option.bind_eq_some.1 h
    obtain ⟨t1, -, h⟩ := Option.bind_eq_some.1 h
    rw [← Option.some.inj h]; exact ⟨rfl, rfl⟩
  · simp only [if_neg hk] at h
    rw [← Option.some.inj h]; exact ⟨rfl, rfl⟩

/-- Only core records move the two counters: the core counter by one, the
processor counter by the number of decoded indices. -/
theorem step_counters {s s' : State} {info : SYSTEM_LOGICAL_PROCESSOR_INFORMATION_EX}
    (h : step s info = some s') :
    (info.Relationship = RelationProcessorCore →
      s'._cores = s._cores + 1 ∧
      s'._processors = s._processors + ((MaskToList info.Mask).length : Int)) ∧
    (¬ info.Relationship = RelationProcessorCore →
      s'._cores = s._cores ∧ s'._processors = s._processors) := by
  unfold step at h
  by_cases hP : info.Relationship = RelationProcessorPackage
  · have hC : ¬ info.Relationship = RelationProcessorCore := by rw [hP]; decide
    rw [if_pos hP] at h
    exact ⟨fun hc => absurd hc hC, fun _ => stepPackage_counters h⟩
  · rw [if_neg hP] at h
    by_cases hC : info.Relationship = RelationProcessorCore
    · rw [if_pos hC] at h
      exact ⟨fun _ => stepCore_counters h, fun hc => absurd hC hc⟩
    · rw [if_neg hC] at h
      refine ⟨fun hc => absurd hc hC, fun _ => ?_⟩
      split_ifs at h
      · exact stepCache_counters h
      · rw [← Option.some.inj h]; exact ⟨rfl, rfl⟩

theorem countCores_cons (info : SYSTEM_LOGICAL_PROCESSOR_INFORMATION_EX)
    (rest : List SYSTEM_LOGICAL_PROCESSOR_INFORMATION_EX) :
    countCores (info :: rest) =
      (if info.Relationship = RelationProcessorCore then 1 else 0) + countCores rest := by
  unfold countCores
  by_cases h : info.Relationship = RelationProcessorCore
  · simp [List.filter_cons, h]; omega
  · simp [List.filter_cons, h]

theorem coreSetBits_cons (info : SYSTEM_LOGICAL_PROCESSOR_INFORMATION_EX)
    (rest : List SYSTEM_LOGICAL_PROCESSOR_INFORMATION_EX) :
    coreSetBits (info :: rest) =
      (if info.Relationship = RelationProcessorCore then setBits info.Mask else 0) +
        coreSetBits rest := by
  unfold coreSetBits
  by_cases h : info.Relationship = RelationProcessorCore
  · simp [List.filter_cons, h]
  · simp [List.filter_cons, h]

theorem run_counters (records : List SYSTEM_LOGICAL_PROCESSOR_INFORMATION_EX) :
    ∀ {s s' : State}, run s records = some s' →
      s'._cores = s._cores + (countCores records : Int) ∧
      s'._processors = s._processors + (coreSetBits records : Int) := by
  induction records with
  | nil =>
    intro s s' h
    rw [← Option.some.inj h]
    simp [countCores, coreSetBits]
  | cons info rest ih =>
    intro s s' h
    obtain ⟨s1, h1, h2⟩ := run_cons h
    obtain ⟨e1, e2⟩ := ih h2
    obtain ⟨hc, hn⟩ := step_counters h1
    rw [e1, e2, countCores_cons, coreSetBits_cons]
    by_cases hC : info.Relationship = RelationProcessorCore
    · obtain ⟨c1, c2⟩ := hc hC
      rw [c1, c2, MaskToList_length, if_pos hC, if_pos hC]
      push_cast
      constructor <;> ring
    · obtain ⟨c1, c2⟩ := hn hC
      rw [c1, c2, if_neg hC, if_neg hC]
      push_cast
      constructor <;> ring

/-! ## Records without a signal -/

theorem step_noSignal {s : State} {info : SYSTEM_LOGICAL_PROCESSOR_INFORMATION_EX}
    (h : noSignal info = true) : step s info = some s := by
  simp only [noSignal, Bool.and_eq_true, Bool.or_eq_true, decide_eq_true_eq] at h
  obtain ⟨hK, hcase⟩ := h
  have hP : ¬ info.Relationship = RelationProcessorPackage := by rw [hK]; decide
  have hC : ¬ info.Relationship = RelationProcessorCore := by rw [hK]; decide
  unfold step
  rw [if_neg hP, if_neg hC]
  rcases hcase with hL | ⟨h1, h4⟩
  · rw [if_neg (fun hc => hL hc.2)]
  · split_ifs
    · exact stepCache_ok h1 h4
    · rfl

theorem run_filter_noSignal (records : List SYSTEM_LOGICAL_PROCESSOR_INFORMATION_EX) :
    ∀ s : State, run s (records.filter fun info => !noSignal info) = run s records := by
  induction records with
  | nil => intro s; rfl
  | cons info rest ih =>
    intro s
    by_cases h : noSignal info = true
    · simp only [List.filter_cons, h, Bool.not_true, Bool.false_eq_true, if_false, run,
        step_noSignal h, Option.some_bind]
      exact ih s
    · have h' : noSignal info = false := by simpa using h
      simp only [List.filter_cons, h', Bool.not_false, if_true, run]
      cases step s info with
      | none => rfl
      | some s1 => simpa using ih s1

/-! ## Order of the mapping rows -/

theorem physicalCoreId_relabel (type grp : Int) (row : List Int) :
    physicalCoreId ((row.set 3 type).set 4 grp) = physicalCoreId row := by
  simp [physicalCoreId, vecGet, CPU_MAP_CORE_ID]

/-- A cache record leaves the processor id, socket id and physical core id of
every mapping row alone. -/
theorem step_cache_columns {s s' : State} {info : SYSTEM_LOGICAL_PROCESSOR_INFORMATION_EX}
    (hi : Inv s) (hK : info.Relationship = RelationCache) (h : step s info = some s') :
    s'._cpu_mapping_table.map processorId = s._cpu_mapping_table.map processorId ∧
    s'._cpu_mapping_table.map socketId = s._cpu_mapping_table.map socketId ∧
    s'._cpu_mapping_table.map physicalCoreId = s._cpu_mapping_table.map physicalCoreId := by
  have hP : ¬ info.Relationship = RelationProcessorPackage := by rw [hK]; decide
  have hC : ¬ info.Relationship = RelationProcessorCore := by rw [hK]; decide
  unfold step at h
  rw [if_neg hP, if_neg hC] at h
  split_ifs at h with h2
  · obtain ⟨ts, type, -, -, -, -, hcmt, -⟩ := stepCache_effect hi h2 h
    rw [hcmt]
    exact ⟨map_foldl_relabel processorId (processorId_relabel _ _) ts _,
      map_foldl_relabel socketId (socketId_relabel _ _) ts _,
      map_foldl_relabel physicalCoreId (physicalCoreId_relabel _ _) ts _⟩
  · rw [← Option.some.inj h]; exact ⟨rfl, rfl, rfl⟩

theorem pairwise_append_const {l new : List (Option Int)} {v : Int}
    (hs : l.Pairwise cellLe) (hr : ∀ x ∈ l, ∃ c, x = some c ∧ c ≤ v)
    (hnew : ∀ y ∈ new, y = some v) : (l ++ new).Pairwise cellLe := by
  rw [List.pairwise_append]
  refine ⟨hs, List.pairwise_of_forall_mem_list ?_, ?_⟩
  · intro a ha b hb
    exact ⟨v, v, hnew a ha, hnew b hb, Int.le_refl _⟩
  · intro a ha b hb
    obtain ⟨c, hc, hle⟩ := hr a ha
    exact ⟨c, v, hc, hnew b hb, hle⟩

theorem init_ordered : Ordered (initState [] []) :=
  { cores_sorted := by simp [initState]
    cores_range := by simp [initState]
    sockets_sorted := by simp [initState]
    sockets_range := by simp [initState]
    cores_nonneg := by simp [initState] }

/-- Appending rows that carry the current core counter and socket counter,
and then advancing the core counter, keeps the order invariant. -/
theorem ordered_append {s s' : State} {new : List (List Int)} (ho : Ordered s)
    (hsock : 0 ≤ s._sockets)
    (hncore : ∀ row ∈ new, physicalCoreId row = some s._cores)
    (hnsock : ∀ row ∈ new, socketId row = some s._sockets)
    (hcmt : s'._cpu_mapping_table = s._cpu_mapping_table ++ new)
    (hcores : s'._cores = s._cores + 1) (hsockets : s'._sockets = s._sockets) :
    Ordered s' := by
  obtain ⟨h1, h2, h3, h4, h5⟩ := ho
  have hc' : ∀ y ∈ new.map physicalCoreId, y = some s._cores := by
    intro y hy
    obtain ⟨row, hrow, rfl⟩ := List.mem_map.1 hy
    exact hncore row hrow
  have hs' : ∀ y ∈ new.map socketId, y = some s._sockets := by
    intro y hy
    obtain ⟨row, hrow, rfl⟩ := List.mem_map.1 hy
    exact hnsock row hrow
  refine ⟨?_, ?_, ?_, ?_, by omega⟩
  · rw [hcmt, List.map_append]
    refine pairwise_append_const h1 ?_ hc'
    intro x hx
    obtain ⟨c, hc, -, hlt⟩ := h2 x hx
    exact ⟨c, hc, by omega⟩
  · rw [hcmt, List.map_append, hcores]
    intro x hx
    rcases List.mem_append.1 hx with hx | hx
    · obtain ⟨c, hc, h0, hlt⟩ := h2 x hx
      exact ⟨c, hc, h0, by omega⟩
    · exact ⟨s._cores, hc' x hx, h5, by omega⟩
  · rw [hcmt, List.map_append]
    refine pairwise_append_const h3 ?_ hs'
    intro x hx
    obtain ⟨v, hv, -, hle⟩ := h4 x hx
    exact ⟨v, hv, hle⟩
  · rw [hcmt, List.map_append, hsockets]
    intro x hx
    rcases List.mem_append.1 hx with hx | hx
    · exact h4 x hx
    · exact ⟨s._sockets, hs' x hx, hsock, Int.le_refl _⟩

theorem step_ordered {s s' : State} {info : SYSTEM_LOGICAL_PROCESSOR_INFORMATION_EX}
    (hi : Inv s) (ho : Ordered s) (h : step s info = some s') : Ordered s' := by
  by_cases hP : info.Relationship = RelationProcessorPackage
  · rw [step_package hP] at h
    obtain ⟨h1, h2, h3, h4, h5⟩ := ho
    have h4' : ∀ x ∈ s._cpu_mapping_table.map socketId,
        ∃ v, x = some v ∧ 0 ≤ v ∧ v ≤ s._sockets + 1 := by
      intro x hx
      obtain ⟨v, hv, h0, hle⟩ := h4 x hx
      exact ⟨v, hv, h0, by omega⟩
    rcases stepPackage_spec h with ⟨_, rfl⟩ | ⟨_, r0, rest, _, rfl⟩
    · exact ⟨h1, h2, h3, h4', h5⟩
    · exact ⟨h1, h2, h3, h4', h5⟩
  · by_cases hC : info.Relationship = RelationProcessorCore
    · have hstep := h
      unfold step at h
      rw [if_neg hP, if_pos hC] at h
      obtain ⟨l0, tl, a, b, c, d, rest, -, hp, hcase⟩ := stepCore_spec h hi.ptt_rows hi.window
      have hsock : 0 ≤ s._sockets := hi.sockets_nonneg (by rw [hp]; simp)
      rcases hcase with ⟨l1, -, rfl⟩ | ⟨-, -, -, rfl⟩ | ⟨-, -, rfl⟩
      · refine ordered_append ho hsock ?_ ?_ rfl rfl rfl
        · intro row hrow
          simp only [List.mem_cons, List.mem_singleton, List.not_mem_nil, or_false] at hrow
          rcases hrow with rfl | rfl <;> simp [physicalCoreId, vecGet, CPU_MAP_CORE_ID]
        · intro row hrow
          simp only [List.mem_cons, List.mem_singleton, List.not_mem_nil, or_false] at hrow
          rcases hrow with rfl | rfl <;> simp [socketId, vecGet, CPU_MAP_SOCKET_ID]
      · refine ordered_append ho hsock ?_ ?_ rfl rfl rfl
        · intro row hrow
          rw [List.mem_singleton.1 hrow]; simp [physicalCoreId, vecGet, CPU_MAP_CORE_ID]
        · intro row hrow
          rw [List.mem_singleton.1 hrow]; simp [socketId, vecGet, CPU_MAP_SOCKET_ID]
      · refine ordered_append ho hsock ?_ ?_ rfl rfl rfl
        · intro row hrow
          rw [List.mem_singleton.1 hrow]; simp [physicalCoreId, vecGet, CPU_MAP_CORE_ID]
        · intro row hrow
          rw [List.mem_singleton.1 hrow]; simp [socketId, vecGet, CPU_MAP_SOCKET_ID]
    · obtain ⟨h1, h2, h3, h4, h5⟩ := ho
      obtain ⟨hc1, hc2⟩ := (step_counters h).2 hC
      have hs := step_sockets hi h
      rw [if_neg hP] at hs
      have hs' : s'._sockets = s._sockets := by simpa using hs
      by_cases hK : info.Relationship = RelationCache
      · obtain ⟨-, e2, e3⟩ := step_cache_columns hi hK h
        exact ⟨by rw [e3]; exact h1, by rw [e3, hc1]; exact h2, by rw [e2]; exact h3,
          by rw [e2, hs']; exact h4, by rw [hc1]; exact h5⟩
      · have he : s' = s := by
          unfold step at h
          rw [if_neg hP, if_neg hC, if_neg (fun hc => hK hc.1)] at h
          exact (Option.some.inj h).symm
        rw [he]
        exact ⟨h1, h2, h3, h4, h5⟩

theorem run_ordered (records : List SYSTEM_LOGICAL_PROCESSOR_INFORMATION_EX) :
    ∀ {s s' : State}, Inv s → Ordered s → run s records = some s' → Ordered s' := by
  induction records with
  | nil => intro s s' _ ho h; rw [← Option.some.inj h]; exact ho
  | cons info rest ih =>
    intro s s' hi ho h
    obtain ⟨s1, h1, h2⟩ := run_cons h
    exact ih (step_inv hi h1) (step_ordered hi ho h1) h2

/-- Once a mapping row exists the count table has a working row. -/
theorem run_working_row (records : List SYSTEM_LOGICAL_PROCESSOR_INFORMATION_EX) :
    ∀ {s s' : State}, Inv s →
      (s._cpu_mapping_table ≠ [] → s._proc_type_table ≠ []) →
      run s records = some s' →
      (s'._cpu_mapping_table ≠ [] → s'._proc_type_table ≠ []) := by
  induction records with
  | nil => intro s s' _ hw h; rw [← Option.some.inj h]; exact hw
  | cons info rest ih =>
    intro s s' hi hw h
    obtain ⟨s1, h1, h2⟩ := run_cons h
    refine ih (step_inv hi h1) ?_ h2
    intro hne
    by_cases hp : s._proc_type_table = []
    · have hc : s._cpu_mapping_table = [] := by
        by_contra hc
        exact hw hc hp
      unfold step at h1
      split_ifs at h1 with hP hC hK
      · rcases stepPackage_spec h1 with ⟨_, rfl⟩ | ⟨_, r0, rest', _, rfl⟩ <;> simp
      · obtain ⟨l0, tl, a, b, c, d, rest', -, hp', -⟩ :=
          stepCore_spec h1 hi.ptt_rows hi.window
        rw [hp] at hp'; cases hp'
      · obtain ⟨e1, -⟩ := stepCache_ids hi h1
        rw [hc] at e1
        exact absurd (List.length_eq_zero.1 e1) hne
      · rw [← Option.some.inj h1] at hne
        exact absurd hc hne
    · exact step_nonempty hi hp h1

/-! ## Claims about the count table -/

/-- C2: on every stream that opens with a package record and is processed to
completion from empty tables, row 0 of the final `ProcTypeTable` holds the
final processor count in its `All` column (single-socket and multi-socket
alike), and no cache record met during the run changes the `All` column of
any row. -/
theorem all_column_is_total_processors
    (records : List SYSTEM_LOGICAL_PROCESSOR_INFORMATION_EX) (r : State)
    (hfirst : StartsWithPackage records)
    (h : parse_processor_info_win records [] [] = some r) :
    tabGet r._proc_type_table 0 ALL_PROC = some r._processors ∧
    ∀ pre info post s s', records = pre ++ info :: post →
      info.Relationship = RelationCache →
      run (initState [] []) pre = some s → step s info = some s' →
      s'._proc_type_table.map (fun row => vecGet row ALL_PROC) =
        s._proc_type_table.map (fun row => vecGet row ALL_PROC) := by
  refine ⟨parse_all_total (countPackages_pos_of_first hfirst) h, ?_⟩
  intro pre info post s s' _ hK hs hstep
  exact step_cache_all_column (run_inv pre init_inv hs) hK hstep

/-- C2 at the hybrid stream, which is single-socket and carries a 4-wide cache
record. -/
theorem all_column_is_total_processors_witness :
    StartsWithPackage hybridStream ∧
    ∃ r, parse_processor_info_win hybridStream [] [] = some r ∧
      tabGet r._proc_type_table 0 ALL_PROC = some r._processors ∧ r._processors = 8 :=
  ⟨⟨_, _, rfl, rfl⟩, _, rfl,
    (all_column_is_total_processors hybridStream _ ⟨_, _, rfl, rfl⟩ rfl).1, rfl⟩

/-- C3: on every stream with at least two package records that is processed
to completion from empty tables, the final `ProcTypeTable` has one row per
package after row 0, row 0 is column by column the sum of those rows, and row
`i` is the working row as it stood when the records of the `i`-th package
ended (the working row being all zero right after each package record).  For
the dual-socket stream the parser returns 2 sockets, 16 processors with
processor ids 0..15, the second socket's rows carrying socket id 1 and base
offset 8, and the three count rows (16, 8, 0, 8), (8, 4, 0, 4), (8, 4, 0, 4)
in the column order All, MainPerformance, Efficient, HyperthreadSibling. -/
theorem multi_socket_rows :
    (∀ (records : List SYSTEM_LOGICAL_PROCESSOR_INFORMATION_EX) (r : State),
      StartsWithPackage records → 2 ≤ countPackages records →
      parse_processor_info_win records [] [] = some r →
      r._proc_type_table.length = countPackages records + 1 ∧
      (∀ row ∈ r._proc_type_table, row.length = PROC_TYPE_TABLE_SIZE) ∧
      (∀ j : Nat, j < PROC_TYPE_TABLE_SIZE →
        tabGet r._proc_type_table 0 j = some (colSum r._proc_type_table.tail j)) ∧
      (∀ pre post, records = pre ++ post →
        (post = [] ∨ ∃ p rest, post = p :: rest ∧ p.Relationship = RelationProcessorPackage) →
        1 ≤ countPackages pre →
        ∃ s row, run (initState [] []) pre = some s ∧
          vecGet s._proc_type_table 0 = some row ∧
          vecGet r._proc_type_table (countPackages pre : Int) = some row) ∧
      (∀ pre p post s, records = pre ++ p :: post →
        p.Relationship = RelationProcessorPackage →
        run (initState [] []) (pre ++ [p]) = some s →
        vecGet s._proc_type_table 0 = some proc_init_line)) ∧
    (∃ r, parse_processor_info_win dualSocketStream [] [] = some r ∧
      r._sockets = 2 ∧ r._processors = 16 ∧
      r._cpu_mapping_table.map processorId = idColumn 16 ∧
      (r._cpu_mapping_table.take 8).map socketId = List.replicate 8 (some 0) ∧
      (r._cpu_mapping_table.drop 8).map socketId = List.replicate 8 (some 1) ∧
      r.base_proc = 8 ∧
      r._proc_type_table.map countsOf =
        [(some 16, some 8, some 0, some 8), (some 8, some 4, some 0, some 4),
         (some 8, some 4, some 0, some 4)]) := by
  refine ⟨?_, ?_⟩
  · intro records r _ hk h
    obtain ⟨h1, h2, h3⟩ := parse_total_row hk h
    refine ⟨h1, h2, h3, ?_, ?_⟩
    · intro pre post he hpost hpre
      subst he
      exact parse_row_of_prefix hk hpost hpre h
    · intro pre p post s _ hP hs
      rw [run_append] at hs
      obtain ⟨s1, hs1, hs2⟩ := Option.bind_eq_some.1 hs
      simp only [run] at hs2
      obtain ⟨s2, hstep, hs3⟩ := Option.bind_eq_some.1 hs2
      rw [← Option.some.inj hs3]
      exact step_package_row0 (run_inv pre init_inv hs1) hP hstep
  · exact ⟨_, rfl, by decide, by decide, by decide, by decide, by decide, by decide, by decide⟩

/-- C3 at the dual-socket stream: the row kept for the first package is the
working row at the end of the first package's records. -/
theorem multi_socket_rows_witness :
    StartsWithPackage dualSocketStream ∧ 2 ≤ countPackages dualSocketStream ∧
    ∃ r s row, parse_processor_info_win dualSocketStream [] [] = some r ∧
      r._proc_type_table.length = 3 ∧
      run (initState [] []) hyperthreadedStream = some s ∧
      vecGet s._proc_type_table 0 = some row ∧
      vecGet r._proc_type_table 1 = some row := by
  have hfirst : StartsWithPackage dualSocketStream := ⟨_, _, rfl, rfl⟩
  have hk : 2 ≤ countPackages dualSocketStream := by decide
  have hp : parse_processor_info_win dualSocketStream [] [] = some _ := rfl
  obtain ⟨hlen, -, -, hrow, -⟩ := multi_socket_rows.1 dualSocketStream _ hfirst hk hp
  obtain ⟨s, row, hs, h0, h1⟩ :=
    hrow hyperthreadedStream hyperthreadedStream rfl (Or.inr ⟨_, _, rfl, rfl⟩) (by decide)
  exact ⟨hfirst, hk, _, s, row, hp, hlen, hs, h0, h1⟩

/-- C9: the single-socket stream of four hyperthreaded cores gives 8
processors, 4 physical cores, 1 socket, 8 mapping rows (4 MainPerformance, 4
HyperthreadSibling, none Efficient, all with socket id 0) and a count table
of the single row All = 8, MainPerformance = 4, Efficient = 0,
HyperthreadSibling = 4. -/
theorem hyperthreaded_single_socket :
    ∃ r, parse_processor_info_win hyperthreadedStream [] [] = some r ∧
      r._processors = 8 ∧ r._cores = 4 ∧ r._sockets = 1 ∧
      r._cpu_mapping_table.length = 8 ∧
      (r._cpu_mapping_table.filter fun row => coreType row = some MAIN_CORE_PROC).length = 4 ∧
      (r._cpu_mapping_table.filter fun row =>
        coreType row = some HYPER_THREADING_PROC).length = 4 ∧
      (r._cpu_mapping_table.filter fun row =>
        coreType row = some EFFICIENT_CORE_PROC).length = 0 ∧
      (∀ row ∈ r._cpu_mapping_table, socketId row = some 0) ∧
      r._proc_type_table.map countsOf = [(some 8, some 4, some 0, some 4)] := by
  refine ⟨_, rfl, ?_⟩
  decide

/-- C10 (as amended): on every stream with `k` package records that opens with
one, a run from empty tables that completes returns `k` sockets and a count
table of one row when `k = 1` and of `k + 1` rows when `k ≥ 2` (row 0 the
column sums of the rows after it, row `i` the working row of the `i`-th
package); and the run does complete when every core mask has a set bit and no
level-2 cache mask has exactly one or four set bits. -/
theorem socket_count_and_rows
    (records : List SYSTEM_LOGICAL_PROCESSOR_INFORMATION_EX) (k : Nat)
    (hfirst : StartsWithPackage records) (hk : countPackages records = k) :
    (∀ r, parse_processor_info_win records [] [] = some r →
      1 ≤ k ∧ r._sockets = k ∧
      (k = 1 → r._proc_type_table.length = 1) ∧
      (2 ≤ k →
        r._proc_type_table.length = k + 1 ∧
        (∀ j : Nat, j < PROC_TYPE_TABLE_SIZE →
          tabGet r._proc_type_table 0 j = some (colSum r._proc_type_table.tail j)) ∧
        (∀ pre post, records = pre ++ post →
          (post = [] ∨
            ∃ p rest, post = p :: rest ∧ p.Relationship = RelationProcessorPackage) →
          1 ≤ countPackages pre →
          ∃ s row, run (initState [] []) pre = some s ∧
            vecGet s._proc_type_table 0 = some row ∧
            vecGet r._proc_type_table (countPackages pre : Int) = some row))) ∧
    (FaultFree records → ∃ r, parse_processor_info_win records [] [] = some r) := by
  refine ⟨?_, parse_ok hfirst⟩
  intro r h
  subst hk
  obtain ⟨s, -, hi, hs, hsock, -, -, -, hcase⟩ := parse_spec h
  refine ⟨countPackages_pos_of_first hfirst, hsock, ?_, ?_⟩
  · intro h1
    rcases hcase with ⟨-, ht⟩ | ⟨h2, -⟩
    · have := hi.rows_sockets
      rw [ht]; omega
    · omega
  · intro h2
    obtain ⟨hlen, -, hsum⟩ := parse_total_row h2 h
    refine ⟨hlen, hsum, ?_⟩
    intro pre post he hpost hpre
    subst he
    exact parse_row_of_prefix h2 hpost hpre h

/-- C10 as stated fails: the stream Package, L2-Cache{0}, Core{0} opens with
its only package record, and the cache record writes row 0 of the still empty
mapping table, so the parser returns no socket count and no table; the same
holds for the two-package stream Package, Core{0,1}, Package, Core{0}, Core{1},
Core{2}, Core{3}, L2-Cache{0,1,2,3}, where the loop of the cache record reads
`list[4]`. -/
theorem socket_count_counterexample :
    StartsWithPackage cacheBeforeCoreStream ∧ countPackages cacheBeforeCoreStream = 1 ∧
    parse_processor_info_win cacheBeforeCoreStream [] [] = none ∧
    ¬ (∃ r, parse_processor_info_win cacheBeforeCoreStream [] [] = some r ∧
        r._sockets = 1 ∧ r._proc_type_table.length = 1) ∧
    StartsWithPackage secondSocketClusterStream ∧
    countPackages secondSocketClusterStream = 2 ∧
    parse_processor_info_win secondSocketClusterStream [] [] = none := by
  have h1 : parse_processor_info_win cacheBeforeCoreStream [] [] = none := by decide
  refine ⟨⟨_, _, rfl, rfl⟩, by decide, h1, ?_, ⟨_, _, rfl, rfl⟩, by decide, by decide⟩
  rintro ⟨r, hr, -⟩
  rw [h1] at hr
  cases hr

/-- C10 (as amended) at the dual-socket stream: the run completes with 2
sockets and 3 count rows. -/
theorem socket_count_and_rows_witness :
    StartsWithPackage dualSocketStream ∧ countPackages dualSocketStream = 2 ∧
    FaultFree dualSocketStream ∧
    ∃ r, parse_processor_info_win dualSocketStream [] [] = some r ∧
      r._sockets = 2 ∧ r._proc_type_table.length = 3 := by
  have hfirst : StartsWithPackage dualSocketStream := ⟨_, _, rfl, rfl⟩
  have hk : countPackages dualSocketStream = 2 := by decide
  have hsafe : FaultFree dualSocketStream := by unfold FaultFree; decide
  obtain ⟨r, hr⟩ := (socket_count_and_rows dualSocketStream 2 hfirst hk).2 hsafe
  obtain ⟨-, hs, -, hrows⟩ := (socket_count_and_rows dualSocketStream 2 hfirst hk).1 r hr
  exact ⟨hfirst, hk, hsafe, r, hr, hs, (hrows (Nat.le_refl 2)).1⟩

/-! ## Claims about the mapping table -/

/-- C1 (as amended): on every stream processed to completion from empty
tables, the mapping table has exactly `totalProcessors` rows provided no core
mask has more than two set bits, and its processor ids are `0, 1, ...,
totalProcessors - 1` in row order provided the core masks enumerate the
processors contiguously (one index or two consecutive indices per core
record, starting at 0 for a package or right after the previous core). -/
theorem mapping_rows_enumerate_processors
    (records : List SYSTEM_LOGICAL_PROCESSOR_INFORMATION_EX) (r : State)
    (h : parse_processor_info_win records [] [] = some r) :
    ((∀ info ∈ records, info.Relationship = RelationProcessorCore →
        (MaskToList info.Mask).length ≤ 2) →
      (r._cpu_mapping_table.length : Int) = r._processors) ∧
    (contiguousCores 0 records = true →
      (r._cpu_mapping_table.length : Int) = r._processors ∧
      r._cpu_mapping_table.map processorId = idColumn r._cpu_mapping_table.length) := by
  obtain ⟨s, hrun, -, -, -, hp, -, hc, -⟩ := parse_spec h
  rw [hp, hc]
  refine ⟨fun hmask => ?_, fun hcont => ?_⟩
  · exact run_row_count records init_inv hmask (by simp [initState]) hrun
  · exact run_ids records 0 init_inv hcont (by simp [initState]) (by simp [initState])
      (by simp [initState, idColumn]) hrun

/-- C1 (as amended) at the hybrid stream: eight rows with processor ids 0..7. -/
theorem mapping_rows_enumerate_processors_witness :
    contiguousCores 0 hybridStream = true ∧
    ∃ r, parse_processor_info_win hybridStream [] [] = some r ∧
      (r._cpu_mapping_table.length : Int) = r._processors ∧
      r._cpu_mapping_table.map processorId = idColumn r._cpu_mapping_table.length ∧
      r._cpu_mapping_table.length = 8 :=
  ⟨by decide, _, rfl,
    ((mapping_rows_enumerate_processors hybridStream _ rfl).2 (by decide)).1,
    ((mapping_rows_enumerate_processors hybridStream _ rfl).2 (by decide)).2, rfl⟩

/-- C1 as stated fails: a core mask with three set bits is processed to
completion with 3 processors counted and a single mapping row, and a core
mask naming only index 1 gives a table whose only processor id is 1. -/
theorem mapping_rows_counterexample :
    (∃ r, parse_processor_info_win threeBitStream [] [] = some r ∧
      r._processors = 3 ∧ r._cpu_mapping_table.length = 1 ∧
      ¬ ((r._cpu_mapping_table.length : Int) = r._processors)) ∧
    (∃ r, parse_processor_info_win gapStream [] [] = some r ∧
      r._processors = 1 ∧ r._cpu_mapping_table.map processorId = [some 1] ∧
      ¬ (r._cpu_mapping_table.map processorId = idColumn 1)) :=
  ⟨⟨_, rfl, by decide, by decide, by decide⟩, ⟨_, rfl, by decide, by decide, by decide⟩⟩

/-- C6: on the hybrid stream, whose 4-wide cache record follows its four core
records, the parser returns 8 processors, 8 mapping rows with processor ids
0..7, rows 4..7 of type Efficient with one common group id, and the aggregate
row MainPerformance = 2, HyperthreadSibling = 2, Efficient = 4, All = 8. -/
theorem hybrid_retroactive_relabel :
    ∃ r, parse_processor_info_win hybridStream [] [] = some r ∧
      r._processors = 8 ∧ r._cpu_mapping_table.length = 8 ∧
      r._cpu_mapping_table.map processorId = idColumn 8 ∧
      (r._cpu_mapping_table.drop 4).map coreType =
        List.replicate 4 (some EFFICIENT_CORE_PROC) ∧
      (∃ g, (r._cpu_mapping_table.drop 4).map groupId = List.replicate 4 (some g)) ∧
      tabGet r._proc_type_table 0 MAIN_CORE_PROC = some 2 ∧
      tabGet r._proc_type_table 0 HYPER_THREADING_PROC = some 2 ∧
      tabGet r._proc_type_table 0 EFFICIENT_CORE_PROC = some 4 ∧
      tabGet r._proc_type_table 0 ALL_PROC = some 8 :=
  ⟨_, rfl, by decide, by decide, by decide, by decide, ⟨2, by decide⟩, by decide, by decide,
    by decide, by decide⟩

/-- C7, the parser on two streams whose 4-wide cache record precedes the
core records of its cluster.  On the single-socket stream the run completes
with All = 8 but Efficient = 3: the row of the cluster's lowest index, row 4,
keeps the unresolved type and group `-1`, and rows 5..7 are Efficient with
the recorded group id.  On the second socket of the dual-socket stream (base
offset 2) the window 4..7 is compared with the global processor count, so
only the cores at relative indices 4 and 5 are classified: Efficient = 2 and
the rows of relative indices 6 and 7 stay unresolved. -/
theorem cache_first_lowest_index_unresolved :
    (∃ r, parse_processor_info_win cacheFirstStream [] [] = some r ∧
      r._proc_type_table.map countsOf = [(some 8, some 2, some 3, some 2)] ∧
      (r._cpu_mapping_table.drop 4).map coreType =
        [some (-1), some EFFICIENT_CORE_PROC, some EFFICIENT_CORE_PROC,
         some EFFICIENT_CORE_PROC] ∧
      (r._cpu_mapping_table.drop 4).map groupId = [some (-1), some 2, some 2, some 2] ∧
      r.group_start = 4 ∧ r.group_end = 7) ∧
    (∃ r, parse_processor_info_win secondSocketCacheFirstStream [] [] = some r ∧
      r.base_proc = 2 ∧ r.group_start = 4 ∧ r.group_end = 7 ∧
      r._proc_type_table.map countsOf =
        [(some 10, some 3, some 2, some 3), (some 2, some 1, some 0, some 1),
         (some 8, some 2, some 2, some 2)] ∧
      (r._cpu_mapping_table.drop 6).map coreType =
        [some EFFICIENT_CORE_PROC, some EFFICIENT_CORE_PROC, some (-1), some (-1)]) :=
  ⟨⟨_, rfl, by decide, by decide, by decide, by decide, by decide⟩,
    ⟨_, rfl, by decide, by decide, by decide, by decide, by decide⟩⟩

/-- C8, the parser at two reachable states in which a 4-wide cache record is
processed.  When a fifth core has been enumerated before the cluster's cache
record the loop bound is `9 - 4 = 5` and the fifth iteration reads `list[4]`
of the four decoded indices; on a second socket with base offset 2 the bound
is `6 - 0 = 6`.  Both runs leave a vector, so neither completes. -/
theorem cache_loop_leaves_decoded_indices :
    (∃ s, run (initState [] []) lateCacheStream.dropLast = some s ∧
      s._processors = 9 ∧ s.base_proc = 0 ∧ s._cpu_mapping_table.length = 9 ∧
      MaskToList 0xF0 = [4, 5, 6, 7] ∧ vecGet (MaskToList 0xF0) 4 = none ∧
      step s (CacheBoundary 2 0xF0) = none) ∧
    parse_processor_info_win lateCacheStream [] [] = none ∧
    (∃ s, run (initState [] []) secondSocketClusterStream.dropLast = some s ∧
      s._processors = 6 ∧ s.base_proc = 2 ∧ s._cpu_mapping_table.length = 6 ∧
      MaskToList 0x0F = [0, 1, 2, 3] ∧
      step s (CacheBoundary 2 0x0F) = none) ∧
    parse_processor_info_win secondSocketClusterStream [] [] = none :=
  ⟨⟨_, rfl, by decide, by decide, by decide, by decide, by decide, by decide⟩, by decide,
    ⟨_, rfl, by decide, by decide, by decide, by decide, by decide⟩, by decide⟩

/-- C5 (as amended): on every stream processed to completion from empty tables
in which no cache record relabels a row that is classified MainPerformance or
HyperthreadSibling at that time, every mapping row of type HyperthreadSibling
has a partner row, the one right after it, of type MainPerformance with the
same physical core id, socket id and group id. -/
theorem hyperthread_sibling_has_partner
    (records : List SYSTEM_LOGICAL_PROCESSOR_INFORMATION_EX) (r : State)
    (hok : relabelsOnly notPairType (initState [] []) records = true)
    (h : parse_processor_info_win records [] [] = some r) :
    ∀ row ∈ r._cpu_mapping_table, coreType row = some HYPER_THREADING_PROC →
      ∃ partner ∈ r._cpu_mapping_table,
        coreType partner = some MAIN_CORE_PROC ∧
        physicalCoreId partner = physicalCoreId row ∧
        socketId partner = socketId row ∧ groupId partner = groupId row := by
  obtain ⟨s, hrun, -, -, -, -, -, hc, -⟩ := parse_spec h
  rw [hc]
  have hp : Paired s._cpu_mapping_table :=
    run_paired records init_inv (by intro n row hn; simp [initState] at hn) hok hrun
  intro row hrow hht
  obtain ⟨n, hn⟩ := List.mem_iff_getElem?.1 hrow
  obtain ⟨p, hp1, hp2⟩ := hp n row hn hht
  exact ⟨p, List.getElem?_mem hp1, hp2⟩

/-- C5 (as amended) at the hybrid stream, whose 4-wide cache record relabels
four unresolved rows: the sibling in row 0 has a partner. -/
theorem hyperthread_sibling_has_partner_witness :
    relabelsOnly notPairType (initState [] []) hybridStream = true ∧
    ∃ r row, parse_processor_info_win hybridStream [] [] = some r ∧
      r._cpu_mapping_table[0]? = some row ∧ coreType row = some HYPER_THREADING_PROC ∧
      ∃ partner ∈ r._cpu_mapping_table,
        coreType partner = some MAIN_CORE_PROC ∧
        physicalCoreId partner = physicalCoreId row ∧
        socketId partner = socketId row ∧ groupId partner = groupId row :=
  ⟨by decide, _, _, rfl, rfl, by decide,
    hyperthread_sibling_has_partner hybridStream _ (by decide) rfl _ (by decide) (by decide)⟩

/-- C5 as stated fails: after Package, Core{0,1}, L2-Cache{1} row 0 is a
HyperthreadSibling of group 0 and its MainPerformance row has been moved to
group 1, so no row is its partner. -/
theorem hyperthread_sibling_counterexample :
    ∃ r, parse_processor_info_win pairRelabelStream [] [] = some r ∧
      r._cpu_mapping_table.map groupId = [some 0, some 1] ∧
      ∃ row ∈ r._cpu_mapping_table, coreType row = some HYPER_THREADING_PROC ∧
        ¬ ∃ partner ∈ r._cpu_mapping_table,
          coreType partner = some MAIN_CORE_PROC ∧
          physicalCoreId partner = physicalCoreId row ∧
          socketId partner = socketId row ∧ groupId partner = groupId row :=
  ⟨_, rfl, by decide, by decide⟩

theorem countsOf_four (a m e t : Int) :
    countsOf [a, m, e, t] = (some a, some m, some e, some t) := by
  simp [countsOf, vecGet, ALL_PROC, MAIN_CORE_PROC, EFFICIENT_CORE_PROC, HYPER_THREADING_PROC]

/-- C4 (as amended): on every stream processed to completion from empty tables
in which no core mask has more than two set bits and every row relabelled by
a cache record is, at that time, an unresolved row of the current package,
the count row of every socket (row 0 of a single-socket result, row `j + 1`
for socket `j` of a multi-socket result) satisfies MainPerformance +
Efficient + HyperthreadSibling + (number of mapping rows of that socket whose
type is still unresolved) = All. -/
theorem type_columns_account_for_all
    (records : List SYSTEM_LOGICAL_PROCESSOR_INFORMATION_EX) (r : State)
    (hmask : ∀ info ∈ records, info.Relationship = RelationProcessorCore →
      (MaskToList info.Mask).length ≤ 2)
    (hok : relabelsOnly unresolvedHere (initState [] []) records = true)
    (h : parse_processor_info_win records [] [] = some r) :
    ∀ j : Nat, (j : Int) < r._sockets →
      ∃ row a m e t,
        vecGet r._proc_type_table (if r._sockets = 1 then 0 else (j : Int) + 1) = some row ∧
        countsOf row = (some a, some m, some e, some t) ∧
        m + e + t + (unresolved r._cpu_mapping_table j : Int) = a := by
  obtain ⟨s, hrun, hi, hs, hsock, -, -, hc, hcase⟩ := parse_spec h
  have ha := run_accounted records init_inv init_accounted hmask hok hrun
  intro j hj
  rw [hc]
  have hlen := hi.rows_sockets
  rcases hcase with ⟨hle, ht⟩ | ⟨h2, r0, rest, hp, hk, ht⟩
  · have hk1 : r._sockets = 1 := by omega
    have hj0 : j = 0 := by omega
    subst hj0
    rw [if_pos hk1, ht]
    have h1 : s._proc_type_table.length = 1 := by omega
    match hpt : s._proc_type_table, h1 with
    | [row], _ =>
      have hw := ha.working row (by simp [hpt])
      have hs0 : s._sockets = ((0 : Nat) : Int) := by push_cast; omega
      rw [hs0] at hw
      obtain ⟨a, m, e, t, rfl, hsum⟩ := hw
      exact ⟨_, a, m, e, t, by simp [vecGet], countsOf_four a m e t, hsum⟩
  · have hk1 : ¬ r._sockets = 1 := by omega
    have hcast : (j : Int) + 1 = ((j + 1 : Nat) : Int) := by push_cast; rfl
    rw [if_neg hk1, ht, hcast, vecGet_natCast, List.getElem?_cons_succ]
    have hjk : j < rest.length + 1 := by omega
    rcases Nat.lt_or_ge j rest.length with hlt | hge
    · have hrow : rest[j]? = some rest[j] := List.getElem?_eq_getElem hlt
      have hb := ha.archived j rest[j] (by rw [hp]; exact hrow)
      obtain ⟨a, m, e, t, hr, hsum⟩ := hb
      refine ⟨rest[j], a, m, e, t, by rw [List.getElem?_append_left hlt]; exact hrow, ?_, hsum⟩
      rw [hr]; exact countsOf_four a m e t
    · have hje : j = rest.length := by omega
      have hw := ha.working r0 (by rw [hp]; simp)
      have hsj : s._sockets = (j : Int) := by
        rw [hp] at hlen
        simp only [List.length_cons] at hlen
        push_cast at hlen
        omega
      rw [hsj] at hw
      obtain ⟨a, m, e, t, hr, hsum⟩ := hw
      refine ⟨r0, a, m, e, t, ?_, ?_, hsum⟩
      · rw [hje, List.getElem?_append_right (Nat.le_refl _)]; simp
      · rw [hr]; exact countsOf_four a m e t

/-- C4 (as amended) at the hybrid stream: the single count row has no
unresolved row left and its three type columns add up to All = 8. -/
theorem type_columns_account_for_all_witness :
    (∀ info ∈ hybridStream, info.Relationship = RelationProcessorCore →
      (MaskToList info.Mask).length ≤ 2) ∧
    relabelsOnly unresolvedHere (initState [] []) hybridStream = true ∧
    ∃ r, parse_processor_info_win hybridStream [] [] = some r ∧
      unresolved r._cpu_mapping_table 0 = 0 ∧
      ∃ row a m e t,
        vecGet r._proc_type_table (if r._sockets = 1 then 0 else ((0 : Nat) : Int) + 1) = some row ∧
        countsOf row = (some a, some m, some e, some t) ∧
        m + e + t + (unresolved r._cpu_mapping_table ((0 : Nat) : Int) : Int) = a :=
  ⟨by decide, by decide, _, rfl, by decide,
    type_columns_account_for_all hybridStream _ (by decide) (by decide) rfl 0 (by decide)⟩

/-- C4 as stated fails: Package, Core{0} is processed to completion with the
single count row All = 1, MainPerformance = Efficient = HyperthreadSibling =
0, since the processor's mapping row keeps the unresolved type and no cache
record follows to classify it.  The type columns also miss All when a core
mask has three set bits (All = 3, one unresolved row), when a row is
relabelled twice (MainPerformance = 2, All = 1) and when a cache record of
the second package relabels a row of the first (rows (1, 0, 0, 0) and
(1, 1, 0, 0)). -/
theorem type_columns_counterexample :
    (∃ r, parse_processor_info_win singleCoreStream [] [] = some r ∧
      r._proc_type_table.map countsOf = [(some 1, some 0, some 0, some 0)] ∧
      r._cpu_mapping_table.map coreType = [some (-1)] ∧
      ∃ row ∈ r._proc_type_table, ∃ a m e t,
        countsOf row = (some a, some m, some e, some t) ∧ m + e + t ≠ a) ∧
    (∃ r, parse_processor_info_win threeBitStream [] [] = some r ∧
      r._proc_type_table.map countsOf = [(some 3, some 0, some 0, some 0)] ∧
      unresolved r._cpu_mapping_table 0 = 1) ∧
    (∃ r, parse_processor_info_win doubleRelabelStream [] [] = some r ∧
      r._proc_type_table.map countsOf = [(some 1, some 2, some 0, some 0)] ∧
      unresolved r._cpu_mapping_table 0 = 0) ∧
    (∃ r, parse_processor_info_win crossSocketRelabelStream [] [] = some r ∧
      r._proc_type_table.map countsOf =
        [(some 2, some 1, some 0, some 0), (some 1, some 0, some 0, some 0),
         (some 1, some 1, some 0, some 0)] ∧
      unresolved r._cpu_mapping_table 0 = 0 ∧ unresolved r._cpu_mapping_table 1 = 1) :=
  ⟨⟨_, rfl, by decide, by decide, [1, 0, 0, 0], by decide, 1, 0, 0, 0, by decide, by decide⟩,
    ⟨_, rfl, by decide, by decide⟩, ⟨_, rfl, by decide, by decide⟩,
    ⟨_, rfl, by decide, by decide, by decide⟩⟩

/-! ## Claims about the query, the walk and single records -/

/-- C11: when the sizing call succeeds, or fails with another error than
`ERROR_INSUFFICIENT_BUFFER`, or the fetch call fails, `CPU::init_cpu` returns the
`CPU` object exactly as it was, whatever the buffer holds (the parser is not
run); and whenever `init_cpu` changes the object, both calls followed the
protocol and the five fields are the outputs of the parser.  This holds for
every layout of the record type. -/
theorem init_cpu_query_failure (fieldsEnd : SYSTEM_LOGICAL_PROCESSOR_INFORMATION_EX → Nat)
    (q : TopologyQuery) (fuel : Nat) (cpu : CPU) :
    ((q.sizing_result = true ∨ q.sizing_error ≠ ERROR_INSUFFICIENT_BUFFER ∨
        q.fetch_result = false) →
      CPU.init_cpu fieldsEnd q fuel cpu = some cpu) ∧
    (∀ cpu', CPU.init_cpu fieldsEnd q fuel cpu = some cpu' → cpu' ≠ cpu →
      q.sizing_result = false ∧ q.sizing_error = ERROR_INSUFFICIENT_BUFFER ∧
      q.fetch_result = true ∧
      ∃ s, parse_processor_info_win_buffer fieldsEnd q.buffer q.len fuel
          cpu._proc_type_table cpu._cpu_mapping_table = some s ∧
        cpu' = { _processors := s._processors, _sockets := s._sockets, _cores := s._cores,
                 _proc_type_table := s._proc_type_table,
                 _cpu_mapping_table := s._cpu_mapping_table }) := by
  constructor
  · intro hfail
    unfold CPU.init_cpu
    by_cases h1 : q.sizing_result = true ∨ q.sizing_error ≠ ERROR_INSUFFICIENT_BUFFER
    · rw [if_pos h1]
    · rw [if_neg h1]
      have h2 : ¬ q.fetch_result = true := by
        rcases hfail with h | h | h
        · exact absurd (Or.inl h) h1
        · exact absurd (Or.inr h) h1
        · rw [h]; decide
      rw [if_pos h2]
  · intro cpu' h hne
    unfold CPU.init_cpu at h
    by_cases h1 : q.sizing_result = true ∨ q.sizing_error ≠ ERROR_INSUFFICIENT_BUFFER
    · rw [if_pos h1] at h
      exact absurd (Option.some.inj h).symm hne
    · rw [if_neg h1] at h
      by_cases h2 : ¬ q.fetch_result = true
      · rw [if_pos h2] at h
        exact absurd (Option.some.inj h).symm hne
      · rw [if_neg h2] at h
        obtain ⟨s, hs, he⟩ := Option.map_eq_some'.1 h
        refine ⟨?_, ?_, ?_, s, hs, he.symm⟩
        · cases hq : q.sizing_result
          · rfl
          · exact absurd (Or.inl hq) h1
        · by_contra hc
          exact h1 (Or.inr hc)
        · by_contra hc
          exact h2 hc

/-- C11 at a failing fetch call: the object is returned unchanged although the
parser has no result on the buffer. -/
theorem init_cpu_query_failure_witness :
    failedFetchQuery.fetch_result = false ∧
    parse_processor_info_win_buffer sdkFieldsEnd failedFetchQuery.buffer
      failedFetchQuery.len 1 [] [] = none ∧
    CPU.init_cpu sdkFieldsEnd failedFetchQuery 1 emptyCPU = some emptyCPU :=
  ⟨rfl, by decide,
    (init_cpu_query_failure sdkFieldsEnd failedFetchQuery 1 emptyCPU).1
      (Or.inr (Or.inr rfl))⟩

/-- C12 (as amended): the walk does not compare a record's size with `len`
and the parser has no error to report.  On a buffer of records of positive
size that hold the fields read of them, whose last record starts below `len`,
has the fields read of it inside the buffer and declares a size that ends
behind `len`, the parser processes every record, the last one included, and
returns what it returns on the complete records: the run of the loop body over
the records before the last, the loop body on the last, the final pass.
Nothing is said of a buffer that ends inside the fields read of the last
record, where the read leaves the buffer. -/
theorem truncated_record_is_processed
    (fieldsEnd : SYSTEM_LOGICAL_PROCESSOR_INFORMATION_EX → Nat)
    (pre : List SYSTEM_LOGICAL_PROCESSOR_INFORMATION_EX)
    (last : SYSTEM_LOGICAL_PROCESSOR_INFORMATION_EX) (len fuel : Nat)
    (ptt cmt : List (List Int))
    (hpos : ∀ info ∈ pre ++ [last], 0 < info.Size)
    (hread : ∀ info ∈ pre, fieldsEnd info ≤ info.Size)
    (hstart : sizeSum pre < len) (hfields : sizeSum pre + fieldsEnd last ≤ len)
    (hend : len < sizeSum pre + last.Size)
    (hfuel : pre.length + 1 ≤ fuel) :
    parse_processor_info_win_buffer fieldsEnd (pre ++ [last]) len fuel ptt cmt =
      parse_processor_info_win (pre ++ [last]) ptt cmt ∧
    parse_processor_info_win (pre ++ [last]) ptt cmt =
      (run (initState ptt cmt) pre).bind fun s => (step s last).bind finish := by
  constructor
  · rw [parse_buffer_eq ptt cmt hpos
      (by rw [sizeSum_append, sizeSum_cons, sizeSum_nil]; omega)
      (fieldsInside_append_last fieldsEnd len pre last 0 hread (by omega) (by omega))
      (by simpa using hfuel),
      visitedRecords_all len pre last 0 (by omega)]
  · unfold parse_processor_info_win
    rw [run_append]
    cases run (initState ptt cmt) pre with
    | none => rfl
    | some s =>
      simp only [Option.some_bind, run]
      cases step s last with
      | none => rfl
      | some s1 => rfl

/-- C12 (as amended) at the malformed buffer of 96 bytes under the layout of
the Windows SDK: the core record that starts at byte 48 has its mask in bytes
80 to 87, inside the buffer, and claims 100 bytes; it is processed and its two
processors are in the tables. -/
theorem truncated_record_is_processed_witness :
    sizeSum [PackageBoundary 0x03] < 96 ∧
    sizeSum [PackageBoundary 0x03] + sdkFieldsEnd
      { Relationship := RelationProcessorCore, Size := 100, Mask := 0x03, Level := 0 } ≤ 96 ∧
    96 < sizeSum [PackageBoundary 0x03] + 100 ∧
    parse_processor_info_win_buffer sdkFieldsEnd malformedBuffer 96 2 [] [] =
      parse_processor_info_win malformedBuffer [] [] ∧
    ∃ r, parse_processor_info_win malformedBuffer [] [] = some r ∧ r._processors = 2 :=
  ⟨by decide, by decide, by decide,
    (truncated_record_is_processed sdkFieldsEnd [PackageBoundary 0x03]
      { Relationship := RelationProcessorCore, Size := 100, Mask := 0x03, Level := 0 }
      96 2 [] [] (by decide) (by decide) (by decide) (by decide) (by decide) (by decide)).1,
    _, rfl, by decide⟩

/-- C12 as stated fails: on the malformed buffer of 96 bytes, whose second
record starts at byte 48, has every field read of it inside the buffer and
declares 100 bytes, the parser has a result and it holds both tables, with the
two processors of the oversized record. -/
theorem truncated_record_counterexample :
    ∃ r, parse_processor_info_win_buffer sdkFieldsEnd malformedBuffer 96 2 [] [] = some r ∧
      r._processors = 2 ∧ r._cpu_mapping_table.length = 2 ∧
      r._proc_type_table.map countsOf = [(some 2, some 1, some 0, some 1)] ∧
      ¬ (parse_processor_info_win_buffer sdkFieldsEnd malformedBuffer 96 2 [] [] = none) :=
  ⟨_, rfl, by decide, by decide, by decide, by decide⟩

/-- C13: in a state whose working row has the four count columns, a core
record whose mask has exactly the two bits `a < b` appends the rows
(`a + base`, socket, core, HyperthreadSibling, group, unused) and (`b + base`,
socket, core, MainPerformance, group, unused) in this order behind the rows
already there, where `base` is the processor count if `a = 0` and the old base
offset otherwise; it adds 2 to All and 1 to MainPerformance and to
HyperthreadSibling of row 0, 2 to the processor count, 1 to the core counter
and 1 to the group counter, and changes nothing else. -/
theorem core_pair_step (s : State) (info : SYSTEM_LOGICAL_PROCESSOR_INFORMATION_EX)
    (a b : Nat) (al mn ef ht : Int) (rest : List (List Int))
    (hC : info.Relationship = RelationProcessorCore)
    (hab : a < b) (hmask : info.Mask = 2 ^ a + 2 ^ b)
    (hrow : s._proc_type_table = [al, mn, ef, ht] :: rest) :
    step s info = some { s with
      base_proc := if a = 0 then s._processors else s.base_proc,
      _cpu_mapping_table := s._cpu_mapping_table ++
        [[(a : Int) + (if a = 0 then s._processors else s.base_proc), s._sockets, s._cores,
          HYPER_THREADING_PROC, s.group, -1],
         [(b : Int) + (if a = 0 then s._processors else s.base_proc), s._sockets, s._cores,
          MAIN_CORE_PROC, s.group, -1]],
      _proc_type_table := [al + 2, mn + 1, ef, ht + 1] :: rest,
      group := s.group + 1,
      _processors := s._processors + 2,
      _cores := s._cores + 1 } := by
  have hP : ¬ info.Relationship = RelationProcessorPackage := by rw [hC]; decide
  have hif : ∀ x y : Int, (if (0 : Int) = (a : Int) then x else y) = if a = 0 then x else y := by
    intro x y
    by_cases h0 : a = 0
    · simp [h0]
    · have : ¬ (0 : Int) = (a : Int) := by omega
      simp [h0, this]
  have h0 : vecGet [(a : Int), (b : Int)] 0 = some (a : Int) := by simp [vecGet]
  have h1 : vecGet [(a : Int), (b : Int)] 1 = some (b : Int) := by simp [vecGet]
  unfold step
  rw [if_neg hP, if_pos hC]
  unfold stepCore
  simp only [hmask, MaskToList_two_pow_add hab, h0, h1, fillProcInfo_eq, hrow, tabAdd_main,
    tabAdd_hyper, tabAdd_all, Option.some_bind, hif]
  simp

/-- C13 at the state after a first package record and the core record
Core{2,3}. -/
theorem core_pair_step_witness :
    (CoreBoundary 0x0C).Relationship = RelationProcessorCore ∧ 2 < 3 ∧
    (CoreBoundary 0x0C).Mask = 2 ^ 2 + 2 ^ 3 ∧
    onePackageState._proc_type_table = [0, 0, 0, 0] :: [] ∧
    ∃ s', step onePackageState (CoreBoundary 0x0C) = some s' ∧
      s'._cpu_mapping_table = [[2, 0, 0, 3, 0, -1], [3, 0, 0, 1, 0, -1]] ∧
      s'._proc_type_table = [[2, 1, 0, 1]] ∧ s'._processors = 2 := by
  have h := core_pair_step onePackageState (CoreBoundary 0x0C) 2 3 0 0 0 0 [] rfl (by decide)
    (by decide) rfl
  exact ⟨rfl, by decide, by decide, rfl, _, h, by decide, by decide, by decide⟩

/-- C14: on every stream processed to completion, from any tables, the final
core count is the number of core records and the final processor count is the
number of set bits summed over the core masks; a record of any other kind
changes neither counter. -/
theorem counters_count_core_records
    (records : List SYSTEM_LOGICAL_PROCESSOR_INFORMATION_EX) (ptt cmt : List (List Int))
    (r : State) (h : parse_processor_info_win records ptt cmt = some r) :
    r._cores = (countCores records : Int) ∧
    r._processors = (coreSetBits records : Int) ∧
    ∀ (s s' : State) (info : SYSTEM_LOGICAL_PROCESSOR_INFORMATION_EX),
      info.Relationship ≠ RelationProcessorCore → step s info = some s' →
      s'._cores = s._cores ∧ s'._processors = s._processors := by
  unfold parse_processor_info_win at h
  obtain ⟨s, hrun, hfin⟩ := Option.bind_eq_some.1 h
  obtain ⟨e1, e2⟩ := run_counters records hrun
  obtain ⟨f1, f2⟩ := finish_counters hfin
  refine ⟨?_, ?_, fun s s' info hne hstep => (step_counters hstep).2 hne⟩
  · rw [f1, e1]; simp [initState]
  · rw [f2, e2]; simp [initState]

/-- C14 at the hybrid stream: six core records with eight set bits. -/
theorem counters_count_core_records_witness :
    countCores hybridStream = 6 ∧ coreSetBits hybridStream = 8 ∧
    ∃ r, parse_processor_info_win hybridStream [] [] = some r ∧
      r._cores = 6 ∧ r._processors = 8 := by
  have hc : countCores hybridStream = 6 := by decide
  have hb : coreSetBits hybridStream = 8 := by
    simp [coreSetBits, hybridStream, CoreBoundary, PackageBoundary, CacheBoundary, setBits]
  cases hp : parse_processor_info_win hybridStream [] [] with
  | none => exact absurd hp (by decide)
  | some r =>
    obtain ⟨h1, h2, -⟩ := counters_count_core_records hybridStream [] [] r hp
    rw [hc] at h1
    rw [hb] at h2
    exact ⟨hc, hb, r, rfl, h1, h2⟩

/-! ## Claims about cache records, safety and order -/

theorem tabSet_type_group {cmt : List (List Int)} {n : Nat} {id sock core ty gr used : Int}
    (h : cmt[n]? = some [id, sock, core, ty, gr, used]) (v g : Int) :
    ((tabSet cmt (n : Int) CPU_MAP_CORE_TYPE v).bind fun c =>
        tabSet c (n : Int) CPU_MAP_GROUP_ID g) =
      some (cmt.set n [id, sock, core, v, g, used]) := by
  have hn : n < cmt.length := by
    rcases Nat.lt_or_ge n cmt.length with h1 | h1
    · exact h1
    · rw [List.getElem?_eq_none h1] at h; cases h
  have h1 : tabSet cmt (n : Int) CPU_MAP_CORE_TYPE v =
      some (cmt.set n [id, sock, core, v, gr, used]) := by
    simp [tabSet, vecGet, vecSet, h, hn, CPU_MAP_CORE_TYPE]
  have h2 : (cmt.set n [id, sock, core, v, gr, used])[n]? =
      some [id, sock, core, v, gr, used] := List.getElem?_set_self hn
  have h3 : tabSet (cmt.set n [id, sock, core, v, gr, used]) (n : Int) CPU_MAP_GROUP_ID g =
      some (cmt.set n [id, sock, core, v, g, used]) := by
    simp [tabSet, vecGet, vecSet, h2, hn, CPU_MAP_GROUP_ID]
  rw [h1, Option.some_bind, h3]

/-- C15: in every state of a run from empty tables, a level-2 cache record
whose mask has the single bit `i`, with row `i + base` already emitted, sets
the type of that row to MainPerformance and its group to the current group,
adds 1 to the MainPerformance column of row 0 and to the group counter, and
changes nothing else: the other columns of the row, every other row, the other
columns and rows of the count table, the three totals, the base offset and the
pending window stay as they are. -/
theorem cache_single_step (records : List SYSTEM_LOGICAL_PROCESSOR_INFORMATION_EX)
    (s : State) (info : SYSTEM_LOGICAL_PROCESSOR_INFORMATION_EX) (i n : Nat)
    (hreach : run (initState [] []) records = some s)
    (hK : info.Relationship = RelationCache) (hL : info.Level = 2)
    (hmask : info.Mask = 2 ^ i)
    (hrow : (i : Int) + s.base_proc = (n : Int)) (hn : n < s._cpu_mapping_table.length) :
    ∃ id sock core ty gr used al mn ef ht rest,
      s._cpu_mapping_table[n]? = some [id, sock, core, ty, gr, used] ∧
      s._proc_type_table = [al, mn, ef, ht] :: rest ∧
      step s info = some { s with
        _cpu_mapping_table :=
          s._cpu_mapping_table.set n [id, sock, core, MAIN_CORE_PROC, s.group, used],
        _proc_type_table := [al, mn + 1, ef, ht] :: rest,
        group := s.group + 1 } := by
  have hi := run_inv records init_inv hreach
  have hcne : s._cpu_mapping_table ≠ [] := by
    intro he; rw [he] at hn; simp at hn
  have hpne := run_working_row records init_inv (by simp [initState]) hreach hcne
  obtain ⟨id, sock, core, ty, gr, used, hr⟩ :=
    length_six (hi.cmt_rows _ (List.getElem_mem hn))
  have hrow' : s._cpu_mapping_table[n]? = some [id, sock, core, ty, gr, used] := by
    rw [List.getElem?_eq_getElem hn, hr]
  cases hp : s._proc_type_table with
  | nil => exact absurd hp hpne
  | cons r0 rest =>
    obtain ⟨al, mn, ef, ht, rfl⟩ := length_four (hi.ptt_rows r0 (by simp [hp]))
    refine ⟨id, sock, core, ty, gr, used, al, mn, ef, ht, rest, hrow', rfl, ?_⟩
    have hP : ¬ info.Relationship = RelationProcessorPackage := by rw [hK]; decide
    have hC : ¬ info.Relationship = RelationProcessorCore := by rw [hK]; decide
    have h0 : vecGet [(i : Int)] 0 = some (i : Int) := by simp [vecGet]
    have hts := tabSet_type_group hrow' MAIN_CORE_PROC s.group
    obtain ⟨c1, hc1, hc2⟩ := Option.bind_eq_some.1 hts
    unfold step
    rw [if_neg hP, if_neg hC, if_pos ⟨hK, hL⟩]
    unfold stepCache
    simp only [hmask, MaskToList_two_pow, List.length_singleton, Nat.cast_one, h0,
      Option.some_bind, hrow, hc1, hc2, hp, tabAdd_main]
    simp

/-- C15 at the state after Package, Core{0}, with the cache record
L2-Cache{0}: row 0 gets type MainPerformance and group 0, the MainPerformance
count and the group counter become 1. -/
theorem cache_single_step_witness :
    run (initState [] []) singleCoreStream = some singleCoreState ∧
    (CacheBoundary 2 0x01).Relationship = RelationCache ∧ (CacheBoundary 2 0x01).Level = 2 ∧
    (CacheBoundary 2 0x01).Mask = 2 ^ 0 ∧
    ((0 : Nat) : Int) + singleCoreState.base_proc = ((0 : Nat) : Int) ∧
    0 < singleCoreState._cpu_mapping_table.length ∧
    step singleCoreState (CacheBoundary 2 0x01) = some { singleCoreState with
      _cpu_mapping_table := [[0, 0, 0, 1, 0, -1]],
      _proc_type_table := [[1, 1, 0, 0]],
      group := 1 } ∧
    ∃ id sock core ty gr used al mn ef ht rest,
      singleCoreState._cpu_mapping_table[0]? = some [id, sock, core, ty, gr, used] ∧
      singleCoreState._proc_type_table = [al, mn, ef, ht] :: rest ∧
      step singleCoreState (CacheBoundary 2 0x01) = some { singleCoreState with
        _cpu_mapping_table :=
          singleCoreState._cpu_mapping_table.set 0
            [id, sock, core, MAIN_CORE_PROC, singleCoreState.group, used],
        _proc_type_table := [al, mn + 1, ef, ht] :: rest,
        group := singleCoreState.group + 1 } :=
  ⟨by decide, rfl, rfl, by decide, by decide, by decide, by decide,
    cache_single_step singleCoreStream singleCoreState (CacheBoundary 2 0x01) 0 0
      (by decide) rfl rfl (by decide) (by decide) (by decide)⟩

/-! ## Claims about ignored records, mask decoding and the core count -/

/-- C16: a cache record whose level is not 2, or whose level is 2 and whose
mask has a number of set bits other than 1 and 4, leaves every component of
the parser state as it is, in every state; these are the records `noSignal`
selects, and deleting all of them from a stream changes neither the run of the
record loop from any state nor the result of `parse_processor_info_win` on any
tables. -/
theorem no_signal_cache_is_ignored :
    (∀ (s : State) (info : SYSTEM_LOGICAL_PROCESSOR_INFORMATION_EX),
      info.Relationship = RelationCache →
      (info.Level ≠ 2 ∨ (setBits info.Mask ≠ 1 ∧ setBits info.Mask ≠ 4)) →
      step s info = some s) ∧
    (∀ info : SYSTEM_LOGICAL_PROCESSOR_INFORMATION_EX,
      noSignal info = true ↔
        (info.Relationship = RelationCache ∧
          (info.Level ≠ 2 ∨ (setBits info.Mask ≠ 1 ∧ setBits info.Mask ≠ 4)))) ∧
    (∀ (s : State) (records : List SYSTEM_LOGICAL_PROCESSOR_INFORMATION_EX),
      run s (records.filter fun info => !noSignal info) = run s records) ∧
    (∀ (records : List SYSTEM_LOGICAL_PROCESSOR_INFORMATION_EX) (ptt cmt : List (List Int)),
      parse_processor_info_win (records.filter fun info => !noSignal info) ptt cmt =
        parse_processor_info_win records ptt cmt) := by
  have hiff : ∀ info : SYSTEM_LOGICAL_PROCESSOR_INFORMATION_EX,
      noSignal info = true ↔
        (info.Relationship = RelationCache ∧
          (info.Level ≠ 2 ∨ (setBits info.Mask ≠ 1 ∧ setBits info.Mask ≠ 4))) := by
    intro info
    simp only [noSignal, Bool.and_eq_true, Bool.or_eq_true, decide_eq_true_eq,
      MaskToList_length]
  refine ⟨fun s info hK h => step_noSignal ((hiff info).2 ⟨hK, h⟩), hiff,
    fun s records => run_filter_noSignal records s, fun records ptt cmt => ?_⟩
  unfold parse_processor_info_win
  rw [run_filter_noSignal]

/-- C16 at the hybrid stream with a level-1, a level-3 and a 2-wide level-2
cache record added: deleting them gives the hybrid stream, and both streams
have the same result. -/
theorem no_signal_cache_is_ignored_witness :
    (paddedHybridStream.filter fun info => !noSignal info) = hybridStream ∧
    parse_processor_info_win hybridStream [] [] =
      parse_processor_info_win paddedHybridStream [] [] ∧
    step singleCoreState (CacheBoundary 3 0x01) = some singleCoreState := by
  have hf : (paddedHybridStream.filter fun info => !noSignal info) = hybridStream := by decide
  refine ⟨hf, ?_, ?_⟩
  · rw [← hf]
    exact no_signal_cache_is_ignored.2.2.2 paddedHybridStream [] []
  · exact no_signal_cache_is_ignored.1 singleCoreState (CacheBoundary 3 0x01) rfl
      (Or.inl (by decide))

/-- C17: `MaskToList` is total and its loop ends because the mask has become
0 (any larger iteration bound gives the same list); the list is strictly
increasing, holds position `i` exactly when bit `i` of the mask is set, has no
negative entry, has as many entries as the mask has set bits, is empty exactly
for mask 0, and the powers `2 ^ i` over the list sum to the mask, so two masks
with the same list are equal. -/
theorem MaskToList_decodes_set_bits (mask : Nat) :
    (∀ fuel, mask ≤ fuel → MaskToList.loop fuel mask 0 [] = MaskToList mask) ∧
    (MaskToList mask).Pairwise (· < ·) ∧
    (∀ i : Nat, (i : Int) ∈ MaskToList mask ↔ mask.testBit i = true) ∧
    (∀ x ∈ MaskToList mask, 0 ≤ x) ∧
    (MaskToList mask).length = setBits mask ∧
    (MaskToList mask = [] ↔ mask = 0) ∧
    ((MaskToList mask).map fun i => 2 ^ i.toNat).sum = mask ∧
    (∀ mask', MaskToList mask' = MaskToList mask → mask' = mask) := by
  refine ⟨fun fuel h => loop_fuel fuel mask mask 0 [] h (Nat.le_refl _),
    MaskToList_sorted mask, fun i => ?_, fun x hx => ?_, MaskToList_length mask, ?_,
    MaskToList_sum mask, fun mask' h => ?_⟩
  · rw [MaskToList_mem]
    constructor
    · rintro ⟨k, hk, hb⟩
      have : i = k := by exact_mod_cast hk
      rw [this]; exact hb
    · intro hb
      exact ⟨i, rfl, hb⟩
  · obtain ⟨k, hk, -⟩ := (MaskToList_mem mask x).1 hx
    rw [hk]; exact Int.natCast_nonneg k
  · constructor
    · intro h
      by_contra hne
      exact MaskToList_ne_nil hne h
    · intro h
      rw [h]; rfl
  · rw [← MaskToList_sum mask', h, MaskToList_sum]

/-- C17 at mask 0xF0: the list is 4, 5, 6, 7. -/
theorem MaskToList_decodes_set_bits_witness :
    MaskToList 0xF0 = [4, 5, 6, 7] ∧ (MaskToList 0xF0).length = setBits 0xF0 ∧
    ((MaskToList 0xF0).map fun i => 2 ^ i.toNat).sum = 0xF0 :=
  ⟨by decide, (MaskToList_decodes_set_bits 0xF0).2.2.2.2.1,
    (MaskToList_decodes_set_bits 0xF0).2.2.2.2.2.2.1⟩

/-- C18: when both calls of the core-only query follow the protocol and the
buffer holds `n ≥ 1` records of positive size whose sizes sum to the buffer
size, the walk of `get_number_of_cpu_cores` ends (any iteration bound of at
least `n` gives the result) and with `bigCoresOnly = false` the function
returns `n`, whatever the records' kinds and masks, the threading layer and
its core types; when the sizing call succeeds or fails with another error than
`ERROR_INSUFFICIENT_BUFFER`, or the fetch call fails, it returns the value of
`parallel_get_max_threads()`. -/
theorem get_number_of_cpu_cores_counts_records (q : TopologyQuery) (fallback_val : Int)
    (tbb : Bool) (core_types_size : Nat) (big_core_concurrency : Int) (fuel : Nat) :
    (q.sizing_result = false → q.sizing_error = ERROR_INSUFFICIENT_BUFFER →
      q.fetch_result = true → q.buffer ≠ [] → (∀ info ∈ q.buffer, 0 < info.Size) →
      sizeSum q.buffer = q.len → q.buffer.length ≤ fuel →
      get_number_of_cpu_cores q fallback_val tbb core_types_size big_core_concurrency false
        fuel = some (q.buffer.length : Int)) ∧
    (∀ bigCoresOnly : Bool,
      (q.sizing_result = true ∨ q.sizing_error ≠ ERROR_INSUFFICIENT_BUFFER ∨
        q.fetch_result = false) →
      get_number_of_cpu_cores q fallback_val tbb core_types_size big_core_concurrency
        bigCoresOnly fuel = some fallback_val) := by
  constructor
  · intro hs he hf hne hpos hsum hfuel
    have h1 : ¬ (q.sizing_result = true ∨ q.sizing_error ≠ ERROR_INSUFFICIENT_BUFFER) := by
      rintro (h | h)
      · rw [hs] at h; cases h
      · exact h he
    have h2 : ¬ ¬ q.fetch_result = true := fun h => h hf
    have hloop := countLoop_spec q.len q.buffer [] 0 fuel hne (by simpa using hpos)
      (by simpa using hsum) hfuel
    simp only [List.nil_append, sizeSum_nil, zero_add] at hloop
    unfold get_number_of_cpu_cores
    rw [if_neg h1, if_neg h2, hloop]
    simp
  · intro bigCoresOnly hfail
    unfold get_number_of_cpu_cores
    by_cases h1 : q.sizing_result = true ∨ q.sizing_error ≠ ERROR_INSUFFICIENT_BUFFER
    · rw [if_pos h1]
    · rw [if_neg h1]
      have h2 : ¬ q.fetch_result = true := by
        rcases hfail with h | h | h
        · exact absurd (Or.inl h) h1
        · exact absurd (Or.inr h) h1
        · rw [h]; decide
      rw [if_pos h2]

/-- C18 at a buffer of four core records of 48 bytes, with 12 as the value of
`parallel_get_max_threads()`: the function returns 4; a failing fetch call
gives 12. -/
theorem get_number_of_cpu_cores_counts_records_witness :
    sizeSum fourCoreQuery.buffer = fourCoreQuery.len ∧
    get_number_of_cpu_cores fourCoreQuery 12 true 2 6 false 4 = some 4 ∧
    get_number_of_cpu_cores failedFetchQuery 12 true 2 6 true 4 = some 12 :=
  ⟨by decide,
    (get_number_of_cpu_cores_counts_records fourCoreQuery 12 true 2 6 4).1 rfl rfl rfl
      (by decide) (by decide) (by decide) (by decide),
    (get_number_of_cpu_cores_counts_records failedFetchQuery 12 true 2 6 4).2 true
      (Or.inr (Or.inr rfl))⟩

/-- C19: on a stream that opens with a package record, whose core masks are
all non-zero and that has no level-2 cache record with exactly 1 or exactly 4
set bits, the parser started on empty tables has a result, so no vector is
left; in detail, at every record of the stream the records before it have been
processed and the loop body succeeds on it, at a core record `list[0]` exists,
`list[1]` exists when two positions were decoded and row 0 of the count table
exists with its four columns, and in the result of more than one socket the
rows 1 to `_sockets` of the count table exist with four columns. -/
theorem no_out_of_range_access (records : List SYSTEM_LOGICAL_PROCESSOR_INFORMATION_EX)
    (hfirst : StartsWithPackage records) (hsafe : FaultFree records) :
    ∃ r, parse_processor_info_win records [] [] = some r ∧
      (∀ pre info post, records = pre ++ info :: post →
        ∃ s s', run (initState [] []) pre = some s ∧ step s info = some s' ∧
          (info.Relationship = RelationProcessorCore →
            (∃ l0, vecGet (MaskToList info.Mask) 0 = some l0) ∧
            ((MaskToList info.Mask).length = 2 →
              ∃ l1, vecGet (MaskToList info.Mask) 1 = some l1) ∧
            ∃ row0, vecGet s._proc_type_table 0 = some row0 ∧ row0.length = 4)) ∧
      (1 < r._sockets → ∀ m : Nat, 1 ≤ m → (m : Int) ≤ r._sockets →
        ∃ row, vecGet r._proc_type_table m = some row ∧ row.length = 4) := by
  obtain ⟨r, hr⟩ := parse_ok hfirst hsafe
  refine ⟨r, hr, ?_, ?_⟩
  · intro pre info post hrec
    have hrun : ∃ sf, run (initState [] []) records = some sf := by
      unfold parse_processor_info_win at hr
      obtain ⟨sf, hsf, -⟩ := Option.bind_eq_some.1 hr
      exact ⟨sf, hsf⟩
    obtain ⟨sf, hsf⟩ := hrun
    rw [hrec, run_append] at hsf
    obtain ⟨s, hs, hrest⟩ := Option.bind_eq_some.1 hsf
    obtain ⟨s', hstep, -⟩ := run_cons hrest
    refine ⟨s, s', hs, hstep, fun hC => ?_⟩
    have hi := run_inv pre init_inv hs
    have hP : ¬ info.Relationship = RelationProcessorPackage := by rw [hC]; decide
    unfold step at hstep
    rw [if_neg hP, if_pos hC] at hstep
    obtain ⟨l0, tl, a, b, c, d, rest, hl, hp, -⟩ := stepCore_spec hstep hi.ptt_rows hi.window
    refine ⟨⟨l0, by rw [hl]; simp [vecGet]⟩, fun h2 => ?_,
      [a, b, c, d], by rw [hp]; simp [vecGet], rfl⟩
    rw [hl] at h2 ⊢
    cases tl with
    | nil => simp at h2
    | cons l1 tl1 => exact ⟨l1, by simp [vecGet]⟩
  · intro hk m h1 hm
    obtain ⟨s, -, -, -, hsock, -, -, -, hptt⟩ := parse_spec hr
    rcases hptt with ⟨hle, -⟩ | ⟨-, r0, rest, -, hlen, hrows⟩
    · rw [hsock] at hk
      have : (1 : Int) < 1 := lt_of_lt_of_le hk (by exact_mod_cast hle)
      omega
    · have hall := (parse_total_row (by rw [hsock] at hk; exact_mod_cast hk) hr).2.1
      rw [hsock] at hm
      have hm' : m ≤ countPackages records := by exact_mod_cast hm
      have hlt : m < r._proc_type_table.length := by
        rw [hrows]; simp; omega
      refine ⟨r._proc_type_table[m], ?_, ?_⟩
      · simp [vecGet, List.getElem?_eq_getElem hlt]
      · exact hall _ (List.getElem_mem hlt)

/-- C19 at the stream of two sockets with four hyperthreaded cores each. -/
theorem no_out_of_range_access_witness :
    StartsWithPackage dualSocketStream ∧ FaultFree dualSocketStream ∧
    ∃ r, parse_processor_info_win dualSocketStream [] [] = some r ∧
      r._sockets = 2 ∧ r._proc_type_table.length = 3 := by
  have hfirst : StartsWithPackage dualSocketStream := ⟨_, _, rfl, rfl⟩
  have hsafe : FaultFree dualSocketStream := by
    intro info hmem
    simp only [dualSocketStream, hyperthreadedStream, List.cons_append, List.nil_append,
      List.mem_cons, List.mem_singleton, List.not_mem_nil, or_false] at hmem
    rcases hmem with h | h | h | h | h | h | h | h | h | h <;> subst h <;>
      exact ⟨by decide, by decide⟩
  obtain ⟨r, hr, -, -⟩ := no_out_of_range_access dualSocketStream hfirst hsafe
  refine ⟨hfirst, hsafe, r, hr, ?_, ?_⟩
  · have hd : (parse_processor_info_win dualSocketStream [] []).map (fun x => x._sockets) =
        some 2 := by decide
    rw [hr] at hd
    exact Option.some.inj hd
  · have hd : (parse_processor_info_win dualSocketStream [] []).map
        (fun x => x._proc_type_table.length) = some 3 := by decide
    rw [hr] at hd
    exact Option.some.inj hd

/-- C20: in the result of every stream processed to completion from empty
tables (such a stream has no core record before its first package record), the
physical core ids and the socket ids of the mapping rows, read in table order,
do not decrease, every row has a physical core id in `[0, _cores)` and a
socket id in `[0, _sockets)`; and at every cache record of the stream the loop
body leaves the processor id, the socket id and the physical core id of every
row as they are. -/
theorem mapping_rows_are_ordered (records : List SYSTEM_LOGICAL_PROCESSOR_INFORMATION_EX)
    (r : State) (h : parse_processor_info_win records [] [] = some r) :
    (r._cpu_mapping_table.map physicalCoreId).Pairwise cellLe ∧
    (r._cpu_mapping_table.map socketId).Pairwise cellLe ∧
    (∀ row ∈ r._cpu_mapping_table, ∃ c, physicalCoreId row = some c ∧ 0 ≤ c ∧ c < r._cores) ∧
    (∀ row ∈ r._cpu_mapping_table, ∃ v, socketId row = some v ∧ 0 ≤ v ∧ v < r._sockets) ∧
    (∀ pre info post s s', records = pre ++ info :: post →
      info.Relationship = RelationCache →
      run (initState [] []) pre = some s → step s info = some s' →
      s'._cpu_mapping_table.map processorId = s._cpu_mapping_table.map processorId ∧
      s'._cpu_mapping_table.map socketId = s._cpu_mapping_table.map socketId ∧
      s'._cpu_mapping_table.map physicalCoreId = s._cpu_mapping_table.map physicalCoreId) := by
  obtain ⟨s, hrun, hi, hs1, hs2, -, hcores, hcmt, -⟩ := parse_spec h
  have ho := run_ordered records init_inv init_ordered hrun
  refine ⟨?_, ?_, ?_, ?_, ?_⟩
  · rw [hcmt]; exact ho.cores_sorted
  · rw [hcmt]; exact ho.sockets_sorted
  · intro row hrow
    rw [hcmt] at hrow
    rw [hcores]
    exact ho.cores_range _ (List.mem_map_of_mem physicalCoreId hrow)
  · intro row hrow
    rw [hcmt] at hrow
    obtain ⟨v, hv, h0, hle⟩ := ho.sockets_range _ (List.mem_map_of_mem socketId hrow)
    refine ⟨v, hv, h0, ?_⟩
    rw [hs2, ← hs1]
    omega
  · intro pre info post s0 s' _ hK hpre hstep
    exact step_cache_columns (run_inv pre init_inv hpre) hK hstep

/-- C20 at the hybrid stream: the columns of the eight rows. -/
theorem mapping_rows_are_ordered_witness :
    ∃ r, parse_processor_info_win hybridStream [] [] = some r ∧
      r._cpu_mapping_table.map physicalCoreId =
        [some 0, some 0, some 1, some 1, some 2, some 3, some 4, some 5] ∧
      r._cpu_mapping_table.map socketId =
        [some 0, some 0, some 0, some 0, some 0, some 0, some 0, some 0] ∧
      (r._cpu_mapping_table.map physicalCoreId).Pairwise cellLe ∧
      (∀ row ∈ r._cpu_mapping_table, ∃ v, socketId row = some v ∧ 0 ≤ v ∧ v < r._sockets) := by
  cases hp : parse_processor_info_win hybridStream [] [] with
  | none => exact absurd hp (by decide)
  | some r =>
    have hc : (parse_processor_info_win hybridStream [] []).map
        (fun x => x._cpu_mapping_table.map physicalCoreId) =
        some [some 0, some 0, some 1, some 1, some 2, some 3, some 4, some 5] := by decide
    have hk : (parse_processor_info_win hybridStream [] []).map
        (fun x => x._cpu_mapping_table.map socketId) =
        some [some 0, some 0, some 0, some 0, some 0, some 0, some 0, some 0] := by decide
    rw [hp] at hc hk
    obtain ⟨h1, -, -, h4, -⟩ := mapping_rows_are_ordered hybridStream r hp
    exact ⟨r, rfl, Option.some.inj hc, Option.some.inj hk, h1, h4⟩

end ov
